import Mathlib

/-! The Mukku compiler (`src/main.cpp`): a shallow embedding and its properties.

The C++ program is a one-file teaching compiler: a regex-table tokenizer, a
recursive-descent / precedence-climbing parser, a flat-scope semantic checker,
two code generators (three-address code and register-cycling pseudo-assembly)
and a tree-walking interpreter, all over one string-tagged tree `ASTNode`.

Conventions of the embedding.

* `std::string` is `String`; the source text is scanned as its list of
  characters (one `Char` per `char` of the file).
* `std::vector<T>` is `List T`; `push_back` appends at the end.
* `shared_ptr<ASTNode>` that may be null is `Option ASTNode`.  `addChild`
  dereferences its argument, so a node never holds a null child and
  `children` is a `List ASTNode`.  The field `indentLevel` is only read by
  `ASTNode::print`, which no stage calls; it is left out.
* Undefined operations of the C++ program (reading `children[i]` past the end,
  `addChild(nullptr)`, integer division by zero or `INT_MIN / -1`, an uncaught
  exception of `std::stoi`) are modelled as an explicit fault result.
* `int` values of the interpreter are integers kept in the 32-bit range by
  `wrapInt`.  Counters (`pos`, `line`, `tempCount`, `regCount`) are natural
  numbers: they start at 0 and only grow by one per character or node.
* `std::map<string, string> symbolTable` is the list of its keys in the order
  of insertion while the checker runs (only membership is ever asked); where
  `compile` lists the table, the keys are put in the order of iteration of the
  map by `keyOrder`.
* Loops whose termination is not structural take a fuel argument and report
  `outOfFuel`/`none` when it is used up.
-/

namespace Mukku

/-! ## Tokens -/

/-- The `enum class TokenType`. -/
inductive TokenType where
  | VAL | PRT | AGAR | NHI_TO | BHEJO
  | ID | NUMBER | STRING
  | OP | COMPARE | ASSIGN
  | LPAREN | RPAREN | LBRACE | RBRACE | SEMI
  | END
deriving DecidableEq, Repr

/-- The `struct Token`. -/
structure Token where
  type : TokenType
  value : String
  line : Nat
  column : Nat
deriving DecidableEq, Repr

/-! ## Tokenizer -/

/-- The shapes of regular expression that occur in `tokenSpecs`. Each is
matched anchored at the start of the remaining input (`"^" + pattern` with
`regex_search`; in the ECMAScript grammar without the multiline option `^`
matches at the start of the input only), greedily. -/
inductive Pattern where
  /-- A pattern that is a literal text, such as `val`, `==`, `\(`. -/
  | lit (s : String)
  /-- A one-character class, such as `[+*/\-]`. -/
  | anyOf (cs : List Char)
  /-- The pattern `"[^"]*"`. -/
  | stringLit
  /-- The pattern `[0-9]+`. -/
  | digits
  /-- The pattern `[a-zA-Z_][a-zA-Z0-9_]*`. -/
  | ident
deriving Repr, DecidableEq

/-- The class `[a-zA-Z_]`. -/
def isIdentStart (c : Char) : Bool := c.isAlpha || c == '_'

/-- The class `[a-zA-Z0-9_]`. -/
def isIdentChar (c : Char) : Bool := c.isAlphanum || c == '_'

/-- The class `[^"]`. -/
def isNotQuote (c : Char) : Bool := c != '"'

/-- The text `match.str()` of an anchored search for the pattern in
`remaining`, or `none` when `regex_search` fails. -/
def matchPattern : Pattern → List Char → Option (List Char)
  | .lit s, remaining => if s.data.isPrefixOf remaining then some s.data else none
  | .anyOf cs, c :: _ => if cs.contains c then some [c] else none
  | .anyOf _, [] => none
  | .stringLit, c :: rest =>
    if c == '"' then
      match rest.dropWhile isNotQuote with
      | _ :: _ => some (c :: (rest.takeWhile isNotQuote ++ ['"']))
      | [] => none
    else none
  | .stringLit, [] => none
  | .digits, remaining =>
    match remaining.takeWhile Char.isDigit with
    | [] => none
    | d :: ds => some (d :: ds)
  | .ident, c :: rest =>
    if isIdentStart c then some (c :: rest.takeWhile isIdentChar) else none
  | .ident, [] => none

/-- The table `tokenSpecs`, in its declared order. -/
def tokenSpecs : List (Pattern × TokenType) :=
  [ (.lit "val", .VAL),
    (.lit "prt", .PRT),
    (.lit "agar", .AGAR),
    (.lit "nhi-to", .NHI_TO),
    (.lit "bhejo", .BHEJO),
    (.lit "==", .COMPARE),
    (.lit "!=", .COMPARE),
    (.lit "<=", .COMPARE),
    (.lit ">=", .COMPARE),
    (.lit "<", .COMPARE),
    (.lit ">", .COMPARE),
    (.lit "=", .ASSIGN),
    (.anyOf ['+', '*', '/', '-'], .OP),
    (.lit "(", .LPAREN),
    (.lit ")", .RPAREN),
    (.lit "\x7b", .LBRACE),
    (.lit "\x7d", .RBRACE),
    (.lit ";", .SEMI),
    (.stringLit, .STRING),
    (.digits, .NUMBER),
    (.ident, .ID) ]

/-- The inner `for` loop of `tokenize`: the first rule of the table that
matches `remaining`, with the matched text. -/
def firstMatch : List (Pattern × TokenType) → List Char → Option (TokenType × List Char)
  | [], _ => none
  | (p, ty) :: specs, remaining =>
    match matchPattern p remaining with
    | some v => some (ty, v)
    | none => firstMatch specs remaining

/-- The function `isspace` of the C locale. -/
def isspace (c : Char) : Bool :=
  c == ' ' || c == '\t' || c == '\n' || c == '\x0b' || c == '\x0c' || c == '\r'

/-- The local variables of `tokenize` together with the two vectors it fills.
`rest` is `source.substr(pos)`. -/
structure LexState where
  rest : List Char
  pos : Nat
  line : Nat
  lineStart : Nat
  tokens : List Token
  errors : List String
deriving Repr

/-- The inner `while` of `tokenize`, which skips white space and counts lines. -/
def skipSpaces : List Char → Nat → Nat → Nat → List Char × Nat × Nat × Nat
  | [], pos, line, lineStart => ([], pos, line, lineStart)
  | c :: cs, pos, line, lineStart =>
    if isspace c then
      if c == '\n' then skipSpaces cs (pos + 1) (line + 1) (pos + 1)
      else skipSpaces cs (pos + 1) line lineStart
    else (c :: cs, pos, line, lineStart)

/-- The message recorded for a position where no rule matches. -/
def illegalCharMsg (c : Char) (line column : Nat) : String :=
  "Illegal character '" ++ String.singleton c ++ "' at line " ++ toString line ++
    ", column " ++ toString column

/-- The outer `while` of `tokenize`; one unit of fuel per iteration. -/
def tokenizeLoop : Nat → LexState → Option LexState
  | 0, _ => none
  | fuel + 1, st =>
    match st.rest with
    | [] => some st
    | _ :: _ =>
      match skipSpaces st.rest st.pos st.line st.lineStart with
      | ([], pos, line, lineStart) =>
        some { st with rest := [], pos := pos, line := line, lineStart := lineStart }
      | (c :: cs, pos, line, lineStart) =>
        match firstMatch tokenSpecs (c :: cs) with
        | some (ty, v) =>
          tokenizeLoop fuel
            { rest := (c :: cs).drop v.length, pos := pos + v.length, line := line,
              lineStart := lineStart,
              tokens := st.tokens ++ [⟨ty, String.mk v, line, pos - lineStart⟩],
              errors := st.errors }
        | none =>
          tokenizeLoop fuel
            { rest := cs, pos := pos + 1, line := line, lineStart := lineStart,
              tokens := st.tokens,
              errors := st.errors ++ [illegalCharMsg c line (pos - lineStart)] }

/-- The method `tokenize`, started with empty `tokens` and `errors`: the token
vector, closed by the `END` sentinel, and the diagnostics. -/
def tokenize (source : String) : Option (List Token × List String) :=
  match tokenizeLoop (source.length + 1) ⟨source.data, 0, 1, 0, [], []⟩ with
  | some st => some (st.tokens ++ [⟨.END, "", st.line, 0⟩], st.errors)
  | none => none

/-! ## Syntax trees -/

/-- The `struct ASTNode`: a node kind, a payload and the owned children. -/
inductive ASTNode where
  | mk (nodeType : String) (value : String) (children : List ASTNode)
deriving Repr

/-- The field `nodeType`. -/
def ASTNode.nodeType : ASTNode → String
  | .mk ty _ _ => ty

/-- The field `value`. -/
def ASTNode.value : ASTNode → String
  | .mk _ v _ => v

/-- The field `children`. -/
def ASTNode.children : ASTNode → List ASTNode
  | .mk _ _ cs => cs

/-- The method `addChild`, for a non-null child. -/
def ASTNode.addChild : ASTNode → ASTNode → ASTNode
  | .mk ty v cs, child => .mk ty v (cs ++ [child])

mutual
/-- Equality of trees is decidable. -/
def ASTNode.decEq : (a b : ASTNode) → Decidable (a = b)
  | .mk t1 v1 c1, .mk t2 v2 c2 =>
    if h1 : t1 = t2 then
      if h2 : v1 = v2 then
        match ASTNode.decEqList c1 c2 with
        | isTrue h3 => isTrue (by rw [h1, h2, h3])
        | isFalse h3 => isFalse (fun h => h3 (by injection h))
      else isFalse (fun h => h2 (by injection h))
    else isFalse (fun h => h1 (by injection h))
/-- Equality of lists of trees is decidable. -/
def ASTNode.decEqList : (a b : List ASTNode) → Decidable (a = b)
  | [], [] => isTrue rfl
  | [], _ :: _ => isFalse (fun h => by cases h)
  | _ :: _, [] => isFalse (fun h => by cases h)
  | a :: as, b :: bs =>
    match ASTNode.decEq a b with
    | isTrue h1 =>
      match ASTNode.decEqList as bs with
      | isTrue h2 => isTrue (by rw [h1, h2])
      | isFalse h2 => isFalse (fun h => h2 (by injection h))
    | isFalse h1 => isFalse (fun h => h1 (by injection h))
end

instance : DecidableEq ASTNode := ASTNode.decEq

/-! ## Parser -/

/-- The parser's part of the compiler object: `rest` is the token vector from
`currentTokenIndex` on, `errors` the diagnostics vector. -/
structure ParseState where
  rest : List Token
  errors : List String
deriving Repr, DecidableEq

/-- The result of a parsing method: it returns `a` in state `st`, or it calls
`addChild(nullptr)`, or the model's fuel is used up. -/
inductive PResult (α : Type) where
  | ok (a : α) (st : ParseState)
  | crash
  | outOfFuel
deriving Repr, DecidableEq

/-- The method `currentToken`. The token vector always holds the `END`
sentinel, so the index is in range; the default is never used on such a
vector. -/
def currentToken (st : ParseState) : Token :=
  match st.rest with
  | t :: _ => t
  | [] => ⟨.END, "", 0, 0⟩

/-- The method `advance`: it moves on unless the index is the last one. -/
def advance (st : ParseState) : ParseState :=
  match st.rest with
  | _ :: t :: ts => { st with rest := t :: ts }
  | _ => st

/-- The statement `errors.push_back(msg)`. -/
def pushError (st : ParseState) (msg : String) : ParseState :=
  { st with errors := st.errors ++ [msg] }

/-- The method `getPrecedence`. -/
def getPrecedence (op : String) : Int :=
  if op == "==" || op == "!=" || op == "<" || op == ">" || op == "<=" || op == ">=" then 0
  else if op == "+" || op == "-" then 1
  else if op == "*" || op == "/" then 2
  else -1

/-- The method `parsePrimary`. -/
def parsePrimary (st : ParseState) : Option ASTNode × ParseState :=
  if (currentToken st).type = .ID then
    (some (.mk "Identifier" (currentToken st).value []), advance st)
  else if (currentToken st).type = .NUMBER then
    (some (.mk "NumberLiteral" (currentToken st).value []), advance st)
  else
    (none, pushError st "Expected identifier or number in expression")

/-- The `while (true)` loop of `parseExpression`; `recur` is the recursive call
`parseExpression(prec + 1)`. -/
def exprLoop (recur : Int → ParseState → PResult (Option ASTNode)) :
    Nat → Int → Option ASTNode → ParseState → PResult (Option ASTNode)
  | 0, _, _, _ => .outOfFuel
  | fuel + 1, minPrec, left, st =>
    let op := (currentToken st).value
    let prec := getPrecedence op
    if ((currentToken st).type = .OP ∨ (currentToken st).type = .COMPARE) ∧ prec ≥ minPrec then
      match recur (prec + 1) (advance st) with
      | .ok none st1 => .ok none st1
      | .ok (some right) st1 =>
        match left with
        | none => .crash
        | some l => exprLoop recur fuel minPrec (some (.mk "BinaryExpr" op [l, right])) st1
      | .crash => .crash
      | .outOfFuel => .outOfFuel
    else .ok left st

/-- The method `parseExpression(minPrec)`. -/
def parseExpression : Nat → Int → ParseState → PResult (Option ASTNode)
  | 0, _, _ => .outOfFuel
  | fuel + 1, minPrec, st =>
    exprLoop (parseExpression fuel) fuel minPrec (parsePrimary st).1 (parsePrimary st).2

/-- The method `parseReturn`. -/
def parseReturn (fuel : Nat) (st : ParseState) : PResult (Option ASTNode) :=
  match parseExpression fuel 0 (advance st) with
  | .ok none st1 => .ok none (pushError st1 "Invalid expression in bhejo statement")
  | .ok (some expr) st1 =>
    if (currentToken st1).type ≠ .SEMI then
      .ok none (pushError st1 "Expected ';' after bhejo statement")
    else .ok (some (.mk "Return" "" [expr])) (advance st1)
  | .crash => .crash
  | .outOfFuel => .outOfFuel

/-- The tail of `parsePrint`, after its argument `expr` has been parsed. -/
def finishPrint (expr : Option ASTNode) (st : ParseState) : PResult (Option ASTNode) :=
  if (currentToken st).type ≠ .RPAREN then
    .ok none (pushError st "Expected ')' after prt argument")
  else if (currentToken (advance st)).type ≠ .SEMI then
    .ok none (pushError (advance st) "Expected ';' after prt statement")
  else
    match expr with
    | some e => .ok (some (.mk "Print" "" [e])) (advance (advance st))
    | none => .ok (some (.mk "Print" "" [])) (advance (advance st))

/-- The method `parsePrint`. -/
def parsePrint (fuel : Nat) (st : ParseState) : PResult (Option ASTNode) :=
  let st1 := advance st
  if (currentToken st1).type ≠ .LPAREN then
    .ok none (pushError st1 "Expected '(' after 'prt'")
  else
    let st2 := advance st1
    if (currentToken st2).type = .STRING then
      finishPrint (some (.mk "StringLiteral" (currentToken st2).value [])) (advance st2)
    else
      match parseExpression fuel 0 st2 with
      | .ok expr st3 => finishPrint expr st3
      | .crash => .crash
      | .outOfFuel => .outOfFuel

/-- The member `reservedKeywords`. -/
def reservedKeywords : List String := ["val", "prt", "agar", "nhi-to", "bhejo"]

/-- The tail of `parseDeclaration`, after the optional initializer. -/
def finishDeclaration (varName : String) (expr : Option ASTNode) (st : ParseState) :
    PResult (Option ASTNode) :=
  if (currentToken st).type ≠ .SEMI then
    .ok none (pushError st
      ("Expected ';' at end of declaration at line " ++ toString (currentToken st).line))
  else
    match expr with
    | some e => .ok (some (.mk "Declaration" varName [e])) (advance st)
    | none => .ok (some (.mk "Declaration" varName [])) (advance st)

/-- The method `parseDeclaration`. -/
def parseDeclaration (fuel : Nat) (st : ParseState) : PResult (Option ASTNode) :=
  let st1 := advance st
  let tok := currentToken st1
  if tok.type = .VAL ∨ tok.type = .PRT ∨ tok.type = .AGAR ∨ tok.type = .NHI_TO ∨
      tok.type = .BHEJO then
    .ok none (pushError st1
      ("Cannot use reserved keyword '" ++ tok.value ++
        "' as an identifier after 'val' at line " ++ toString tok.line))
  else if tok.type ≠ .ID then
    .ok none (pushError st1
      ("Expected identifier after 'val' at line " ++ toString tok.line))
  else if reservedKeywords.contains tok.value then
    .ok none (pushError st1
      ("Cannot use reserved keyword '" ++ tok.value ++
        "' as an identifier after 'val' at line " ++ toString tok.line))
  else
    let st2 := advance st1
    if (currentToken st2).type = .ASSIGN then
      match parseExpression fuel 0 (advance st2) with
      | .ok none st3 =>
        .ok none (pushError st3
          ("Invalid expression in declaration at line " ++ toString (currentToken st3).line))
      | .ok (some e) st3 => finishDeclaration tok.value (some e) st3
      | .crash => .crash
      | .outOfFuel => .outOfFuel
    else finishDeclaration tok.value none st2

/-- The two block loops of `parseIfElse`: statements are parsed and added to
`block` until `}` or `END`; `stmt` is the call `parseStatement()`. -/
def blockLoop (stmt : ParseState → PResult (Option ASTNode)) :
    Nat → ASTNode → ParseState → PResult ASTNode
  | 0, _, _ => .outOfFuel
  | fuel + 1, block, st =>
    if (currentToken st).type ≠ .RBRACE ∧ (currentToken st).type ≠ .END then
      match stmt st with
      | .ok (some s) st1 => blockLoop stmt fuel (block.addChild s) st1
      | .ok none st1 => blockLoop stmt fuel block st1
      | .crash => .crash
      | .outOfFuel => .outOfFuel
    else .ok block st

/-- The part of `parseIfElse` after the then-block has been closed: the
optional `nhi-to` block, then the `IfElse` node. -/
def parseElse (stmt : ParseState → PResult (Option ASTNode)) (fuel : Nat)
    (condition ifBlock : ASTNode) (st : ParseState) : PResult (Option ASTNode) :=
  if (currentToken st).type = .NHI_TO then
    let st1 := advance st
    if (currentToken st1).type ≠ .LBRACE then
      .ok none (pushError st1 "Expected '\x7b' after nhi-to")
    else
      match blockLoop stmt fuel (.mk "Block" "" []) (advance st1) with
      | .ok elseBlock st2 =>
        if (currentToken st2).type ≠ .RBRACE then
          .ok none (pushError st2 "Expected '\x7d' at end of nhi-to block")
        else .ok (some (.mk "IfElse" "" [condition, ifBlock, elseBlock])) (advance st2)
      | .crash => .crash
      | .outOfFuel => .outOfFuel
  else .ok (some (.mk "IfElse" "" [condition, ifBlock])) st

/-- The method `parseIfElse`; `stmt` is the call `parseStatement()`. -/
def parseIfElse (stmt : ParseState → PResult (Option ASTNode)) (fuel : Nat)
    (st : ParseState) : PResult (Option ASTNode) :=
  let st1 := advance st
  if (currentToken st1).type ≠ .LPAREN then
    .ok none (pushError st1 "Expected '(' after 'agar'")
  else
    match parseExpression fuel 0 (advance st1) with
    | .ok none st2 => .ok none (pushError st2 "Invalid condition in agar statement")
    | .ok (some condition) st2 =>
      if (currentToken st2).type ≠ .RPAREN then
        .ok none (pushError st2 "Expected ')' after agar condition")
      else if (currentToken (advance st2)).type ≠ .LBRACE then
        .ok none (pushError (advance st2) "Expected '\x7b' after agar condition")
      else
        match blockLoop stmt fuel (.mk "Block" "" []) (advance (advance st2)) with
        | .ok ifBlock st3 =>
          if (currentToken st3).type ≠ .RBRACE then
            .ok none (pushError st3 "Expected '\x7d' at end of agar block")
          else parseElse stmt fuel condition ifBlock (advance st3)
        | .crash => .crash
        | .outOfFuel => .outOfFuel
    | .crash => .crash
    | .outOfFuel => .outOfFuel

/-- The method `parseStatement`. -/
def parseStatement : Nat → ParseState → PResult (Option ASTNode)
  | 0, _ => .outOfFuel
  | fuel + 1, st =>
    if (currentToken st).type = .VAL then parseDeclaration fuel st
    else if (currentToken st).type = .PRT then parsePrint fuel st
    else if (currentToken st).type = .AGAR then parseIfElse (parseStatement fuel) fuel st
    else if (currentToken st).type = .BHEJO then parseReturn fuel st
    else
      .ok none (advance (pushError st
        ("Unexpected statement or keyword '" ++ (currentToken st).value ++ "' at line " ++
          toString (currentToken st).line ++ ", column " ++
          toString (currentToken st).column)))

/-- The loop of `parseProgram`. -/
def programLoop (stmt : ParseState → PResult (Option ASTNode)) :
    Nat → ASTNode → ParseState → PResult ASTNode
  | 0, _, _ => .outOfFuel
  | fuel + 1, program, st =>
    if (currentToken st).type ≠ .END then
      match stmt st with
      | .ok (some s) st1 => programLoop stmt fuel (program.addChild s) st1
      | .ok none st1 => programLoop stmt fuel program st1
      | .crash => .crash
      | .outOfFuel => .outOfFuel
    else .ok program st

/-- The method `parseProgram` on the token vector `tokens`, with index 0 and
the diagnostics `errors` recorded so far. Every statement consumes a token, so
a fuel of one more than the number of tokens is never used up. -/
def parseProgram (tokens : List Token) (errors : List String) : PResult ASTNode :=
  programLoop (parseStatement (tokens.length + 1)) (tokens.length + 1)
    (.mk "Program" "" []) ⟨tokens, errors⟩

/-! ## Semantic checker -/

/-- The checker's part of the compiler object: the keys of `symbolTable` (every
entry has the value `"variable"`), listed in the order of their insertion, and
the diagnostics vector. The map itself is iterated in key order, see
`keyOrder`. -/
structure SemState where
  symbolTable : List String
  errors : List String
deriving Repr, DecidableEq

/-- The diagnostic of a redeclaration. -/
def alreadyDeclaredMsg (name : String) : String :=
  "Variable '" ++ name ++ "' already declared."

/-- The diagnostic of a use without declaration. -/
def undeclaredMsg (name : String) : String :=
  "Undeclared variable '" ++ name ++ "'"

/-- The `Declaration` case of `semanticAnalysis`, before the initializer is
visited. -/
def declare (name : String) (st : SemState) : SemState :=
  if name ∈ st.symbolTable then { st with errors := st.errors ++ [alreadyDeclaredMsg name] }
  else { st with symbolTable := st.symbolTable ++ [name] }

/-- The `Identifier` case of `semanticAnalysis`. -/
def checkUse (name : String) (st : SemState) : SemState :=
  if name ∈ st.symbolTable then st
  else { st with errors := st.errors ++ [undeclaredMsg name] }

mutual
/-- The method `semanticAnalysis` on a non-null node; `none` when it reads a
child that does not exist. -/
def semanticAnalysis : ASTNode → SemState → Option SemState
  | .mk ty v cs, st =>
    if ty = "Program" then semanticAnalysisAll cs st
    else if ty = "Declaration" then
      match cs with
      | [] => some (declare v st)
      | c :: _ => semanticAnalysis c (declare v st)
    else if ty = "Identifier" then some (checkUse v st)
    else if ty = "BinaryExpr" then
      match cs with
      | l :: r :: _ =>
        match semanticAnalysis l st with
        | some st1 => semanticAnalysis r st1
        | none => none
      | _ => none
    else if ty = "Return" then
      match cs with
      | [] => some st
      | c :: _ => semanticAnalysis c st
    else semanticAnalysisAll cs st
/-- The loop `for (child : children) semanticAnalysis(child)`. -/
def semanticAnalysisAll : List ASTNode → SemState → Option SemState
  | [], st => some st
  | c :: cs, st =>
    match semanticAnalysis c st with
    | some st1 => semanticAnalysisAll cs st1
    | none => none
end

/-! ## Three-address code -/

mutual
/-- The method `generateIntermediateCode`: the returned name, the code vector
and the counter `tempCount`; `none` when it reads a child that does not
exist. -/
def generateIntermediateCode : ASTNode → List String → Nat → Option (String × List String × Nat)
  | .mk ty v cs, code, tempCount =>
    if ty = "Program" then
      match generateIntermediateCodeAll cs code tempCount with
      | some (code1, n1) => some ("", code1, n1)
      | none => none
    else if ty = "Declaration" then
      match cs with
      | [] => some ("", code, tempCount)
      | c :: _ =>
        match generateIntermediateCode c code tempCount with
        | some (temp, code1, n1) => some ("", code1 ++ [v ++ " = " ++ temp], n1)
        | none => none
    else if ty = "BinaryExpr" then
      match cs with
      | l :: r :: _ =>
        match generateIntermediateCode l code tempCount with
        | some (leftTemp, code1, n1) =>
          match generateIntermediateCode r code1 n1 with
          | some (rightTemp, code2, n2) =>
            let resultTemp := "T" ++ toString (n2 + 1)
            some (resultTemp,
              code2 ++ [resultTemp ++ " = " ++ leftTemp ++ " " ++ v ++ " " ++ rightTemp], n2 + 1)
          | none => none
        | none => none
      | _ => none
    else if ty = "Identifier" then some (v, code, tempCount)
    else if ty = "NumberLiteral" then some (v, code, tempCount)
    else if ty = "Return" then
      match cs with
      | [] => some ("", code, tempCount)
      | c :: _ =>
        match generateIntermediateCode c code tempCount with
        | some (retVal, code1, n1) => some ("", code1 ++ ["return " ++ retVal], n1)
        | none => none
    else if ty = "Print" then
      match cs with
      | [] => some ("", code, tempCount)
      | c :: _ =>
        match generateIntermediateCode c code tempCount with
        | some (val, code1, n1) => some ("", code1 ++ ["print " ++ val], n1)
        | none => none
    else if ty = "IfElse" then
      match cs with
      | [c, t] =>
        match generateIntermediateCode c code tempCount with
        | some (cond, code1, n1) =>
          let labelElse := "L" ++ toString (n1 + 1)
          let labelEnd := "L" ++ toString (n1 + 2)
          match generateIntermediateCode t (code1 ++ ["ifnot " ++ cond ++ " goto " ++ labelElse])
              (n1 + 2) with
          | some (_, code2, n2) =>
            some ("", code2 ++ ["goto " ++ labelEnd, labelElse ++ ":", labelEnd ++ ":"], n2)
          | none => none
        | none => none
      | c :: t :: e :: _ =>
        match generateIntermediateCode c code tempCount with
        | some (cond, code1, n1) =>
          let labelElse := "L" ++ toString (n1 + 1)
          let labelEnd := "L" ++ toString (n1 + 2)
          match generateIntermediateCode t (code1 ++ ["ifnot " ++ cond ++ " goto " ++ labelElse])
              (n1 + 2) with
          | some (_, code2, n2) =>
            match generateIntermediateCode e (code2 ++ ["goto " ++ labelEnd, labelElse ++ ":"])
                n2 with
            | some (_, code3, n3) => some ("", code3 ++ [labelEnd ++ ":"], n3)
            | none => none
          | none => none
        | none => none
      | _ => none
    else some ("", code, tempCount)
/-- The loop `for (child : children) child->generateIntermediateCode(..)`. -/
def generateIntermediateCodeAll : List ASTNode → List String → Nat → Option (List String × Nat)
  | [], code, tempCount => some (code, tempCount)
  | c :: cs, code, tempCount =>
    match generateIntermediateCode c code tempCount with
    | some (_, code1, n1) => generateIntermediateCodeAll cs code1 n1
    | none => none
end

/-! ## Pseudo-assembly -/

/-- The method `getRegister`. -/
def getRegister (idx : Nat) : String :=
  ["eax", "ebx", "ecx", "edx"].getD (idx % 4) ""

/-- The instruction a `BinaryExpr` with operator `op` appends after the code of
its operands, and the name it returns; an operator that is none of `+ - * /`
appends nothing and falls through to the final `return ""`. -/
def binaryAsm (op leftReg rightReg : String) : List String × String :=
  if op = "+" then (["add " ++ leftReg ++ ", " ++ rightReg], leftReg)
  else if op = "-" then (["sub " ++ leftReg ++ ", " ++ rightReg], leftReg)
  else if op = "*" then (["imul " ++ leftReg ++ ", " ++ rightReg], leftReg)
  else if op = "/" then (["cdq", "idiv " ++ rightReg], leftReg)
  else ([], "")

mutual
/-- The method `generateAssembly`: the returned register name, the vector
`asmCode` and the counter `regCount`; `none` when it reads a child that does
not exist. -/
def generateAssembly : ASTNode → List String → Nat → Option (String × List String × Nat)
  | .mk ty v cs, asmCode, regCount =>
    if ty = "NumberLiteral" ∨ ty = "Identifier" then
      some (getRegister regCount,
        asmCode ++ ["mov " ++ getRegister regCount ++ ", " ++ v], regCount + 1)
    else if ty = "BinaryExpr" then
      match cs with
      | l :: r :: _ =>
        match generateAssembly l asmCode regCount with
        | some (leftReg, asm1, n1) =>
          match generateAssembly r asm1 n1 with
          | some (rightReg, asm2, n2) =>
            some ((binaryAsm v leftReg rightReg).2, asm2 ++ (binaryAsm v leftReg rightReg).1, n2)
          | none => none
        | none => none
      | _ => none
    else if ty = "Declaration" then
      match cs with
      | [] => some ("", asmCode ++ ["mov " ++ v ++ ", 0"], regCount)
      | c :: _ =>
        match generateAssembly c asmCode 0 with
        | some (resultReg, asm1, _) => some ("", asm1 ++ ["mov " ++ v ++ ", " ++ resultReg], regCount)
        | none => none
    else if ty = "Program" then
      match generateAssemblyAll cs asmCode regCount with
      | some (asm1, n1) => some ("", asm1, n1)
      | none => none
    else if ty = "Return" then
      match cs with
      | [] => some ("", asmCode, regCount)
      | c :: _ =>
        match generateAssembly c asmCode 0 with
        | some (retReg, asm1, _) => some ("", asm1 ++ ["mov eax, " ++ retReg, "ret"], regCount)
        | none => none
    else some ("", asmCode, regCount)
/-- The loop `for (child : children) child->generateAssembly(..)`. -/
def generateAssemblyAll : List ASTNode → List String → Nat → Option (List String × Nat)
  | [], asmCode, regCount => some (asmCode, regCount)
  | c :: cs, asmCode, regCount =>
    match generateAssembly c asmCode regCount with
    | some (_, asm1, n1) => generateAssemblyAll cs asm1 n1
    | none => none
end

/-! ## Interpreter -/

/-- The least `int`. -/
def INT_MIN : Int := -2147483648

/-- The greatest `int`. -/
def INT_MAX : Int := 2147483647

/-- The 32-bit two's complement value of an integer: the result an `int`
operation leaves when the exact result is out of range. -/
def wrapInt (n : Int) : Int := (n + 2147483648) % 4294967296 - 2147483648

/-- The value of a sequence of decimal digits. -/
def decimalValue (digits : List Char) : Nat :=
  digits.foldl (fun acc d => 10 * acc + (d.toNat - '0'.toNat)) 0

/-- The function `std::stoi` in base 10: leading white space, an optional
sign, then the longest run of digits. `none` stands for its exceptions
(`invalid_argument` without a digit, `out_of_range` beyond `int`). -/
def stoi (s : String) : Option Int :=
  let body := s.data.dropWhile isspace
  let negative := body.head? = some '-'
  let unsigned := if body.head? = some '-' ∨ body.head? = some '+' then body.tail else body
  let digits := unsigned.takeWhile Char.isDigit
  let n : Int := if negative then -(decimalValue digits : Int) else (decimalValue digits : Int)
  if digits = [] then none
  else if n < INT_MIN ∨ INT_MAX < n then none
  else some n

/-- The member `variables`, a `map<string, int>`, as an association list with
one entry per key. -/
abbrev Vars := List (String × Int)

/-- The lookup `variables.find(name)`. -/
def Vars.find (vars : Vars) (name : String) : Option Int :=
  match vars with
  | [] => none
  | (k, v) :: rest => if k = name then some v else Vars.find rest name

/-- The assignment `variables[name] = val`: the entry is overwritten, or
inserted when the key is new. -/
def Vars.set (vars : Vars) (name : String) (val : Int) : Vars :=
  match vars with
  | [] => [(name, val)]
  | (k, v) :: rest => if k = name then (k, val) :: rest else (k, v) :: Vars.set rest name val

/-- The operator dispatch of `evaluate` on two `int` operands; `none` is a
division that is undefined. An operator outside the list reaches the final
`return 0`. -/
def evalBinary (op : String) (left right : Int) : Option Int :=
  if op = "+" then some (wrapInt (left + right))
  else if op = "-" then some (wrapInt (left - right))
  else if op = "*" then some (wrapInt (left * right))
  else if op = "/" then
    if right = 0 ∨ (left = INT_MIN ∧ right = -1) then none else some (left.tdiv right)
  else if op = "==" then some (if left = right then 1 else 0)
  else if op = "!=" then some (if left ≠ right then 1 else 0)
  else if op = "<" then some (if left < right then 1 else 0)
  else if op = "<=" then some (if left ≤ right then 1 else 0)
  else if op = ">" then some (if left > right then 1 else 0)
  else if op = ">=" then some (if left ≥ right then 1 else 0)
  else some 0

/-- The method `Interpreter::evaluate`: the value and the variable map after
the call (`variables[name]` inserts a zero entry for a key that is absent);
`none` when the call is undefined or throws. -/
def evaluate : ASTNode → Vars → Option (Int × Vars)
  | .mk ty v cs, vars =>
    if ty = "NumberLiteral" then
      match stoi v with
      | some n => some (n, vars)
      | none => none
    else if ty = "Identifier" then
      match vars.find v with
      | some n => some (n, vars)
      | none => some (0, vars.set v 0)
    else if ty = "BinaryExpr" then
      match cs with
      | l :: r :: _ =>
        match evaluate l vars with
        | some (left, vars1) =>
          match evaluate r vars1 with
          | some (right, vars2) =>
            match evalBinary v left right with
            | some n => some (n, vars2)
            | none => none
          | none => none
        | none => none
      | _ => none
    else some (0, vars)

/-- The text a `Print` of a string literal writes: the value without its two
quotes when it has both. -/
def stripQuotes (s : String) : String :=
  if s.data.length ≥ 2 ∧ s.data.head? = some '"' ∧ s.data.getLast? = some '"' then
    String.mk ((s.data.drop 1).take (s.data.length - 2))
  else s

/-- The state of a running interpreter: the member `variables` (here `vars`) and the lines
written to standard output so far. -/
structure RunState where
  vars : Vars
  output : List String
deriving Repr, DecidableEq

mutual
/-- The method `Interpreter::execute` on a non-null node; `none` when the call
is undefined or throws. -/
def execute : ASTNode → RunState → Option RunState
  | .mk ty v cs, st =>
    if ty = "Program" then executeAll cs st
    else if ty = "Declaration" then
      match cs with
      | c :: _ =>
        match evaluate c st.vars with
        | some (val, vars1) => some { st with vars := Vars.set vars1 v val }
        | none => none
      | [] => none
    else if ty = "Print" then
      match cs with
      | [] => some st
      | c :: _ =>
        if c.nodeType = "StringLiteral" then
          some { st with output := st.output ++ [stripQuotes c.value] }
        else
          match evaluate c st.vars with
          | some (val, vars1) => some { vars := vars1, output := st.output ++ [toString val] }
          | none => none
    else if ty = "IfElse" then
      match cs with
      | [] => none
      | [c] =>
        match evaluate c st.vars with
        | some (cond, vars1) => if cond ≠ 0 then none else some { st with vars := vars1 }
        | none => none
      | [c, t] =>
        match evaluate c st.vars with
        | some (cond, vars1) =>
          if cond ≠ 0 then execute t { st with vars := vars1 }
          else some { st with vars := vars1 }
        | none => none
      | c :: t :: e :: _ =>
        match evaluate c st.vars with
        | some (cond, vars1) =>
          if cond ≠ 0 then execute t { st with vars := vars1 }
          else execute e { st with vars := vars1 }
        | none => none
    else if ty = "Block" then executeAll cs st
    else if ty = "Return" then
      match cs with
      | c :: _ =>
        match evaluate c st.vars with
        | some (val, vars1) =>
          some { vars := vars1, output := st.output ++ ["Return: " ++ toString val] }
        | none => none
      | [] => none
    else some st
/-- The loop `for (child : children) execute(child)`. -/
def executeAll : List ASTNode → RunState → Option RunState
  | [], st => some st
  | c :: cs, st =>
    match execute c st with
    | some st1 => executeAll cs st1
    | none => none
end

/-! ## The pipeline -/

/-- What became of one stage of `compile`. -/
inductive Stage (α : Type) where
  /-- The pipeline stopped before this stage. -/
  | notRun
  /-- The stage performed an undefined operation or threw. -/
  | fault
  /-- The stage ran to its end and left `a`. -/
  | ran (a : α)
deriving Repr, DecidableEq

/-- The observable course of `compile`: the token listing, the diagnostics
printed by `printErrors` (empty when it is not called) and what each later
section shows. -/
structure Report where
  tokens : List Token
  errors : List String
  ast : Stage ASTNode
  symbolTable : Stage (List String)
  intermediateCode : Stage (List String)
  asmCode : Stage (List String)
  output : Stage (List String)
deriving Repr, DecidableEq

/-- One step of putting the keys of a `std::map<string, string>` in its order
of iteration: `key` is put before the first key that is greater by `operator<`
of `std::string`, which compares character by character. -/
def insertKey (key : String) : List String → List String
  | [] => [key]
  | k :: ks => if key < k then key :: k :: ks else k :: insertKey key ks

/-- The keys of the symbol table in the order in which the map is iterated,
which is the order of the "Symbol Table:" listing: ascending, whatever the
order of insertion. -/
def keyOrder (keys : List String) : List String := keys.foldr insertKey []

/-- The phases of `compile` after semantic checking has passed. -/
def generateAndRun (tokens : List Token) (ast : ASTNode) (symbolTable : List String) : Report :=
  match generateIntermediateCode ast [] 0 with
  | none => ⟨tokens, [], .ran ast, .ran symbolTable, .fault, .notRun, .notRun⟩
  | some (_, code, _) =>
    match generateAssembly ast [] 0 with
    | none => ⟨tokens, [], .ran ast, .ran symbolTable, .ran code, .fault, .notRun⟩
    | some (_, asmCode, _) =>
      match execute ast ⟨[], []⟩ with
      | none => ⟨tokens, [], .ran ast, .ran symbolTable, .ran code, .ran asmCode, .fault⟩
      | some st => ⟨tokens, [], .ran ast, .ran symbolTable, .ran code, .ran asmCode, .ran st.output⟩

/-- The method `compile` on the text of the input file; `none` when the fuel
of the tokenizer or of the parser is used up. -/
def compile (source : String) : Option Report :=
  match tokenize source with
  | none => none
  | some (tokens, lexErrors) =>
    if lexErrors ≠ [] then
      some ⟨tokens, lexErrors, .notRun, .notRun, .notRun, .notRun, .notRun⟩
    else
      match parseProgram tokens lexErrors with
      | .outOfFuel => none
      | .crash => some ⟨tokens, [], .fault, .notRun, .notRun, .notRun, .notRun⟩
      | .ok ast st =>
        if st.errors ≠ [] then
          some ⟨tokens, st.errors, .ran ast, .notRun, .notRun, .notRun, .notRun⟩
        else
          match semanticAnalysis ast ⟨[], st.errors⟩ with
          | none => some ⟨tokens, [], .ran ast, .fault, .notRun, .notRun, .notRun⟩
          | some sem =>
            if sem.errors ≠ [] then
              some ⟨tokens, sem.errors, .ran ast, .ran (keyOrder sem.symbolTable), .notRun, .notRun,
                .notRun⟩
            else some (generateAndRun tokens ast (keyOrder sem.symbolTable))

/-! ## Reference semantics of straight-line integer programs

The second, independent description that the interpreter is compared with:
typed expressions evaluated with exact integer arithmetic. -/

/-- The ten binary operators of the language. -/
inductive BinOp where
  | add | sub | mul | div | equal | notEqual | less | lessEq | greater | greaterEq
deriving DecidableEq, Repr

/-- The spelling of an operator in the source text. -/
def BinOp.symbol (op : BinOp) : String :=
  match op with
  | .add => "+"
  | .sub => "-"
  | .mul => "*"
  | .div => "/"
  | .equal => "=="
  | .notEqual => "!="
  | .less => "<"
  | .lessEq => "<="
  | .greater => ">"
  | .greaterEq => ">="

/-- Standard integer semantics: `+ - *` are the ring operations, `/` is
division truncating toward zero (undefined for a zero divisor), a comparison
is 1 when it holds and 0 when it does not. -/
def BinOp.apply : BinOp → Int → Int → Option Int
  | .add, a, b => some (a + b)
  | .sub, a, b => some (a - b)
  | .mul, a, b => some (a * b)
  | .div, a, b => if b = 0 then none else some (a.tdiv b)
  | .equal, a, b => some (if a = b then 1 else 0)
  | .notEqual, a, b => some (if a ≠ b then 1 else 0)
  | .less, a, b => some (if a < b then 1 else 0)
  | .lessEq, a, b => some (if a ≤ b then 1 else 0)
  | .greater, a, b => some (if a > b then 1 else 0)
  | .greaterEq, a, b => some (if a ≥ b then 1 else 0)

/-- Integer expressions: a number literal (its digits as written), an
identifier, or a binary operation. -/
inductive Expr where
  | num (digits : List Char)
  | var (name : String)
  | bin (op : BinOp) (l r : Expr)
deriving Repr

/-- The statements without control flow: a declaration with an initializer
and a print of an integer expression. -/
inductive Stmt where
  | decl (name : String) (init : Expr)
  | print (e : Expr)
deriving Repr

/-- The tree the parser builds for an expression (`parsePrimary`,
`parseExpression`). -/
def Expr.toAST : Expr → ASTNode
  | .num digits => .mk "NumberLiteral" (String.mk digits) []
  | .var name => .mk "Identifier" name []
  | .bin op l r => .mk "BinaryExpr" op.symbol [l.toAST, r.toAST]

/-- The tree the parser builds for a statement (`parseDeclaration`,
`parsePrint`). -/
def Stmt.toAST : Stmt → ASTNode
  | .decl name init => .mk "Declaration" name [init.toAST]
  | .print e => .mk "Print" "" [e.toAST]

/-- The tree the parser builds for a program (`parseProgram`). -/
def programAST (prog : List Stmt) : ASTNode :=
  .mk "Program" "" (prog.map Stmt.toAST)

/-- The decimal value of a digit sequence in positional notation: the first
digit weighs ten to the number of digits after it. -/
def positionalValue : List Char → Nat
  | [] => 0
  | d :: ds => (d.toNat - '0'.toNat) * 10 ^ ds.length + positionalValue ds

/-- An integer fits the type `int`. -/
def inIntRange (n : Int) : Prop := INT_MIN ≤ n ∧ n ≤ INT_MAX

instance (n : Int) : Decidable (inIntRange n) := by
  unfold inIntRange; infer_instance

/-- The bindings of the reference semantics, the most recent first. -/
abbrev Env := List (String × Int)

/-- The value most recently bound to a name. -/
def Env.lookup (env : Env) (name : String) : Option Int :=
  match env with
  | [] => none
  | (k, v) :: rest => if k = name then some v else Env.lookup rest name

/-- Reference value of an expression. It is undefined (`none`) exactly in the
cases the property excludes: a literal that is not a non-empty digit sequence,
an identifier that is not bound, a division by zero, or a value that leaves
the `int` range. -/
def refEval (env : Env) : Expr → Option Int
  | .num digits =>
    if digits ≠ [] ∧ digits.all Char.isDigit ∧ inIntRange (positionalValue digits) then
      some (positionalValue digits)
    else none
  | .var name => env.lookup name
  | .bin op l r =>
    match refEval env l, refEval env r with
    | some a, some b =>
      match op.apply a b with
      | some v => if inIntRange v then some v else none
      | none => none
    | _, _ => none

/-- Reference run of a program: the values it prints, in order. -/
def refRun (env : Env) : List Stmt → Option (List Int)
  | [] => some []
  | .decl name init :: rest =>
    match refEval env init with
    | some v => refRun ((name, v) :: env) rest
    | none => none
  | .print e :: rest =>
    match refEval env e, refRun env rest with
    | some v, some vs => some (v :: vs)
    | _, _ => none

/-! ## Vocabulary of the parser properties -/

/-- A token that `parsePrimary` accepts. -/
def isPrimary (t : Token) : Prop := t.type = .ID ∨ t.type = .NUMBER

instance (t : Token) : Decidable (isPrimary t) := by
  unfold isPrimary; infer_instance

/-- The leaf `parsePrimary` builds from a primary token. -/
def primaryNode (t : Token) : ASTNode :=
  if t.type = .ID then .mk "Identifier" t.value [] else .mk "NumberLiteral" t.value []

/-- A token that `parseExpression` takes as a binary operator: its kind is
`OP` or `COMPARE` and `getPrecedence` knows its text. -/
def isOperator (t : Token) : Prop :=
  (t.type = .OP ∨ t.type = .COMPARE) ∧ 0 ≤ getPrecedence t.value

instance (t : Token) : Decidable (isOperator t) := by
  unfold isOperator; infer_instance

/-- A token that ends an expression: neither `OP` nor `COMPARE`. -/
def endsExpression (t : Token) : Prop := t.type ≠ .OP ∧ t.type ≠ .COMPARE

instance (t : Token) : Decidable (endsExpression t) := by
  unfold endsExpression; infer_instance

/-- The node `parseExpression` builds for a binary operation. -/
def binaryNode (op : Token) (l r : ASTNode) : ASTNode :=
  .mk "BinaryExpr" op.value [l, r]

/-! ## Vocabulary of the tree properties -/

mutual
/-- Every node of a tree, depth first, children from left to right. -/
def preorder : ASTNode → List ASTNode
  | .mk ty v cs => .mk ty v cs :: preorderAll cs
/-- The nodes of a list of trees, in the same order. -/
def preorderAll : List ASTNode → List ASTNode
  | [] => []
  | c :: cs => preorder c ++ preorderAll cs
end

/-- The child-count invariant at one node: a `Declaration` has 0 or 1
children, a `BinaryExpr` exactly 2, an `IfElse` 2 or 3, a `Return` exactly 1. -/
def childCountOk (n : ASTNode) : Prop :=
  (n.nodeType = "Declaration" → n.children.length ≤ 1) ∧
  (n.nodeType = "BinaryExpr" → n.children.length = 2) ∧
  (n.nodeType = "IfElse" → n.children.length = 2 ∨ n.children.length = 3) ∧
  (n.nodeType = "Return" → n.children.length = 1)

instance (n : ASTNode) : Decidable (childCountOk n) := by
  unfold childCountOk; infer_instance

/-- The child-count invariant holds at every node of the tree. -/
def childCountInvariant (t : ASTNode) : Prop := ∀ n ∈ preorder t, childCountOk n

instance (t : ASTNode) : Decidable (childCountInvariant t) := by
  unfold childCountInvariant; infer_instance

/-- Every `Identifier` node of the tree is a leaf, as `parsePrimary` builds it. -/
def identifiersAreLeaves (t : ASTNode) : Prop :=
  ∀ n ∈ preorder t, n.nodeType = "Identifier" → n.children = []

instance (t : ASTNode) : Decidable (identifiersAreLeaves t) := by
  unfold identifiersAreLeaves; infer_instance

/-- The tree holds no `Declaration` node. -/
def noDeclaration (t : ASTNode) : Prop := ∀ n ∈ preorder t, n.nodeType ≠ "Declaration"

instance (t : ASTNode) : Decidable (noDeclaration t) := by
  unfold noDeclaration; infer_instance

/-- The names of the `Declaration` nodes of a tree, in depth-first order. -/
def declaredNames (t : ASTNode) : List String :=
  ((preorder t).filter (fun n => n.nodeType = "Declaration")).map ASTNode.value

/-- The names of the `Identifier` nodes of a tree, in depth-first order. -/
def identifierNames (t : ASTNode) : List String :=
  ((preorder t).filter (fun n => n.nodeType = "Identifier")).map ASTNode.value

/-- What the checker does at one node: a `Declaration` is registered or
reported, an `Identifier` is looked up, any other node changes nothing. -/
def semStep (st : SemState) (n : ASTNode) : SemState :=
  if n.nodeType = "Declaration" then declare n.value st
  else if n.nodeType = "Identifier" then checkUse n.value st
  else st

/-- The tree of `val x = 1; agar (x) { val x = 2; } nhi-to { val y = x; val x = 4; }`:
`x` is declared at top level, in the then-block and in the else-block. -/
def redeclarationSample : ASTNode :=
  .mk "Program" "" [
    .mk "Declaration" "x" [.mk "NumberLiteral" "1" []],
    .mk "IfElse" "" [
      .mk "Identifier" "x" [],
      .mk "Block" "" [.mk "Declaration" "x" [.mk "NumberLiteral" "2" []]],
      .mk "Block" "" [.mk "Declaration" "y" [.mk "Identifier" "x" []],
        .mk "Declaration" "x" [.mk "NumberLiteral" "4" []]]]]

/-- The tree of `prt(a + b * c); agar (d < e) { bhejo f; } nhi-to { prt(g); }`:
identifiers inside a print, nested binary expressions, a condition, a return
and both blocks. -/
def undeclaredSample : ASTNode :=
  .mk "Program" "" [
    .mk "Print" "" [.mk "BinaryExpr" "+" [.mk "Identifier" "a" [],
      .mk "BinaryExpr" "*" [.mk "Identifier" "b" [], .mk "Identifier" "c" []]]],
    .mk "IfElse" "" [
      .mk "BinaryExpr" "<" [.mk "Identifier" "d" [], .mk "Identifier" "e" []],
      .mk "Block" "" [.mk "Return" "" [.mk "Identifier" "f" []]],
      .mk "Block" "" [.mk "Print" "" [.mk "Identifier" "g" []]]]]

/-! ## Vocabulary of the tokenizer properties -/

/-- The line of the character at offset `p` of a text: one more than the
number of newline characters before it. -/
def lineAt (source : List Char) (p : Nat) : Nat :=
  1 + (source.take p).count '\n'

/-- The column of the character at offset `p` of a text: the number of
characters between the start of its line and it. -/
def columnAt (source : List Char) (p : Nat) : Nat :=
  ((source.take p).reverse.takeWhile (fun c => c != '\n')).length

/-! ## Vocabulary of the code-generator properties -/

/-- A line of pseudo-assembly is a divide instruction. -/
def isIdiv (line : String) : Prop := "idiv ".data <+: line.data

instance (line : String) : Decidable (isIdiv line) := by
  unfold isIdiv; infer_instance

/-- Every divide instruction of a listing directly follows a `cdq` line. -/
def cdqBeforeEveryIdiv (lines : List String) : Prop :=
  ∀ i line, lines[i]? = some line → isIdiv line → 0 < i ∧ lines[i - 1]? = some "cdq"

/-! ## Running a source text -/

/-- The tree of a source text that tokenizes and parses without a diagnostic,
as `compile` obtains it. -/
def parseSource (source : String) : Option ASTNode :=
  match tokenize source with
  | some (tokens, []) =>
    match parseProgram tokens [] with
    | .ok ast ⟨_, []⟩ => some ast
    | _ => none
  | _ => none

/-- The final interpreter state of a source text that tokenizes and parses
without a diagnostic: `execute` on its tree from an empty variable map. -/
def interpretSource (source : String) : Option RunState :=
  match parseSource source with
  | some ast => execute ast ⟨[], []⟩
  | none => none

/-- The binding list of the reference semantics and the interpreter's
variable map give every name the same value. -/
def agree (env : Env) (vars : Vars) : Prop := ∀ x, env.lookup x = vars.find x

/-! ## Vocabulary of the register properties -/

/-- The texts of the leaves of an expression, from left to right. -/
def Expr.leaves : Expr → List String
  | .num digits => [String.mk digits]
  | .var name => [name]
  | .bin _ l r => l.leaves ++ r.leaves

/-- A line of pseudo-assembly is a load or store, `mov ...`. -/
def isMov (line : String) : Prop := "mov ".data <+: line.data

instance (line : String) : Decidable (isMov line) := by
  unfold isMov; infer_instance

/-- The four register names, in the order of `getRegister`. -/
def registerNames : List String := ["eax", "ebx", "ecx", "edx"]

/-! ## The names minted by the three-address generator -/

/-- A name made from `++tempCount`: its letter, `T` for a temporary and `L` for
a label, and its number. -/
structure Minted where
  kind : String
  number : Nat
deriving DecidableEq, Repr

/-- The text of a minted name. -/
def Minted.name (m : Minted) : String := m.kind ++ toString m.number

mutual
/-- The method `generateIntermediateCode` with a ghost list: every name it
makes from `++tempCount` is appended to `minted`, in the order of minting.
Nothing else differs from `generateIntermediateCode`. -/
def generateIntermediateCodeTraced :
    ASTNode → List String → Nat → List Minted → Option (String × List String × Nat × List Minted)
  | .mk ty v cs, code, tempCount, minted =>
    if ty = "Program" then
      match generateIntermediateCodeTracedAll cs code tempCount minted with
      | some (code1, n1, m1) => some ("", code1, n1, m1)
      | none => none
    else if ty = "Declaration" then
      match cs with
      | [] => some ("", code, tempCount, minted)
      | c :: _ =>
        match generateIntermediateCodeTraced c code tempCount minted with
        | some (temp, code1, n1, m1) => some ("", code1 ++ [v ++ " = " ++ temp], n1, m1)
        | none => none
    else if ty = "BinaryExpr" then
      match cs with
      | l :: r :: _ =>
        match generateIntermediateCodeTraced l code tempCount minted with
        | some (leftTemp, code1, n1, m1) =>
          match generateIntermediateCodeTraced r code1 n1 m1 with
          | some (rightTemp, code2, n2, m2) =>
            let resultTemp := "T" ++ toString (n2 + 1)
            some (resultTemp,
              code2 ++ [resultTemp ++ " = " ++ leftTemp ++ " " ++ v ++ " " ++ rightTemp], n2 + 1,
              m2 ++ [⟨"T", n2 + 1⟩])
          | none => none
        | none => none
      | _ => none
    else if ty = "Identifier" then some (v, code, tempCount, minted)
    else if ty = "NumberLiteral" then some (v, code, tempCount, minted)
    else if ty = "Return" then
      match cs with
      | [] => some ("", code, tempCount, minted)
      | c :: _ =>
        match generateIntermediateCodeTraced c code tempCount minted with
        | some (retVal, code1, n1, m1) => some ("", code1 ++ ["return " ++ retVal], n1, m1)
        | none => none
    else if ty = "Print" then
      match cs with
      | [] => some ("", code, tempCount, minted)
      | c :: _ =>
        match generateIntermediateCodeTraced c code tempCount minted with
        | some (val, code1, n1, m1) => some ("", code1 ++ ["print " ++ val], n1, m1)
        | none => none
    else if ty = "IfElse" then
      match cs with
      | [c, t] =>
        match generateIntermediateCodeTraced c code tempCount minted with
        | some (cond, code1, n1, m1) =>
          let labelElse := "L" ++ toString (n1 + 1)
          let labelEnd := "L" ++ toString (n1 + 2)
          match generateIntermediateCodeTraced t
              (code1 ++ ["ifnot " ++ cond ++ " goto " ++ labelElse]) (n1 + 2)
              (m1 ++ [⟨"L", n1 + 1⟩, ⟨"L", n1 + 2⟩]) with
          | some (_, code2, n2, m2) =>
            some ("", code2 ++ ["goto " ++ labelEnd, labelElse ++ ":", labelEnd ++ ":"], n2, m2)
          | none => none
        | none => none
      | c :: t :: e :: _ =>
        match generateIntermediateCodeTraced c code tempCount minted with
        | some (cond, code1, n1, m1) =>
          let labelElse := "L" ++ toString (n1 + 1)
          let labelEnd := "L" ++ toString (n1 + 2)
          match generateIntermediateCodeTraced t
              (code1 ++ ["ifnot " ++ cond ++ " goto " ++ labelElse]) (n1 + 2)
              (m1 ++ [⟨"L", n1 + 1⟩, ⟨"L", n1 + 2⟩]) with
          | some (_, code2, n2, m2) =>
            match generateIntermediateCodeTraced e
                (code2 ++ ["goto " ++ labelEnd, labelElse ++ ":"]) n2 m2 with
            | some (_, code3, n3, m3) => some ("", code3 ++ [labelEnd ++ ":"], n3, m3)
            | none => none
          | none => none
        | none => none
      | _ => none
    else some ("", code, tempCount, minted)
/-- The loop over the children, with the ghost list. -/
def generateIntermediateCodeTracedAll :
    List ASTNode → List String → Nat → List Minted → Option (List String × Nat × List Minted)
  | [], code, tempCount, minted => some (code, tempCount, minted)
  | c :: cs, code, tempCount, minted =>
    match generateIntermediateCodeTraced c code tempCount minted with
    | some (_, code1, n1, m1) => generateIntermediateCodeTracedAll cs code1 n1 m1
    | none => none
end

mutual
/-- The nodes on which `generateIntermediateCode` is called during the call on
a tree, in the order of the calls: the tree itself, then what each case
descends into (nothing below a `Block` or a leaf). -/
def irVisited : ASTNode → List ASTNode
  | .mk ty v cs =>
    .mk ty v cs ::
      (if ty = "Program" then irVisitedAll cs
      else if ty = "Declaration" ∨ ty = "Return" ∨ ty = "Print" then
        match cs with
        | [] => []
        | c :: _ => irVisited c
      else if ty = "BinaryExpr" then
        match cs with
        | l :: r :: _ => irVisited l ++ irVisited r
        | _ => []
      else if ty = "IfElse" then
        match cs with
        | [c, t] => irVisited c ++ irVisited t
        | c :: t :: e :: _ => irVisited c ++ irVisited t ++ irVisited e
        | _ => []
      else [])
/-- The nodes visited during the loop over a list of children. -/
def irVisitedAll : List ASTNode → List ASTNode
  | [] => []
  | c :: cs => irVisited c ++ irVisitedAll cs
end

/-- The number of nodes of a kind among the nodes the generator visits. -/
def irVisitedCount (kind : String) (t : ASTNode) : Nat :=
  ((irVisited t).filter (fun n => n.nodeType = kind)).length

/-- What a stretch of the generation pass does to the counter and to the list
of minted names: the pass went from counter `n` and list `tr` to counter `n1`
and list `tr1` while visiting the nodes `vis`. The new names carry the numbers
`n + 1`, `n + 2`, … in the order of minting, the counter advanced by the number
of new names, one temporary was minted per `BinaryExpr` visited and two labels
per `IfElse` visited, and no other name was minted. -/
def MintSpec (n : Nat) (tr : List Minted) (vis : List ASTNode) (n1 : Nat)
    (tr1 : List Minted) : Prop :=
  ∃ new : List Minted,
    tr1 = tr ++ new ∧
    new.map Minted.number = List.range' (n + 1) new.length ∧
    n1 = n + new.length ∧
    (new.filter (fun m => m.kind = "T")).length =
      (vis.filter (fun x => x.nodeType = "BinaryExpr")).length ∧
    (new.filter (fun m => m.kind = "L")).length =
      2 * (vis.filter (fun x => x.nodeType = "IfElse")).length ∧
    ∀ m ∈ new, m.kind = "T" ∨ m.kind = "L"

/-- A tree for the counter: a conditional whose then-branch is a `Block`, which
the generator does not descend into, and whose third child is a `Print`
statement, which it does. -/
def counterSample : ASTNode :=
  .mk "IfElse" ""
    [.mk "BinaryExpr" ">" [.mk "Identifier" "a" [], .mk "NumberLiteral" "3" []],
     .mk "Block" "" [.mk "Print" "" [.mk "BinaryExpr" "+"
       [.mk "NumberLiteral" "1" [], .mk "NumberLiteral" "2" []]]],
     .mk "Print" "" [.mk "BinaryExpr" "*"
       [.mk "Identifier" "a" [], .mk "NumberLiteral" "2" []]]]

/-! ## Vocabulary of the shape of parsed trees -/

/-- An expression node: what `parsePrimary` and `parseExpression` build. -/
def isExpressionNode (n : ASTNode) : Prop :=
  n.nodeType = "Identifier" ∨ n.nodeType = "NumberLiteral" ∨ n.nodeType = "BinaryExpr"

instance (n : ASTNode) : Decidable (isExpressionNode n) := by
  unfold isExpressionNode; infer_instance

/-- The children of an `IfElse` node: an expression and a `Block`, or an
expression and two `Block`s. -/
def ifElseChildrenOk (cs : List ASTNode) : Prop :=
  (cs.length = 2 ∨ cs.length = 3) ∧
  (∀ c, cs[0]? = some c → isExpressionNode c) ∧
  (∀ t, cs[1]? = some t → t.nodeType = "Block") ∧
  (∀ e, cs[2]? = some e → e.nodeType = "Block")

/-- The shape of one node: the child counts of `childCountOk`, and for an
`IfElse` the kinds of its children. -/
def shapeOk (n : ASTNode) : Prop :=
  childCountOk n ∧ (n.nodeType = "IfElse" → ifElseChildrenOk n.children)

/-- The shape holds at every node of the tree. -/
def shapeInvariant (t : ASTNode) : Prop := ∀ n ∈ preorder t, shapeOk n

/-- A source with a conditional without else-branch and one with it. -/
def conditionalSample : String :=
  "val a = 5; agar (a > 3) \x7b bhejo a + 1; \x7d agar (a) \x7b val b; \x7d nhi-to \x7b prt(a); \x7d"

/-- The tokens of `agar (a) { } nhi-to { prt(a); }`. -/
def conditionalTokens : List Token :=
  [⟨.AGAR, "agar", 1, 0⟩, ⟨.LPAREN, "(", 1, 5⟩, ⟨.ID, "a", 1, 6⟩, ⟨.RPAREN, ")", 1, 7⟩,
   ⟨.LBRACE, "\x7b", 1, 9⟩, ⟨.RBRACE, "\x7d", 1, 11⟩, ⟨.NHI_TO, "nhi-to", 1, 13⟩,
   ⟨.LBRACE, "\x7b", 1, 20⟩, ⟨.PRT, "prt", 1, 22⟩, ⟨.LPAREN, "(", 1, 25⟩, ⟨.ID, "a", 1, 26⟩,
   ⟨.RPAREN, ")", 1, 27⟩, ⟨.SEMI, ";", 1, 28⟩, ⟨.RBRACE, "\x7d", 1, 30⟩, ⟨.END, "", 1, 0⟩]

/-! ## Reads of unbound names -/

/-- The method `Interpreter::evaluate` with a ghost list: next to the result of
`evaluate` it returns the names that were read through `variables[name]` while
absent from the map, in the order of the reads. The list is kept when the call
faults. -/
def evaluateTraced : ASTNode → Vars → Option (Int × Vars) × List String
  | .mk ty v cs, vars =>
    if ty = "NumberLiteral" then
      match stoi v with
      | some n => (some (n, vars), [])
      | none => (none, [])
    else if ty = "Identifier" then
      match vars.find v with
      | some n => (some (n, vars), [])
      | none => (some (0, vars.set v 0), [v])
    else if ty = "BinaryExpr" then
      match cs with
      | l :: r :: _ =>
        match evaluateTraced l vars with
        | (some (left, vars1), reads1) =>
          match evaluateTraced r vars1 with
          | (some (right, vars2), reads2) =>
            match evalBinary v left right with
            | some n => (some (n, vars2), reads1 ++ reads2)
            | none => (none, reads1 ++ reads2)
          | (none, reads2) => (none, reads1 ++ reads2)
        | (none, reads1) => (none, reads1)
      | _ => (none, [])
    else (some (0, vars), [])

mutual
/-- The method `Interpreter::execute` with the ghost list of `evaluateTraced`:
the names read while absent during the call, kept when the call faults. -/
def executeTraced : ASTNode → RunState → Option RunState × List String
  | .mk ty v cs, st =>
    if ty = "Program" then executeTracedAll cs st
    else if ty = "Declaration" then
      match cs with
      | c :: _ =>
        match evaluateTraced c st.vars with
        | (some (val, vars1), reads) => (some { st with vars := Vars.set vars1 v val }, reads)
        | (none, reads) => (none, reads)
      | [] => (none, [])
    else if ty = "Print" then
      match cs with
      | [] => (some st, [])
      | c :: _ =>
        if c.nodeType = "StringLiteral" then
          (some { st with output := st.output ++ [stripQuotes c.value] }, [])
        else
          match evaluateTraced c st.vars with
          | (some (val, vars1), reads) =>
            (some { vars := vars1, output := st.output ++ [toString val] }, reads)
          | (none, reads) => (none, reads)
    else if ty = "IfElse" then
      match cs with
      | [] => (none, [])
      | [c] =>
        match evaluateTraced c st.vars with
        | (some (cond, vars1), reads) =>
          if cond ≠ 0 then (none, reads) else (some { st with vars := vars1 }, reads)
        | (none, reads) => (none, reads)
      | [c, t] =>
        match evaluateTraced c st.vars with
        | (some (cond, vars1), reads) =>
          if cond ≠ 0 then
            ((executeTraced t { st with vars := vars1 }).1,
              reads ++ (executeTraced t { st with vars := vars1 }).2)
          else (some { st with vars := vars1 }, reads)
        | (none, reads) => (none, reads)
      | c :: t :: e :: _ =>
        match evaluateTraced c st.vars with
        | (some (cond, vars1), reads) =>
          if cond ≠ 0 then
            ((executeTraced t { st with vars := vars1 }).1,
              reads ++ (executeTraced t { st with vars := vars1 }).2)
          else
            ((executeTraced e { st with vars := vars1 }).1,
              reads ++ (executeTraced e { st with vars := vars1 }).2)
        | (none, reads) => (none, reads)
    else if ty = "Block" then executeTracedAll cs st
    else if ty = "Return" then
      match cs with
      | c :: _ =>
        match evaluateTraced c st.vars with
        | (some (val, vars1), reads) =>
          (some { vars := vars1, output := st.output ++ ["Return: " ++ toString val] }, reads)
        | (none, reads) => (none, reads)
      | [] => (none, [])
    else (some st, [])
/-- The loop `for (child : children) execute(child)` with the ghost list. -/
def executeTracedAll : List ASTNode → RunState → Option RunState × List String
  | [], st => (some st, [])
  | c :: cs, st =>
    match executeTraced c st with
    | (some st1, reads) => ((executeTracedAll cs st1).1, reads ++ (executeTracedAll cs st1).2)
    | (none, reads) => (none, reads)
end

/-- Every `Declaration` of the program runs unconditionally and does not read
the name it declares: the tree is a `Program` whose statements are
`Declaration`s with an initializer that holds no `Declaration` and no
`Identifier` of the declared name, or statements that hold no `Declaration` at
all (so none sits in a branch of a conditional). -/
def unconditionalDeclarations (t : ASTNode) : Prop :=
  t.nodeType = "Program" ∧
  ∀ s ∈ t.children, noDeclaration s ∨
    (s.nodeType = "Declaration" ∧
      ∀ c ∈ s.children, noDeclaration c ∧ s.value ∉ identifierNames c)

instance (t : ASTNode) : Decidable (unconditionalDeclarations t) := by
  unfold unconditionalDeclarations; infer_instance

/-- The tree of
`val a = 1; val b = a + 1; agar (a < b) { prt(a); } nhi-to { prt(b); } bhejo a + b;`:
both declarations are top-level statements. -/
def boundReadsSample : ASTNode :=
  .mk "Program" "" [
    .mk "Declaration" "a" [.mk "NumberLiteral" "1" []],
    .mk "Declaration" "b" [.mk "BinaryExpr" "+"
      [.mk "Identifier" "a" [], .mk "NumberLiteral" "1" []]],
    .mk "IfElse" "" [
      .mk "BinaryExpr" "<" [.mk "Identifier" "a" [], .mk "Identifier" "b" []],
      .mk "Block" "" [.mk "Print" "" [.mk "Identifier" "a" []]],
      .mk "Block" "" [.mk "Print" "" [.mk "Identifier" "b" []]]],
    .mk "Return" "" [.mk "BinaryExpr" "+"
      [.mk "Identifier" "a" [], .mk "Identifier" "b" []]]]

/-! ## Vocabulary of the result register -/

/-- An expression whose operators are all among `+ - * /`. -/
def Expr.arithmetic : Expr → Prop
  | .num _ => True
  | .var _ => True
  | .bin op l r => (op = .add ∨ op = .sub ∨ op = .mul ∨ op = .div) ∧ l.arithmetic ∧ r.arithmetic

instance Expr.decidableArithmetic : (e : Expr) → Decidable e.arithmetic
  | .num _ => isTrue trivial
  | .var _ => isTrue trivial
  | .bin op l r =>
    have := Expr.decidableArithmetic l
    have := Expr.decidableArithmetic r
    inferInstanceAs (Decidable ((op = .add ∨ op = .sub ∨ op = .mul ∨ op = .div) ∧
      l.arithmetic ∧ r.arithmetic))

/-- The text of the leftmost leaf of an expression. -/
def Expr.leftmost : Expr → String
  | .num digits => String.mk digits
  | .var name => name
  | .bin _ l _ => l.leftmost

/-! ## Vocabulary of reserved words -/

/-- The text `s` begins with the text `p`. -/
def beginsWith (s p : String) : Prop := p.data <+: s.data

instance (s p : String) : Decidable (beginsWith s p) := by
  unfold beginsWith; infer_instance

/-! ## Vocabulary of parser termination -/

/-- The token list is not empty and its last token is the `END` sentinel. -/
def endsInEND (ts : List Token) : Prop := ts.getLast?.map (fun t => t.type) = some .END

instance (ts : List Token) : Decidable (endsInEND ts) := by
  unfold endsInEND; infer_instance

/-- A parsing method did not run out of fuel, and if it returned, it left a
token stream that still ends in `END` and holds fewer than `bound` tokens. -/
def PResult.below {α : Type} (bound : Nat) : PResult α → Prop
  | .ok _ st => endsInEND st.rest ∧ st.rest.length < bound
  | .crash => True
  | .outOfFuel => False

/-! ## Start offsets of the tokens -/

/-- The outer `while` of `tokenize` with a ghost list: every token is recorded
together with the offset `pos` at which the rule scan matched it. Nothing else
differs from `tokenizeLoop`. -/
def tokenizeLoopPlaced :
    Nat → LexState → List (Nat × Token) → Option (LexState × List (Nat × Token))
  | 0, _, _ => none
  | fuel + 1, st, placed =>
    match st.rest with
    | [] => some (st, placed)
    | _ :: _ =>
      match skipSpaces st.rest st.pos st.line st.lineStart with
      | ([], pos, line, lineStart) =>
        some ({ st with rest := [], pos := pos, line := line, lineStart := lineStart }, placed)
      | (c :: cs, pos, line, lineStart) =>
        match firstMatch tokenSpecs (c :: cs) with
        | some (ty, v) =>
          tokenizeLoopPlaced fuel
            { rest := (c :: cs).drop v.length, pos := pos + v.length, line := line,
              lineStart := lineStart,
              tokens := st.tokens ++ [⟨ty, String.mk v, line, pos - lineStart⟩],
              errors := st.errors }
            (placed ++ [(pos, ⟨ty, String.mk v, line, pos - lineStart⟩)])
        | none =>
          tokenizeLoopPlaced fuel
            { rest := cs, pos := pos + 1, line := line, lineStart := lineStart,
              tokens := st.tokens,
              errors := st.errors ++ [illegalCharMsg c line (pos - lineStart)] }
            placed

/-- The tokens of a source text, before the `END` sentinel, each with the
offset at which it was matched. -/
def tokenizePlaced (source : String) : Option (List (Nat × Token)) :=
  (tokenizeLoopPlaced (source.length + 1) ⟨source.data, 0, 1, 0, [], []⟩ []).map Prod.snd

/-- The span of a placed token holds the offset `q`. -/
def covers (pt : Nat × Token) (q : Nat) : Prop := pt.1 ≤ q ∧ q < pt.1 + pt.2.value.length

instance (pt : Nat × Token) (q : Nat) : Decidable (covers pt q) := by
  unfold covers; infer_instance

/-- What holds of the placed tokens when the scan of `src` stands at offset
`pos`: each token is the result of the rule scan at its offset, the spans lie
before `pos`, in order and without overlap, and at every offset before `pos`
that no span holds the rule scan finds no match. -/
def ScanInvariant (src : List Char) (pos : Nat) (placed : List (Nat × Token)) : Prop :=
  (∀ pt ∈ placed, firstMatch tokenSpecs (src.drop pt.1) = some (pt.2.type, pt.2.value.data)) ∧
  (∀ pt ∈ placed, pt.1 + pt.2.value.length ≤ pos) ∧
  placed.Pairwise (fun a b => a.1 + a.2.value.length ≤ b.1) ∧
  (∀ q, q < pos → (∀ pt ∈ placed, ¬ covers pt q) → firstMatch tokenSpecs (src.drop q) = none)

/-! # Properties -/

/-! ## Unfolding the tree walks -/

theorem ASTNode.induct {P : ASTNode → Prop}
    (h : ∀ ty v cs, (∀ c ∈ cs, P c) → P (.mk ty v cs)) : ∀ t, P t := by
  intro t
  refine ASTNode.rec (motive_1 := P) (motive_2 := fun cs => ∀ c ∈ cs, P c) ?_ ?_ ?_ t
  · intro ty v cs ih; exact h ty v cs ih
  · intro c hc; cases hc
  · intro hd tl ih1 ih2 c hc
    rcases List.mem_cons.mp hc with rfl | hc
    · exact ih1
    · exact ih2 c hc

theorem evaluate_eq (ty v : String) (cs : List ASTNode) (vars : Vars) :
    evaluate (.mk ty v cs) vars =
    if ty = "NumberLiteral" then
      match stoi v with
      | some n => some (n, vars)
      | none => none
    else if ty = "Identifier" then
      match vars.find v with
      | some n => some (n, vars)
      | none => some (0, vars.set v 0)
    else if ty = "BinaryExpr" then
      match cs with
      | l :: r :: _ =>
        match evaluate l vars with
        | some (left, vars1) =>
          match evaluate r vars1 with
          | some (right, vars2) =>
            match evalBinary v left right with
            | some n => some (n, vars2)
            | none => none
          | none => none
        | none => none
      | _ => none
    else some (0, vars) := by
  rcases cs with _ | ⟨c, _ | ⟨t, rest⟩⟩ <;> rfl

theorem execute_eq (ty v : String) (cs : List ASTNode) (st : RunState) :
    execute (.mk ty v cs) st =
    if ty = "Program" then executeAll cs st
    else if ty = "Declaration" then
      match cs with
      | c :: _ =>
        match evaluate c st.vars with
        | some (val, vars1) => some { st with vars := Vars.set vars1 v val }
        | none => none
      | [] => none
    else if ty = "Print" then
      match cs with
      | [] => some st
      | c :: _ =>
        if c.nodeType = "StringLiteral" then
          some { st with output := st.output ++ [stripQuotes c.value] }
        else
          match evaluate c st.vars with
          | some (val, vars1) => some { vars := vars1, output := st.output ++ [toString val] }
          | none => none
    else if ty = "IfElse" then
      match cs with
      | [] => none
      | [c] =>
        match evaluate c st.vars with
        | some (cond, vars1) => if cond ≠ 0 then none else some { st with vars := vars1 }
        | none => none
      | [c, t] =>
        match evaluate c st.vars with
        | some (cond, vars1) =>
          if cond ≠ 0 then execute t { st with vars := vars1 }
          else some { st with vars := vars1 }
        | none => none
      | c :: t :: e :: _ =>
        match evaluate c st.vars with
        | some (cond, vars1) =>
          if cond ≠ 0 then execute t { st with vars := vars1 }
          else execute e { st with vars := vars1 }
        | none => none
    else if ty = "Block" then executeAll cs st
    else if ty = "Return" then
      match cs with
      | c :: _ =>
        match evaluate c st.vars with
        | some (val, vars1) =>
          some { vars := vars1, output := st.output ++ ["Return: " ++ toString val] }
        | none => none
      | [] => none
    else some st := by
  rcases cs with _ | ⟨c, _ | ⟨t, _ | ⟨e, rest⟩⟩⟩ <;> rfl

theorem executeAll_nil (st : RunState) : executeAll [] st = some st := rfl

theorem executeAll_cons (c : ASTNode) (cs : List ASTNode) (st : RunState) :
    executeAll (c :: cs) st =
      match execute c st with
      | some st1 => executeAll cs st1
      | none => none := rfl

theorem semanticAnalysis_eq (ty v : String) (cs : List ASTNode) (st : SemState) :
    semanticAnalysis (.mk ty v cs) st =
    if ty = "Program" then semanticAnalysisAll cs st
    else if ty = "Declaration" then
      match cs with
      | [] => some (declare v st)
      | c :: _ => semanticAnalysis c (declare v st)
    else if ty = "Identifier" then some (checkUse v st)
    else if ty = "BinaryExpr" then
      match cs with
      | l :: r :: _ =>
        match semanticAnalysis l st with
        | some st1 => semanticAnalysis r st1
        | none => none
      | _ => none
    else if ty = "Return" then
      match cs with
      | [] => some st
      | c :: _ => semanticAnalysis c st
    else semanticAnalysisAll cs st := by
  rcases cs with _ | ⟨c, _ | ⟨t, rest⟩⟩ <;> rfl

theorem semanticAnalysisAll_nil (st : SemState) : semanticAnalysisAll [] st = some st := rfl

theorem semanticAnalysisAll_cons (c : ASTNode) (cs : List ASTNode) (st : SemState) :
    semanticAnalysisAll (c :: cs) st =
      match semanticAnalysis c st with
      | some st1 => semanticAnalysisAll cs st1
      | none => none := rfl

theorem generateAssembly_eq (ty v : String) (cs : List ASTNode) (asmCode : List String)
    (regCount : Nat) :
    generateAssembly (.mk ty v cs) asmCode regCount =
    if ty = "NumberLiteral" ∨ ty = "Identifier" then
      some (getRegister regCount,
        asmCode ++ ["mov " ++ getRegister regCount ++ ", " ++ v], regCount + 1)
    else if ty = "BinaryExpr" then
      match cs with
      | l :: r :: _ =>
        match generateAssembly l asmCode regCount with
        | some (leftReg, asm1, n1) =>
          match generateAssembly r asm1 n1 with
          | some (rightReg, asm2, n2) =>
            some ((binaryAsm v leftReg rightReg).2, asm2 ++ (binaryAsm v leftReg rightReg).1, n2)
          | none => none
        | none => none
      | _ => none
    else if ty = "Declaration" then
      match cs with
      | [] => some ("", asmCode ++ ["mov " ++ v ++ ", 0"], regCount)
      | c :: _ =>
        match generateAssembly c asmCode 0 with
        | some (resultReg, asm1, _) => some ("", asm1 ++ ["mov " ++ v ++ ", " ++ resultReg], regCount)
        | none => none
    else if ty = "Program" then
      match generateAssemblyAll cs asmCode regCount with
      | some (asm1, n1) => some ("", asm1, n1)
      | none => none
    else if ty = "Return" then
      match cs with
      | [] => some ("", asmCode, regCount)
      | c :: _ =>
        match generateAssembly c asmCode 0 with
        | some (retReg, asm1, _) => some ("", asm1 ++ ["mov eax, " ++ retReg, "ret"], regCount)
        | none => none
    else some ("", asmCode, regCount) := by
  rcases cs with _ | ⟨c, _ | ⟨t, rest⟩⟩ <;> rfl

theorem generateAssemblyAll_nil (asmCode : List String) (regCount : Nat) :
    generateAssemblyAll [] asmCode regCount = some (asmCode, regCount) := rfl

theorem generateAssemblyAll_cons (c : ASTNode) (cs : List ASTNode) (asmCode : List String)
    (regCount : Nat) :
    generateAssemblyAll (c :: cs) asmCode regCount =
      match generateAssembly c asmCode regCount with
      | some (_, asm1, n1) => generateAssemblyAll cs asm1 n1
      | none => none := rfl

theorem preorder_eq (ty v : String) (cs : List ASTNode) :
    preorder (.mk ty v cs) = .mk ty v cs :: preorderAll cs := by
  cases cs <;> rfl

theorem preorderAll_nil : preorderAll [] = [] := rfl

theorem preorderAll_cons (c : ASTNode) (cs : List ASTNode) :
    preorderAll (c :: cs) = preorder c ++ preorderAll cs := rfl

/-! ## Expression parser -/

theorem parsePrimary_primary (t u : Token) (rest : List Token) (errs : List String)
    (h : isPrimary t) :
    parsePrimary ⟨t :: u :: rest, errs⟩ = (some (primaryNode t), ⟨u :: rest, errs⟩) := by
  rcases h with h | h <;> simp [parsePrimary, currentToken, advance, primaryNode, h]

theorem exprLoop_stop (recur : Int → ParseState → PResult (Option ASTNode)) (fuel : Nat)
    (minPrec : Int) (left : Option ASTNode) (t : Token) (rest : List Token) (errs : List String)
    (h : endsExpression t ∨ getPrecedence t.value < minPrec) :
    exprLoop recur (fuel + 1) minPrec left ⟨t :: rest, errs⟩ = .ok left ⟨t :: rest, errs⟩ := by
  rcases h with h | h
  · simp [exprLoop, currentToken, h.1, h.2]
  · simp [exprLoop, currentToken, h]

theorem exprLoop_step (recur : Int → ParseState → PResult (Option ASTNode)) (fuel : Nat)
    (minPrec : Int) (l r : ASTNode) (t u : Token) (rest : List Token) (errs : List String)
    (st1 : ParseState)
    (ht : t.type = .OP ∨ t.type = .COMPARE) (hp : minPrec ≤ getPrecedence t.value)
    (hr : recur (getPrecedence t.value + 1) ⟨u :: rest, errs⟩ = .ok (some r) st1) :
    exprLoop recur (fuel + 1) minPrec (some l) ⟨t :: u :: rest, errs⟩ =
      exprLoop recur fuel minPrec (some (binaryNode t l r)) st1 := by
  simp [exprLoop, currentToken, advance, ht, hp, hr, binaryNode]

/-- A primary followed by a token that stops the loop parses to its leaf. -/
theorem parseExpression_single (fuel : Nat) (minPrec : Int) (a t : Token) (rest : List Token)
    (errs : List String) (ha : isPrimary a)
    (h : endsExpression t ∨ getPrecedence t.value < minPrec) :
    parseExpression (fuel + 2) minPrec ⟨a :: t :: rest, errs⟩ =
      .ok (some (primaryNode a)) ⟨t :: rest, errs⟩ := by
  rw [parseExpression, parsePrimary_primary _ _ _ _ ha]
  exact exprLoop_stop _ _ _ _ _ _ _ h

/-- The tokens `a o1 b o2 c` with `o2` binding tighter than `o1`. -/
theorem parseExpression_right_nested (fuel : Nat) (a o1 b o2 c after : Token)
    (rest : List Token) (errs : List String)
    (ha : isPrimary a) (hb : isPrimary b) (hc : isPrimary c)
    (h1 : isOperator o1) (h2 : isOperator o2) (hend : endsExpression after)
    (hlt : getPrecedence o1.value < getPrecedence o2.value) :
    parseExpression (fuel + 4) 0 ⟨a :: o1 :: b :: o2 :: c :: after :: rest, errs⟩ =
      .ok (some (binaryNode o1 (primaryNode a) (binaryNode o2 (primaryNode b) (primaryNode c))))
        ⟨after :: rest, errs⟩ := by
  have hinner : parseExpression (fuel + 3) (getPrecedence o1.value + 1)
      ⟨b :: o2 :: c :: after :: rest, errs⟩ =
      .ok (some (binaryNode o2 (primaryNode b) (primaryNode c))) ⟨after :: rest, errs⟩ := by
    rw [parseExpression, parsePrimary_primary _ _ _ _ hb]
    rw [exprLoop_step _ _ _ _ (primaryNode c) _ _ _ _ ⟨after :: rest, errs⟩ h2.1 (by omega)
      (parseExpression_single fuel _ _ _ _ _ hc (Or.inl hend))]
    exact exprLoop_stop _ _ _ _ _ _ _ (Or.inl hend)
  rw [parseExpression, parsePrimary_primary _ _ _ _ ha]
  rw [exprLoop_step _ _ _ _ _ _ _ _ _ _ h1.1 h1.2 hinner]
  exact exprLoop_stop _ _ _ _ _ _ _ (Or.inl hend)

/-- The tokens `a o1 b o2 c` with `o2` binding no tighter than `o1`. -/
theorem parseExpression_left_nested (fuel : Nat) (a o1 b o2 c after : Token)
    (rest : List Token) (errs : List String)
    (ha : isPrimary a) (hb : isPrimary b) (hc : isPrimary c)
    (h1 : isOperator o1) (h2 : isOperator o2) (hend : endsExpression after)
    (hle : getPrecedence o2.value ≤ getPrecedence o1.value) :
    parseExpression (fuel + 4) 0 ⟨a :: o1 :: b :: o2 :: c :: after :: rest, errs⟩ =
      .ok (some (binaryNode o2 (binaryNode o1 (primaryNode a) (primaryNode b)) (primaryNode c)))
        ⟨after :: rest, errs⟩ := by
  rw [parseExpression, parsePrimary_primary _ _ _ _ ha]
  rw [exprLoop_step _ _ _ _ (primaryNode b) _ _ _ _ ⟨o2 :: c :: after :: rest, errs⟩ h1.1 h1.2
    (parseExpression_single (fuel + 1) _ _ _ _ _ hb (Or.inr (by omega)))]
  rw [exprLoop_step _ _ _ _ (primaryNode c) _ _ _ _ ⟨after :: rest, errs⟩ h2.1 h2.2
    (parseExpression_single (fuel + 1) _ _ _ _ _ hc (Or.inl hend))]
  exact exprLoop_stop _ _ _ _ _ _ _ (Or.inl hend)

/-- C2: the expression parser respects the precedence tiers. For primary
operands `a b c`, operators `o1 o2` and a following token that ends the
expression, the tokens `a o1 b o2 c` parse to `o1[a, o2[b, c]]` when `o2` is
of a higher tier than `o1` (`a + b * c`, `a < b + c`) and to `o2[o1[a, b], c]`
when `o1` is of a higher tier than `o2` (`a * b + c`, `a + b < c`), consuming
exactly the five tokens and recording no diagnostic; and the source
`val r = 2 + 3 * 4;` parses to `r = 2 + (3 * 4)` and binds `r` to 14. -/
theorem precedence_tiers_respected (fuel : Nat) (a o1 b o2 c after : Token)
    (rest : List Token) (errs : List String)
    (ha : isPrimary a) (hb : isPrimary b) (hc : isPrimary c)
    (h1 : isOperator o1) (h2 : isOperator o2) (hend : endsExpression after) :
    (getPrecedence o1.value < getPrecedence o2.value →
      parseExpression (fuel + 4) 0 ⟨a :: o1 :: b :: o2 :: c :: after :: rest, errs⟩ =
        .ok (some (binaryNode o1 (primaryNode a) (binaryNode o2 (primaryNode b) (primaryNode c))))
          ⟨after :: rest, errs⟩) ∧
    (getPrecedence o2.value < getPrecedence o1.value →
      parseExpression (fuel + 4) 0 ⟨a :: o1 :: b :: o2 :: c :: after :: rest, errs⟩ =
        .ok (some (binaryNode o2 (binaryNode o1 (primaryNode a) (primaryNode b)) (primaryNode c)))
          ⟨after :: rest, errs⟩) ∧
    parseSource "val r = 2 + 3 * 4;" =
      some (.mk "Program" "" [.mk "Declaration" "r" [.mk "BinaryExpr" "+"
        [.mk "NumberLiteral" "2" [],
         .mk "BinaryExpr" "*" [.mk "NumberLiteral" "3" [], .mk "NumberLiteral" "4" []]]]]) ∧
    interpretSource "val r = 2 + 3 * 4;" = some ⟨[("r", 14)], []⟩ := by
  refine ⟨fun hlt => parseExpression_right_nested fuel a o1 b o2 c after rest errs ha hb hc h1 h2
      hend hlt,
    fun hlt => parseExpression_left_nested fuel a o1 b o2 c after rest errs ha hb hc h1 h2 hend
      (le_of_lt hlt), ?_, ?_⟩
  · decide!
  · decide!

/-- C2 at the tokens `x + y * z ;` and `x * y + z ;`: the hypotheses hold and
the two trees are the ones the tiers demand. -/
theorem precedence_tiers_respected_witness :
    parseExpression 4 0
        ⟨[⟨.ID, "x", 1, 0⟩, ⟨.OP, "+", 1, 2⟩, ⟨.ID, "y", 1, 4⟩, ⟨.OP, "*", 1, 6⟩,
          ⟨.NUMBER, "7", 1, 8⟩, ⟨.SEMI, ";", 1, 9⟩, ⟨.END, "", 1, 0⟩], []⟩ =
      .ok (some (.mk "BinaryExpr" "+" [.mk "Identifier" "x" [],
          .mk "BinaryExpr" "*" [.mk "Identifier" "y" [], .mk "NumberLiteral" "7" []]]))
        ⟨[⟨.SEMI, ";", 1, 9⟩, ⟨.END, "", 1, 0⟩], []⟩ ∧
    parseExpression 4 0
        ⟨[⟨.ID, "x", 1, 0⟩, ⟨.OP, "*", 1, 2⟩, ⟨.ID, "y", 1, 4⟩, ⟨.COMPARE, "<=", 1, 6⟩,
          ⟨.NUMBER, "7", 1, 9⟩, ⟨.RPAREN, ")", 1, 10⟩, ⟨.END, "", 1, 0⟩], []⟩ =
      .ok (some (.mk "BinaryExpr" "<=" [.mk "BinaryExpr" "*" [.mk "Identifier" "x" [],
          .mk "Identifier" "y" []], .mk "NumberLiteral" "7" []]))
        ⟨[⟨.RPAREN, ")", 1, 10⟩, ⟨.END, "", 1, 0⟩], []⟩ :=
  ⟨(precedence_tiers_respected 0 ⟨.ID, "x", 1, 0⟩ ⟨.OP, "+", 1, 2⟩ ⟨.ID, "y", 1, 4⟩
      ⟨.OP, "*", 1, 6⟩ ⟨.NUMBER, "7", 1, 8⟩ ⟨.SEMI, ";", 1, 9⟩ [⟨.END, "", 1, 0⟩] []
      (by decide) (by decide) (by decide) (by decide) (by decide) (by decide)).1 (by decide),
   (precedence_tiers_respected 0 ⟨.ID, "x", 1, 0⟩ ⟨.OP, "*", 1, 2⟩ ⟨.ID, "y", 1, 4⟩
      ⟨.COMPARE, "<=", 1, 6⟩ ⟨.NUMBER, "7", 1, 9⟩ ⟨.RPAREN, ")", 1, 10⟩ [⟨.END, "", 1, 0⟩] []
      (by decide) (by decide) (by decide) (by decide) (by decide) (by decide)).2.1 (by decide)⟩

/-- C3, refuted as stated: the tokens `10 - 4 - 3` do not parse to
`-[10, -[4, 3]]` but to `-[-[10, 4], 3]`, and `val r = 10 - 4 - 3;` binds `r`
to 3, not to 9. -/
theorem equal_precedence_right_assoc_refuted :
    parseExpression 8 0
        ⟨[⟨.NUMBER, "10", 1, 8⟩, ⟨.OP, "-", 1, 11⟩, ⟨.NUMBER, "4", 1, 13⟩, ⟨.OP, "-", 1, 15⟩,
          ⟨.NUMBER, "3", 1, 17⟩, ⟨.SEMI, ";", 1, 18⟩, ⟨.END, "", 1, 0⟩], []⟩ ≠
      .ok (some (.mk "BinaryExpr" "-" [.mk "NumberLiteral" "10" [],
          .mk "BinaryExpr" "-" [.mk "NumberLiteral" "4" [], .mk "NumberLiteral" "3" []]]))
        ⟨[⟨.SEMI, ";", 1, 18⟩, ⟨.END, "", 1, 0⟩], []⟩ ∧
    parseSource "val r = 10 - 4 - 3;" =
      some (.mk "Program" "" [.mk "Declaration" "r" [.mk "BinaryExpr" "-"
        [.mk "BinaryExpr" "-" [.mk "NumberLiteral" "10" [], .mk "NumberLiteral" "4" []],
         .mk "NumberLiteral" "3" []]]]) ∧
    interpretSource "val r = 10 - 4 - 3;" = some ⟨[("r", 3)], []⟩ ∧
    interpretSource "val r = 10 - 4 - 3;" ≠ some ⟨[("r", 9)], []⟩ := by
  refine ⟨?_, ?_, ?_, ?_⟩ <;> decide!

/-- C3, amended: equal-precedence chains associate left-to-right. For primary
operands `a b c`, operators `o1 o2` of the same tier and a following token that
ends the expression, the tokens `a o1 b o2 c` parse to `o2[o1[a, b], c]`; and
`val r = 10 - 4 - 3;` binds `r` to `(10 - 4) - 3 = 3`. -/
theorem equal_precedence_associates_left (fuel : Nat) (a o1 b o2 c after : Token)
    (rest : List Token) (errs : List String)
    (ha : isPrimary a) (hb : isPrimary b) (hc : isPrimary c)
    (h1 : isOperator o1) (h2 : isOperator o2) (hend : endsExpression after)
    (htier : getPrecedence o1.value = getPrecedence o2.value) :
    parseExpression (fuel + 4) 0 ⟨a :: o1 :: b :: o2 :: c :: after :: rest, errs⟩ =
        .ok (some (binaryNode o2 (binaryNode o1 (primaryNode a) (primaryNode b)) (primaryNode c)))
          ⟨after :: rest, errs⟩ ∧
    interpretSource "val r = 10 - 4 - 3;" = some ⟨[("r", 3)], []⟩ := by
  refine ⟨parseExpression_left_nested fuel a o1 b o2 c after rest errs ha hb hc h1 h2 hend
    (le_of_eq htier.symm), ?_⟩
  decide!

/-- C3 amended, at the tokens `10 - 4 + 3 ;`. -/
theorem equal_precedence_associates_left_witness :
    parseExpression 4 0
        ⟨[⟨.NUMBER, "10", 1, 0⟩, ⟨.OP, "-", 1, 3⟩, ⟨.NUMBER, "4", 1, 5⟩, ⟨.OP, "+", 1, 7⟩,
          ⟨.NUMBER, "3", 1, 9⟩, ⟨.SEMI, ";", 1, 10⟩, ⟨.END, "", 1, 0⟩], []⟩ =
      .ok (some (.mk "BinaryExpr" "+" [.mk "BinaryExpr" "-" [.mk "NumberLiteral" "10" [],
          .mk "NumberLiteral" "4" []], .mk "NumberLiteral" "3" []]))
        ⟨[⟨.SEMI, ";", 1, 10⟩, ⟨.END, "", 1, 0⟩], []⟩ :=
  (equal_precedence_associates_left 0 ⟨.NUMBER, "10", 1, 0⟩ ⟨.OP, "-", 1, 3⟩ ⟨.NUMBER, "4", 1, 5⟩
    ⟨.OP, "+", 1, 7⟩ ⟨.NUMBER, "3", 1, 9⟩ ⟨.SEMI, ";", 1, 10⟩ [⟨.END, "", 1, 0⟩] []
    (by decide) (by decide) (by decide) (by decide) (by decide) (by decide) (by decide)).1

/-! ## Interpreter against the reference semantics -/

theorem decimalValue_foldl (ds : List Char) (acc : Nat) :
    ds.foldl (fun acc d => 10 * acc + (d.toNat - '0'.toNat)) acc =
      acc * 10 ^ ds.length + positionalValue ds := by
  induction ds generalizing acc with
  | nil => simp [positionalValue]
  | cons d ds ih =>
    simp only [List.foldl_cons, ih, positionalValue, List.length_cons, pow_succ]
    ring

theorem decimalValue_eq (ds : List Char) : decimalValue ds = positionalValue ds := by
  rw [decimalValue, decimalValue_foldl]; simp

theorem isspace_of_isDigit (c : Char) (h : c.isDigit = true) : isspace c = false := by
  by_contra hs
  simp only [isspace, Bool.not_eq_false, Bool.or_eq_true, beq_iff_eq] at hs
  rcases hs with ((((rfl | rfl) | rfl) | rfl) | rfl) | rfl <;> simp [Char.isDigit] at h

/-- On a non-empty digit sequence whose value fits an `int`, `stoi` returns
the positional value. -/
theorem stoi_digits (ds : List Char) (hne : ds ≠ []) (hd : ds.all Char.isDigit = true)
    (hr : inIntRange (positionalValue ds)) :
    stoi (String.mk ds) = some (positionalValue ds : Int) := by
  obtain ⟨d, ds', rfl⟩ := List.exists_cons_of_ne_nil hne
  have hd0 : d.isDigit = true := by simp at hd; exact hd.1
  have hsp : isspace d = false := isspace_of_isDigit d hd0
  have hm : d ≠ '-' := by rintro rfl; simp [Char.isDigit] at hd0
  have hp : d ≠ '+' := by rintro rfl; simp [Char.isDigit] at hd0
  have htw : (d :: ds').takeWhile Char.isDigit = d :: ds' := by
    rw [List.takeWhile_eq_self_iff]
    intro c hc
    exact List.all_eq_true.mp hd c hc
  have hdw : (d :: ds').dropWhile isspace = d :: ds' := by
    simp [List.dropWhile, hsp]
  unfold stoi
  simp only [hdw, List.head?_cons, Option.some.injEq, hm, hp, or_self, if_false, htw,
    decimalValue_eq]
  have h1 := hr.1
  have h2 := hr.2
  simp [not_lt.mpr h1, not_lt.mpr h2]

theorem wrapInt_of_inIntRange (n : Int) (h : inIntRange n) : wrapInt n = n := by
  unfold inIntRange INT_MIN INT_MAX at h
  unfold wrapInt
  omega

theorem Vars.find_set (vars : Vars) (name : String) (val : Int) (x : String) :
    (Vars.set vars name val).find x = if name = x then some val else vars.find x := by
  induction vars with
  | nil => simp [Vars.set, Vars.find]
  | cons kv rest ih =>
    obtain ⟨k, v⟩ := kv
    by_cases hk : k = name
    · subst hk
      by_cases hx : k = x <;> simp [Vars.set, Vars.find, hx]
    · by_cases hx : k = x
      · subst hx
        have : ¬ name = k := fun h => hk h.symm
        simp [Vars.set, Vars.find, hk, this]
      · simp [Vars.set, Vars.find, hk, hx, ih]

/-- The operator dispatch of `evaluate` computes the standard operation
whenever that is defined and its value fits an `int`. -/
theorem evalBinary_apply (op : BinOp) (a b v : Int) (h : op.apply a b = some v)
    (hr : inIntRange v) : evalBinary op.symbol a b = some v := by
  cases op <;> simp only [BinOp.apply, Option.some.injEq] at h
  case add => subst h; simp [evalBinary, BinOp.symbol, wrapInt_of_inIntRange _ hr]
  case sub => subst h; simp [evalBinary, BinOp.symbol, wrapInt_of_inIntRange _ hr]
  case mul => subst h; simp [evalBinary, BinOp.symbol, wrapInt_of_inIntRange _ hr]
  case div =>
    split at h
    · cases h
    · rename_i hb
      simp only [Option.some.injEq] at h
      subst h
      have hov : ¬ (a = INT_MIN ∧ b = -1) := by
        rintro ⟨rfl, rfl⟩
        revert hr
        decide
      simp [evalBinary, BinOp.symbol, hb, hov]
  all_goals (subst h; simp [evalBinary, BinOp.symbol])

theorem evaluate_refEval (env : Env) (vars : Vars) (hag : agree env vars) (e : Expr) (v : Int)
    (h : refEval env e = some v) : evaluate e.toAST vars = some (v, vars) := by
  induction e generalizing v with
  | num ds =>
    simp only [refEval] at h
    split at h
    · rename_i hc
      simp only [Option.some.injEq] at h
      subst h
      simp [Expr.toAST, evaluate_eq, stoi_digits ds hc.1 hc.2.1 hc.2.2]
    · cases h
  | var name =>
    simp only [refEval] at h
    rw [hag] at h
    simp [Expr.toAST, evaluate_eq, h]
  | bin op l r ihl ihr =>
    simp only [refEval] at h
    split at h
    · rename_i a b ha hb
      split at h
      · rename_i w hw
        split at h
        · rename_i hrange
          simp only [Option.some.injEq] at h
          subst h
          have h3 := evalBinary_apply op a b w hw hrange
          simp [Expr.toAST, evaluate_eq, ihl a ha, ihr b hb, h3]
        · cases h
      · cases h
    · cases h

theorem executeAll_refRun (prog : List Stmt) (env : Env) (vars : Vars) (out : List String)
    (values : List Int) (hag : agree env vars) (h : refRun env prog = some values) :
    ∃ vars1, executeAll (prog.map Stmt.toAST) ⟨vars, out⟩ =
      some ⟨vars1, out ++ values.map toString⟩ := by
  induction prog generalizing env vars out values with
  | nil =>
    simp only [refRun, Option.some.injEq] at h
    subst h
    exact ⟨vars, by simp [executeAll_nil]⟩
  | cons s rest ih =>
    cases s with
    | decl name init =>
      simp only [refRun] at h
      split at h
      · rename_i v hv
        have hag1 : agree ((name, v) :: env) (Vars.set vars name v) := by
          intro x
          rw [Vars.find_set]
          by_cases hx : name = x
          · simp [Env.lookup, hx]
          · simp [Env.lookup, hx, hag x]
        obtain ⟨vars1, h1⟩ := ih _ _ out values hag1 h
        refine ⟨vars1, ?_⟩
        simp [List.map_cons, executeAll_cons, Stmt.toAST, execute_eq,
          evaluate_refEval env vars hag init v hv, h1]
      · cases h
    | print e =>
      simp only [refRun] at h
      split at h
      · rename_i v vs hv hvs
        simp only [Option.some.injEq] at h
        subst h
        obtain ⟨vars1, h1⟩ := ih env vars (out ++ [toString v]) vs hag hvs
        refine ⟨vars1, ?_⟩
        have hty : (e.toAST).nodeType ≠ "StringLiteral" := by
          cases e <;> simp [Expr.toAST, ASTNode.nodeType]
        simp [List.map_cons, executeAll_cons, Stmt.toAST, execute_eq, hty,
          evaluate_refEval env vars hag e v hv, h1]
      · cases h

/-- C1: for every program made only of declarations with initializers and
prints of integer expressions whose reference evaluation is defined (no
division by zero, no value outside the `int` range, every identifier bound,
every literal a digit sequence), the interpreter run on the program's tree from
an empty variable map does not fault and prints exactly the decimal renderings
of the values the reference semantics gives, in order. -/
theorem interpreter_matches_reference (prog : List Stmt) (values : List Int)
    (h : refRun [] prog = some values) :
    ∃ vars, execute (programAST prog) ⟨[], []⟩ = some ⟨vars, values.map toString⟩ := by
  obtain ⟨vars, hv⟩ := executeAll_refRun prog [] [] [] values (fun _ => rfl) h
  refine ⟨vars, ?_⟩
  rw [programAST, execute_eq]
  simpa using hv

/-- C1 at the program `val r = 2 + 3 * 4; val q = 0 - r / 5; prt(q); prt(q < r);`:
the reference values are -2 and 1, and the interpreter prints them. -/
theorem interpreter_matches_reference_witness :
    refRun []
        [.decl "r" (.bin .add (.num ['2']) (.bin .mul (.num ['3']) (.num ['4']))),
         .decl "q" (.bin .sub (.num ['0']) (.bin .div (.var "r") (.num ['5']))),
         .print (.var "q"), .print (.bin .less (.var "q") (.var "r"))] = some [-2, 1] ∧
    ∃ vars, execute (programAST
        [.decl "r" (.bin .add (.num ['2']) (.bin .mul (.num ['3']) (.num ['4']))),
         .decl "q" (.bin .sub (.num ['0']) (.bin .div (.var "r") (.num ['5']))),
         .print (.var "q"), .print (.bin .less (.var "q") (.var "r"))]) ⟨[], []⟩ =
      some ⟨vars, ["-2", "1"]⟩ :=
  ⟨by decide!, interpreter_matches_reference _ [-2, 1] (by decide!)⟩

/-! ## Semantic checker -/

theorem mem_preorderAll (n : ASTNode) (cs : List ASTNode) :
    n ∈ preorderAll cs ↔ ∃ c ∈ cs, n ∈ preorder c := by
  induction cs with
  | nil => simp [preorderAll_nil]
  | cons c cs ih => simp [preorderAll_cons, ih]

theorem childCountInvariant_mk (ty v : String) (cs : List ASTNode)
    (h : childCountInvariant (.mk ty v cs)) :
    childCountOk (.mk ty v cs) ∧ ∀ c ∈ cs, childCountInvariant c := by
  refine ⟨h _ (by simp [preorder_eq]), fun c hc n hn => h n ?_⟩
  rw [preorder_eq]
  exact List.mem_cons_of_mem _ ((mem_preorderAll n cs).mpr ⟨c, hc, hn⟩)

theorem identifiersAreLeaves_mk (ty v : String) (cs : List ASTNode)
    (h : identifiersAreLeaves (.mk ty v cs)) :
    (ty = "Identifier" → cs = []) ∧ ∀ c ∈ cs, identifiersAreLeaves c := by
  refine ⟨h (.mk ty v cs) (by simp [preorder_eq]), fun c hc n hn => h n ?_⟩
  rw [preorder_eq]
  exact List.mem_cons_of_mem _ ((mem_preorderAll n cs).mpr ⟨c, hc, hn⟩)

/-- On a list of trees that are each checked as one pass over their nodes,
the loop over the list is one pass over all their nodes. -/
theorem semanticAnalysisAll_flat (cs : List ASTNode)
    (ih : ∀ c ∈ cs, ∀ st, semanticAnalysis c st = some ((preorder c).foldl semStep st))
    (st : SemState) :
    semanticAnalysisAll cs st = some ((preorderAll cs).foldl semStep st) := by
  induction cs generalizing st with
  | nil => rfl
  | cons c cs ihc =>
    rw [semanticAnalysisAll_cons, ih c (List.mem_cons_self _ _), preorderAll_cons,
      List.foldl_append]
    exact ihc (fun d hd => ih d (List.mem_cons_of_mem _ hd)) _

/-- The checker is a single left-to-right pass over the depth-first node
sequence with one flat table: on a tree that satisfies the child-count
invariant and whose identifiers are leaves it never faults and computes the
fold of `semStep` over `preorder`. -/
theorem semanticAnalysis_flat (t : ASTNode) :
    childCountInvariant t → identifiersAreLeaves t →
      ∀ st, semanticAnalysis t st = some ((preorder t).foldl semStep st) := by
  induction t using ASTNode.induct with
  | h ty v cs ih =>
    intro hinv hleaf st
    obtain ⟨hok, hinvc⟩ := childCountInvariant_mk ty v cs hinv
    obtain ⟨hid, hleafc⟩ := identifiersAreLeaves_mk ty v cs hleaf
    have ihc : ∀ c ∈ cs, ∀ st, semanticAnalysis c st = some ((preorder c).foldl semStep st) :=
      fun c hc => ih c hc (hinvc c hc) (hleafc c hc)
    have hall := semanticAnalysisAll_flat cs ihc
    rw [preorder_eq, List.foldl_cons, semanticAnalysis_eq]
    simp only [childCountOk, ASTNode.nodeType, ASTNode.children] at hok
    by_cases h1 : ty = "Program"
    · subst h1
      simp [semStep, ASTNode.nodeType, hall]
    by_cases h2 : ty = "Declaration"
    · subst h2
      have hlen := hok.1 rfl
      rcases cs with _ | ⟨c, _ | ⟨d, rest⟩⟩
      · simp [semStep, ASTNode.nodeType, ASTNode.value, preorderAll_nil]
      · simp [semStep, ASTNode.nodeType, ASTNode.value, preorderAll_cons, preorderAll_nil,
          ihc c (List.mem_cons_self _ _)]
      · simp at hlen
    by_cases h3 : ty = "Identifier"
    · subst h3
      simp [semStep, ASTNode.nodeType, ASTNode.value, hid rfl, preorderAll_nil]
    by_cases h4 : ty = "BinaryExpr"
    · subst h4
      have hlen := hok.2.1 rfl
      rcases cs with _ | ⟨l, _ | ⟨r, _ | ⟨x, rest⟩⟩⟩
      · simp at hlen
      · simp at hlen
      · simp [semStep, ASTNode.nodeType, preorderAll_cons, preorderAll_nil,
          ihc l (List.mem_cons_self _ _), ihc r (by simp)]
      · simp at hlen
    by_cases h5 : ty = "Return"
    · subst h5
      have hlen := hok.2.2.2 rfl
      rcases cs with _ | ⟨c, _ | ⟨d, rest⟩⟩
      · simp at hlen
      · simp [semStep, ASTNode.nodeType, preorderAll_cons, preorderAll_nil,
          ihc c (List.mem_cons_self _ _)]
      · simp at hlen
    simp [semStep, ASTNode.nodeType, h1, h2, h3, h4, h5, hall]

theorem foldl_semStep_noDeclaration (nodes : List ASTNode) (errs : List String)
    (h : ∀ n ∈ nodes, n.nodeType ≠ "Declaration") :
    nodes.foldl semStep ⟨[], errs⟩ =
      ⟨[], errs ++ ((nodes.filter (fun n => n.nodeType = "Identifier")).map
        ASTNode.value).map undeclaredMsg⟩ := by
  induction nodes generalizing errs with
  | nil => simp
  | cons n nodes ih =>
    have hn := h n (List.mem_cons_self _ _)
    have ih1 := fun errs => ih errs (fun m hm => h m (List.mem_cons_of_mem _ hm))
    by_cases hid : n.nodeType = "Identifier"
    · simp [semStep, hid, checkUse, ih1, List.filter_cons]
    · simp [semStep, hn, hid, ih1, List.filter_cons]

theorem alreadyDeclaredMsg_inj (m n : String) (h : alreadyDeclaredMsg m = alreadyDeclaredMsg n) :
    m = n := by
  have h1 := congrArg String.data h
  simp only [alreadyDeclaredMsg, String.data_append, List.append_assoc] at h1
  have h2 := List.append_cancel_left h1
  have h3 := List.append_cancel_right h2
  exact String.ext h3

theorem alreadyDeclaredMsg_ne_undeclaredMsg (m n : String) :
    alreadyDeclaredMsg m ≠ undeclaredMsg n := by
  intro h
  have h1 := congrArg (fun s => s.data.head?) h
  simp [alreadyDeclaredMsg, undeclaredMsg, String.data_append] at h1

theorem foldl_semStep_symbolTable (nodes : List ASTNode) (st : SemState) (n : String) :
    n ∈ (nodes.foldl semStep st).symbolTable ↔
      n ∈ st.symbolTable ∨
        n ∈ (nodes.filter (fun d => d.nodeType = "Declaration")).map ASTNode.value := by
  induction nodes generalizing st with
  | nil => simp
  | cons d nodes ih =>
    rw [List.foldl_cons, ih]
    by_cases hd : d.nodeType = "Declaration"
    · by_cases hm : d.value ∈ st.symbolTable
      · simp only [semStep, hd, if_true, declare, hm, List.filter_cons, decide_True,
          List.map_cons, List.mem_cons]
        constructor
        · rintro (h | h)
          · exact Or.inl h
          · exact Or.inr (Or.inr h)
        · rintro (h | h | h)
          · exact Or.inl h
          · exact Or.inl (h ▸ hm)
          · exact Or.inr h
      · simp only [semStep, hd, if_true, declare, hm, if_false, List.filter_cons, decide_True,
          List.map_cons, List.mem_cons, List.mem_append, List.mem_singleton]
        tauto
    · by_cases hid : d.nodeType = "Identifier"
      · by_cases hm : d.value ∈ st.symbolTable <;>
          simp [semStep, hd, hid, checkUse, hm, List.filter_cons]
      · simp [semStep, hd, hid, List.filter_cons]

theorem foldl_semStep_count (nodes : List ASTNode) (st : SemState) (n : String) :
    (nodes.foldl semStep st).errors.count (alreadyDeclaredMsg n) =
      st.errors.count (alreadyDeclaredMsg n) +
        (if n ∈ st.symbolTable then
          ((nodes.filter (fun d => d.nodeType = "Declaration")).map ASTNode.value).count n
        else
          ((nodes.filter (fun d => d.nodeType = "Declaration")).map ASTNode.value).count n - 1) := by
  induction nodes generalizing st with
  | nil => simp
  | cons d nodes ih =>
    rw [List.foldl_cons, ih]
    by_cases hd : d.nodeType = "Declaration"
    · by_cases hm : d.value ∈ st.symbolTable
      · by_cases hdn : d.value = n
        · subst hdn
          simp [semStep, hd, declare, hm, List.filter_cons, List.count_cons]
          omega
        · have hne : ¬ alreadyDeclaredMsg d.value = alreadyDeclaredMsg n :=
            fun h => hdn (alreadyDeclaredMsg_inj _ _ h)
          simp [semStep, hd, declare, hm, List.filter_cons, List.count_cons, hdn, hne]
      · by_cases hdn : d.value = n
        · subst hdn
          simp [semStep, hd, declare, hm, List.filter_cons, List.count_cons]
        · have hnd : ¬ n = d.value := fun h => hdn h.symm
          simp [semStep, hd, declare, hm, List.filter_cons, List.count_cons, hdn, hnd]
    · by_cases hid : d.nodeType = "Identifier"
      · by_cases hm : d.value ∈ st.symbolTable
        · simp [semStep, hd, hid, checkUse, hm, List.filter_cons]
        · have hne : ¬ undeclaredMsg d.value = alreadyDeclaredMsg n :=
            fun h => alreadyDeclaredMsg_ne_undeclaredMsg _ _ h.symm
          simp [semStep, hd, hid, checkUse, hm, List.filter_cons, List.count_cons, hne]
      · simp [semStep, hd, hid, List.filter_cons]

/-- C4: starting from an empty symbol table, on every tree that satisfies the
child-count invariant and whose identifiers are leaves, the checker does not
fault; for every name `n` it records one "Variable 'n' already declared."
diagnostic per `Declaration` node named `n` other than the first in
depth-first order (none when `n` is declared once), wherever those nodes sit in
the tree; the table holds exactly the declared names. The source
`val x = 1; val x = 2;` yields exactly that one diagnostic, and neither
three-address code nor assembly nor interpreter output is produced. -/
theorem redeclaration_diagnosed (t : ASTNode) (hinv : childCountInvariant t)
    (hleaf : identifiersAreLeaves t) :
    (∃ sem, semanticAnalysis t ⟨[], []⟩ = some sem ∧
      (∀ n, sem.errors.count (alreadyDeclaredMsg n) = (declaredNames t).count n - 1) ∧
      (∀ n, n ∈ sem.symbolTable ↔ n ∈ declaredNames t)) ∧
    (compile "val x = 1; val x = 2;").map
        (fun r => (r.errors, r.symbolTable, r.intermediateCode, r.asmCode, r.output)) =
      some (["Variable 'x' already declared."], .ran ["x"], .notRun, .notRun, .notRun) := by
  refine ⟨⟨_, semanticAnalysis_flat t hinv hleaf ⟨[], []⟩, fun n => ?_, fun n => ?_⟩, ?_⟩
  · simpa [declaredNames] using foldl_semStep_count (preorder t) ⟨[], []⟩ n
  · simpa [declaredNames] using foldl_semStep_symbolTable (preorder t) ⟨[], []⟩ n
  · decide!

/-- C4 at a tree that declares `x` at top level, in a then-block and in an
else-block: two diagnostics for `x`, none for `y`. -/
theorem redeclaration_diagnosed_witness :
    childCountInvariant redeclarationSample ∧ identifiersAreLeaves redeclarationSample ∧
    ∃ sem, semanticAnalysis redeclarationSample ⟨[], []⟩ = some sem ∧
      (∀ n, sem.errors.count (alreadyDeclaredMsg n) =
        (declaredNames redeclarationSample).count n - 1) ∧
      (∀ n, n ∈ sem.symbolTable ↔ n ∈ declaredNames redeclarationSample) :=
  ⟨by decide!, by decide!, (redeclaration_diagnosed redeclarationSample (by decide!) (by decide!)).1⟩

/-! ## Pipeline -/

/-- C6, the failing input `val x;`: tokenization, parsing and semantic checking
record no diagnostic, the three-address code (empty) and the assembly
(`mov x, 0`) are produced, and the interpreter then reads `children[0]` of a
`Declaration` without children: it faults and produces no output. -/
theorem compile_declaration_without_initializer :
    compile "val x;" =
      some ⟨[⟨.VAL, "val", 1, 0⟩, ⟨.ID, "x", 1, 4⟩, ⟨.SEMI, ";", 1, 5⟩, ⟨.END, "", 1, 0⟩], [],
        .ran (.mk "Program" "" [.mk "Declaration" "x" []]), .ran ["x"], .ran [],
        .ran ["mov x, 0"], .fault⟩ := by
  decide!

/-- The early returns of `compile`: a stage that records a diagnostic is the
last one that runs. -/
theorem compile_stops_at_first_diagnostic (source : String) (tokens : List Token)
    (lexErrors : List String) (ht : tokenize source = some (tokens, lexErrors)) :
    (lexErrors ≠ [] →
      compile source = some ⟨tokens, lexErrors, .notRun, .notRun, .notRun, .notRun, .notRun⟩) ∧
    (∀ ast st, lexErrors = [] → parseProgram tokens [] = .ok ast st → st.errors ≠ [] →
      compile source = some ⟨tokens, st.errors, .ran ast, .notRun, .notRun, .notRun, .notRun⟩) ∧
    (∀ ast st sem, lexErrors = [] → parseProgram tokens [] = .ok ast st → st.errors = [] →
      semanticAnalysis ast ⟨[], []⟩ = some sem → sem.errors ≠ [] →
      compile source =
        some ⟨tokens, sem.errors, .ran ast, .ran (keyOrder sem.symbolTable), .notRun, .notRun,
          .notRun⟩) := by
  refine ⟨fun h => ?_, fun ast st h0 hp h => ?_, fun ast st sem h0 hp h1 hs h => ?_⟩
  · simp [compile, ht, h]
  · subst h0
    simp [compile, ht, hp, h]
  · subst h0
    simp [compile, ht, hp, h1, hs, h]

/-- The symbol table section lists the names in key order, not in the order
of declaration. -/
theorem compile_symbolTable_keyOrder :
    (compile "val b = 1; val a = 2; val c = 3;").map (fun r => (r.errors, r.symbolTable)) =
      some ([], .ran ["a", "b", "c"]) ∧
    semanticAnalysis (.mk "Program" "" [.mk "Declaration" "b" [.mk "NumberLiteral" "1" []],
      .mk "Declaration" "a" [.mk "NumberLiteral" "2" []]]) ⟨[], []⟩ = some ⟨["b", "a"], []⟩ := by
  refine ⟨?_, ?_⟩ <;> decide!

/-! ## Conditionals in the interpreter -/

/-- Evaluating an expression changes the variable map at most by inserting
zero entries for names that were absent. -/
theorem evaluate_find (t : ASTNode) :
    ∀ vars v vars1, evaluate t vars = some (v, vars1) →
      ∀ x, vars1.find x = vars.find x ∨ (vars.find x = none ∧ vars1.find x = some 0) := by
  induction t using ASTNode.induct with
  | h ty val cs ih =>
    intro vars v vars1 h x
    rw [evaluate_eq] at h
    split at h
    · split at h
      · simp only [Option.some.injEq, Prod.mk.injEq] at h
        exact Or.inl (by rw [h.2])
      · cases h
    · split at h
      · split at h
        · simp only [Option.some.injEq, Prod.mk.injEq] at h
          exact Or.inl (by rw [h.2])
        · rename_i hnone
          simp only [Option.some.injEq, Prod.mk.injEq] at h
          rw [← h.2, Vars.find_set]
          by_cases hx : val = x
          · subst hx
            exact Or.inr ⟨hnone, by simp⟩
          · exact Or.inl (by simp [hx])
      · split at h
        · split at h
          · rename_i l r rest
            split at h
            · rename_i left vars2 hl
              split at h
              · rename_i right vars3 hr
                split at h
                · simp only [Option.some.injEq, Prod.mk.injEq] at h
                  rw [← h.2]
                  have h1 := ih l (by simp) vars left vars2 hl x
                  have h2 := ih r (by simp) vars2 right vars3 hr x
                  rcases h1 with h1 | ⟨h1, h1'⟩ <;> rcases h2 with h2 | ⟨h2, h2'⟩
                  · exact Or.inl (by rw [h2, h1])
                  · exact Or.inr ⟨by rw [← h1, h2], h2'⟩
                  · exact Or.inr ⟨h1, by rw [h2, h1']⟩
                  · rw [h1'] at h2; cases h2
                · cases h
              · cases h
            · cases h
          · cases h
        · simp only [Option.some.injEq, Prod.mk.injEq] at h
          exact Or.inl (by rw [h.2])

theorem Vars.set_of_find (vars : Vars) (name : String) (val : Int)
    (h : vars.find name = some val) : Vars.set vars name val = vars := by
  induction vars with
  | nil => simp [Vars.find] at h
  | cons kv rest ih =>
    obtain ⟨k, v⟩ := kv
    by_cases hk : k = name
    · simp [Vars.find, hk] at h
      simp [Vars.set, hk, h]
    · simp [Vars.find, hk] at h
      simp [Vars.set, hk, ih h]

theorem identifierNames_mk (ty v : String) (cs : List ASTNode) (c : ASTNode) (hc : c ∈ cs)
    (n : String) (hn : n ∈ identifierNames c) : n ∈ identifierNames (.mk ty v cs) := by
  simp only [identifierNames, List.mem_map, List.mem_filter, decide_eq_true_eq] at hn ⊢
  obtain ⟨d, ⟨hd, hty⟩, rfl⟩ := hn
  refine ⟨d, ⟨?_, hty⟩, rfl⟩
  rw [preorder_eq]
  exact List.mem_cons_of_mem _ ((mem_preorderAll d cs).mpr ⟨c, hc, hd⟩)

/-- Evaluating an expression whose identifiers are all bound leaves the
variable map as it was. -/
theorem evaluate_bound (t : ASTNode) :
    ∀ vars v vars1, (∀ n ∈ identifierNames t, (vars.find n).isSome) →
      evaluate t vars = some (v, vars1) → vars1 = vars := by
  induction t using ASTNode.induct with
  | h ty val cs ih =>
    intro vars v vars1 hb h
    rw [evaluate_eq] at h
    split at h
    · split at h
      · simp only [Option.some.injEq, Prod.mk.injEq] at h
        exact h.2.symm
      · cases h
    · split at h
      · rename_i hid
        split at h
        · simp only [Option.some.injEq, Prod.mk.injEq] at h
          exact h.2.symm
        · rename_i hnone
          have := hb val (by simp [identifierNames, preorder_eq, ASTNode.nodeType,
            ASTNode.value, hid, List.filter_cons])
          rw [hnone] at this
          simp at this
      · split at h
        · split at h
          · rename_i l r rest
            split at h
            · rename_i left vars2 hl
              split at h
              · rename_i right vars3 hr
                split at h
                · simp only [Option.some.injEq, Prod.mk.injEq] at h
                  rw [← h.2]
                  have h1 := ih l (by simp) vars left vars2
                    (fun n hn => hb n (identifierNames_mk _ _ _ l (by simp) n hn)) hl
                  subst h1
                  exact ih r (by simp) vars2 right vars3
                    (fun n hn => hb n (identifierNames_mk _ _ _ r (by simp) n hn)) hr
                · cases h
              · cases h
            · cases h
          · cases h
        · simp only [Option.some.injEq, Prod.mk.injEq] at h
          exact h.2.symm

/-- C7, refuted as stated: an `IfElse` without else-block whose condition `y`
reads an unbound name evaluates to zero, runs no block, and leaves a variable
map that is not the one it started from: `variables[name]` has inserted
`y = 0`. The same happens in the pipeline on a source that passes every
check. -/
theorem ifElse_zero_condition_changes_map :
    evaluate (.mk "Identifier" "y" []) [] = some (0, [("y", 0)]) ∧
    execute (.mk "IfElse" "" [.mk "Identifier" "y" [], .mk "Block" "" []]) ⟨[], []⟩ =
      some ⟨[("y", 0)], []⟩ ∧
    execute (.mk "IfElse" "" [.mk "Identifier" "y" [], .mk "Block" "" []]) ⟨[], []⟩ ≠
      some ⟨[], []⟩ ∧
    (compile "agar (0 > 1) \x7b val y = 1; \x7d agar (y > 0) \x7b \x7d").map
      (fun r => (r.errors, r.output)) = some ([], .ran []) ∧
    interpretSource "agar (0 > 1) \x7b val y = 1; \x7d agar (y > 0) \x7b \x7d" =
      some ⟨[("y", 0)], []⟩ := by
  refine ⟨?_, ?_, ?_, ?_, ?_⟩ <;> decide!

/-- C7, amended: for every `IfElse` node whose condition evaluates (to `cond`,
leaving the map `vars1`), the interpreter executes exactly one block from the
state left by the condition: the then-block when `cond` is nonzero, the
else-block when it is zero; without an else-block and with a zero condition
the output is unchanged and the variable map is `vars1`, which gives every name
the value it had except that names the condition read while absent now hold 0,
and which is the map before the statement when every identifier of the
condition is bound. The source
`val a = 5; agar (a > 3) { prt(1); } nhi-to { prt(0); }` prints exactly `1`. -/
theorem ifElse_executes_one_branch (payload : String) (c t e : ASTNode) (st : RunState)
    (cond : Int) (vars1 : Vars) (h : evaluate c st.vars = some (cond, vars1)) :
    execute (.mk "IfElse" payload [c, t, e]) st =
      (if cond ≠ 0 then execute t ⟨vars1, st.output⟩ else execute e ⟨vars1, st.output⟩) ∧
    execute (.mk "IfElse" payload [c, t]) st =
      (if cond ≠ 0 then execute t ⟨vars1, st.output⟩ else some ⟨vars1, st.output⟩) ∧
    (∀ x, vars1.find x = st.vars.find x ∨ (st.vars.find x = none ∧ vars1.find x = some 0)) ∧
    ((∀ n ∈ identifierNames c, (st.vars.find n).isSome) → vars1 = st.vars) ∧
    interpretSource "val a = 5; agar (a > 3) \x7b prt(1); \x7d nhi-to \x7b prt(0); \x7d" =
      some ⟨[("a", 5)], ["1"]⟩ := by
  refine ⟨?_, ?_, evaluate_find c _ _ _ h, fun hb => evaluate_bound c _ _ _ hb h, by decide!⟩
  · rw [execute_eq]; simp [h]
  · rw [execute_eq]; simp [h]

/-- C7 amended, at the condition `a > 3` with `a = 5` and at `a > 7`: the
then-block prints, the else-block prints, and without an else-block nothing
changes. -/
theorem ifElse_executes_one_branch_witness :
    execute (.mk "IfElse" "" [.mk "BinaryExpr" ">" [.mk "Identifier" "a" [],
        .mk "NumberLiteral" "3" []],
        .mk "Block" "" [.mk "Print" "" [.mk "NumberLiteral" "1" []]],
        .mk "Block" "" [.mk "Print" "" [.mk "NumberLiteral" "0" []]]]) ⟨[("a", 5)], []⟩ =
      some ⟨[("a", 5)], ["1"]⟩ ∧
    execute (.mk "IfElse" "" [.mk "BinaryExpr" ">" [.mk "Identifier" "a" [],
        .mk "NumberLiteral" "7" []],
        .mk "Block" "" [.mk "Print" "" [.mk "NumberLiteral" "1" []]]]) ⟨[("a", 5)], []⟩ =
      some ⟨[("a", 5)], []⟩ :=
  ⟨(ifElse_executes_one_branch "" (.mk "BinaryExpr" ">" [.mk "Identifier" "a" [],
        .mk "NumberLiteral" "3" []])
      (.mk "Block" "" [.mk "Print" "" [.mk "NumberLiteral" "1" []]])
      (.mk "Block" "" [.mk "Print" "" [.mk "NumberLiteral" "0" []]])
      ⟨[("a", 5)], []⟩ 1 [("a", 5)] (by decide!)).1,
   (ifElse_executes_one_branch "" (.mk "BinaryExpr" ">" [.mk "Identifier" "a" [],
        .mk "NumberLiteral" "7" []])
      (.mk "Block" "" [.mk "Print" "" [.mk "NumberLiteral" "1" []]])
      (.mk "Block" "" [])
      ⟨[("a", 5)], []⟩ 0 [("a", 5)] (by decide!)).2.1⟩

/-! ## Token positions -/

/-- C8, the failing input: in the source `prt("a` newline `b");` the token `)`
starts at offset 9, which is on line 2 at column 2 (one newline precedes it,
two characters stand between that newline and it), and the tokenizer reports
line 1, column 9: a newline consumed inside a string literal is never
counted. -/
theorem tokenize_position_after_multiline_string :
    tokenize "prt(\"a\nb\");" =
      some ([⟨.PRT, "prt", 1, 0⟩, ⟨.LPAREN, "(", 1, 3⟩, ⟨.STRING, "\"a\nb\"", 1, 4⟩,
        ⟨.RPAREN, ")", 1, 9⟩, ⟨.SEMI, ";", 1, 10⟩, ⟨.END, "", 1, 0⟩], []) ∧
    ("prt(\"a\nb\");".data.drop 9).take 1 = [')'] ∧
    lineAt "prt(\"a\nb\");".data 9 = 2 ∧
    columnAt "prt(\"a\nb\");".data 9 = 2 := by
  refine ⟨?_, ?_, ?_, ?_⟩ <;> decide!

/-! ## Division lowering -/

theorem not_isIdiv_mov (x : String) : ¬ isIdiv ("mov " ++ x) := by
  simp [isIdiv, String.data_append]

theorem not_isIdiv_binaryAsm (op leftReg rightReg line : String) (hop : op ≠ "/")
    (h : line ∈ (binaryAsm op leftReg rightReg).1) : ¬ isIdiv line := by
  unfold binaryAsm at h
  split at h
  · simp only [List.mem_singleton] at h; subst h; simp [isIdiv, String.data_append]
  · split at h
    · simp only [List.mem_singleton] at h; subst h; simp [isIdiv, String.data_append]
    · split at h
      · simp only [List.mem_singleton] at h; subst h; simp [isIdiv, String.data_append]
      · simp [hop] at h

theorem cdqBeforeEveryIdiv_append (lines new : List String) (h : cdqBeforeEveryIdiv lines)
    (hnew : ∀ l ∈ new, ¬ isIdiv l) : cdqBeforeEveryIdiv (lines ++ new) := by
  intro i line hi hdiv
  by_cases hlt : i < lines.length
  · rw [List.getElem?_append_left hlt] at hi
    obtain ⟨hpos, hprev⟩ := h i line hi hdiv
    refine ⟨hpos, ?_⟩
    rw [List.getElem?_append_left (by omega)]
    exact hprev
  · rw [List.getElem?_append_right (by omega)] at hi
    exact absurd hdiv (hnew line (List.getElem?_mem hi))

theorem cdqBeforeEveryIdiv_append_div (lines : List String) (reg : String)
    (h : cdqBeforeEveryIdiv lines) : cdqBeforeEveryIdiv (lines ++ ["cdq", "idiv " ++ reg]) := by
  intro i line hi hdiv
  by_cases hlt : i < lines.length
  · rw [List.getElem?_append_left hlt] at hi
    obtain ⟨hpos, hprev⟩ := h i line hi hdiv
    refine ⟨hpos, ?_⟩
    rw [List.getElem?_append_left (by omega)]
    exact hprev
  · rw [List.getElem?_append_right (by omega)] at hi
    obtain ⟨k, hk⟩ : ∃ k, i = lines.length + k := ⟨i - lines.length, by omega⟩
    subst hk
    simp only [Nat.add_sub_cancel_left] at hi
    rcases k with _ | _ | k
    · simp at hi
      subst hi
      exact absurd hdiv (by decide)
    · refine ⟨by omega, ?_⟩
      rw [List.getElem?_append_right (by omega)]
      simp
    · simp at hi

theorem cdqBeforeEveryIdiv_binaryAsm (lines : List String) (op leftReg rightReg : String)
    (h : cdqBeforeEveryIdiv lines) :
    cdqBeforeEveryIdiv (lines ++ (binaryAsm op leftReg rightReg).1) := by
  by_cases hop : op = "/"
  · subst hop
    have : (binaryAsm "/" leftReg rightReg).1 = ["cdq", "idiv " ++ rightReg] := by
      simp [binaryAsm]
    rw [this]
    exact cdqBeforeEveryIdiv_append_div lines rightReg h
  · exact cdqBeforeEveryIdiv_append lines _ h
      (fun l hl => not_isIdiv_binaryAsm op leftReg rightReg l hop hl)

theorem generateAssemblyAll_invariant (P : List String → Prop) (cs : List ASTNode)
    (ih : ∀ c ∈ cs, ∀ code n reg code1 n1,
      generateAssembly c code n = some (reg, code1, n1) → P code → P code1) :
    ∀ code n code1 n1, generateAssemblyAll cs code n = some (code1, n1) → P code → P code1 := by
  induction cs with
  | nil =>
    intro code n code1 n1 h hp
    simp only [generateAssemblyAll_nil, Option.some.injEq, Prod.mk.injEq] at h
    rw [← h.1]; exact hp
  | cons c cs ihc =>
    intro code n code1 n1 h hp
    rw [generateAssemblyAll_cons] at h
    split at h
    · rename_i reg code2 n2 hc
      exact ihc (fun d hd => ih d (List.mem_cons_of_mem _ hd)) code2 n2 code1 n1 h
        (ih c (List.mem_cons_self _ _) code n reg code2 n2 hc hp)
    · cases h

/-- A property of listings that survives every group of lines the generator
appends survives `generateAssembly`. -/
theorem generateAssembly_invariant (P : List String → Prop)
    (hmov : ∀ code x, P code → P (code ++ ["mov " ++ x]))
    (hbin : ∀ code op l r, P code → P (code ++ (binaryAsm op l r).1))
    (hret : ∀ code x, P code → P (code ++ ["mov eax, " ++ x, "ret"])) (t : ASTNode) :
    ∀ code n reg code1 n1, generateAssembly t code n = some (reg, code1, n1) →
      P code → P code1 := by
  induction t using ASTNode.induct with
  | h ty v cs ih =>
    intro code n reg code1 n1 h hp
    rw [generateAssembly_eq] at h
    split at h
    · simp only [Option.some.injEq, Prod.mk.injEq] at h
      rw [← h.2.1, String.append_assoc]
      exact hmov _ _ hp
    · split at h
      · split at h
        · rename_i l r rest
          split at h
          · rename_i leftReg asm1 m1 hl
            split at h
            · rename_i rightReg asm2 m2 hr
              simp only [Option.some.injEq, Prod.mk.injEq] at h
              rw [← h.2.1]
              exact hbin _ _ _ _ (ih r (by simp) asm1 m1 rightReg asm2 m2 hr
                (ih l (by simp) code n leftReg asm1 m1 hl hp))
            · cases h
          · cases h
        · cases h
      · split at h
        · split at h
          · simp only [Option.some.injEq, Prod.mk.injEq] at h
            rw [← h.2.1, String.append_assoc]
            exact hmov _ _ hp
          · rename_i c rest
            split at h
            · rename_i resultReg asm1 m1 hc
              simp only [Option.some.injEq, Prod.mk.injEq] at h
              rw [← h.2.1, String.append_assoc]
              exact hmov _ _ (ih c (by simp) code 0 resultReg asm1 m1 hc hp)
            · cases h
        · split at h
          · split at h
            · rename_i asm1 m1 hall
              simp only [Option.some.injEq, Prod.mk.injEq] at h
              rw [← h.2.1]
              exact generateAssemblyAll_invariant P cs ih code n asm1 m1 hall hp
            · cases h
          · split at h
            · split at h
              · simp only [Option.some.injEq, Prod.mk.injEq] at h
                rw [← h.2.1]; exact hp
              · rename_i c rest
                split at h
                · rename_i retReg asm1 m1 hc
                  simp only [Option.some.injEq, Prod.mk.injEq] at h
                  rw [← h.2.1]
                  exact hret _ _ (ih c (by simp) code 0 retReg asm1 m1 hc hp)
                · cases h
            · simp only [Option.some.injEq, Prod.mk.injEq] at h
              rw [← h.2.1]; exact hp

theorem generateAssemblyAll_total (cs : List ASTNode)
    (ih : ∀ c ∈ cs, ∀ code n, ∃ r, generateAssembly c code n = some r) :
    ∀ code n, ∃ r, generateAssemblyAll cs code n = some r := by
  induction cs with
  | nil => intro code n; exact ⟨_, rfl⟩
  | cons c cs ihc =>
    intro code n
    obtain ⟨⟨reg, code1, n1⟩, hc⟩ := ih c (List.mem_cons_self _ _) code n
    obtain ⟨r, hr⟩ := ihc (fun d hd => ih d (List.mem_cons_of_mem _ hd)) code1 n1
    exact ⟨r, by rw [generateAssemblyAll_cons, hc]; exact hr⟩

/-- On a tree that satisfies the child-count invariant `generateAssembly`
reads no missing child. -/
theorem generateAssembly_total (t : ASTNode) :
    childCountInvariant t → ∀ code n, ∃ r, generateAssembly t code n = some r := by
  induction t using ASTNode.induct with
  | h ty v cs ih =>
    intro hinv code n
    obtain ⟨hok, hinvc⟩ := childCountInvariant_mk ty v cs hinv
    have ihc : ∀ c ∈ cs, ∀ code n, ∃ r, generateAssembly c code n = some r :=
      fun c hc => ih c hc (hinvc c hc)
    simp only [childCountOk, ASTNode.nodeType, ASTNode.children] at hok
    rw [generateAssembly_eq]
    split
    · exact ⟨_, rfl⟩
    · split
      · rename_i hbin
        have hlen := hok.2.1 hbin
        rcases cs with _ | ⟨l, _ | ⟨r, _ | ⟨x, rest⟩⟩⟩
        · simp at hlen
        · simp at hlen
        · obtain ⟨⟨lr, c1, m1⟩, hl⟩ := ihc l (by simp) code n
          obtain ⟨⟨rr, c2, m2⟩, hr⟩ := ihc r (by simp) c1 m1
          simp [hl, hr]
        · simp at hlen
      · split
        · rcases cs with _ | ⟨c, rest⟩
          · exact ⟨_, rfl⟩
          · obtain ⟨⟨cr, c1, m1⟩, hc⟩ := ihc c (by simp) code 0
            simp [hc]
        · split
          · obtain ⟨⟨c1, m1⟩, hall⟩ := generateAssemblyAll_total cs ihc code n
            simp [hall]
          · split
            · rcases cs with _ | ⟨c, rest⟩
              · exact ⟨_, rfl⟩
              · obtain ⟨⟨cr, c1, m1⟩, hc⟩ := ihc c (by simp) code 0
                simp [hc]
            · exact ⟨_, rfl⟩

/-- The generator only appends to the listing. -/
theorem generateAssembly_extends (t : ASTNode) (base code : List String) (n : Nat) (reg : String)
    (code1 : List String) (n1 : Nat) (h : generateAssembly t code n = some (reg, code1, n1))
    (hb : base <+: code) : base <+: code1 :=
  generateAssembly_invariant (fun c => base <+: c)
    (fun _ _ hp => hp.trans (List.prefix_append _ _))
    (fun _ _ _ _ hp => hp.trans (List.prefix_append _ _))
    (fun _ _ hp => hp.trans (List.prefix_append _ _)) t code n reg code1 n1 h hb

/-- Every divide instruction the generator emits directly follows a `cdq`. -/
theorem generateAssembly_cdqBeforeEveryIdiv (t : ASTNode) (code : List String) (n : Nat)
    (reg : String) (code1 : List String) (n1 : Nat)
    (h : generateAssembly t code n = some (reg, code1, n1)) (hp : cdqBeforeEveryIdiv code) :
    cdqBeforeEveryIdiv code1 :=
  generateAssembly_invariant cdqBeforeEveryIdiv
    (fun c x hc => cdqBeforeEveryIdiv_append c _ hc (by
      intro l hl; simp only [List.mem_singleton] at hl; subst hl; exact not_isIdiv_mov x))
    (fun c op l r hc => cdqBeforeEveryIdiv_binaryAsm c op l r hc)
    (fun c x hc => cdqBeforeEveryIdiv_append c _ hc (by
      intro l hl
      simp only [List.mem_cons, List.mem_singleton, List.not_mem_nil, or_false] at hl
      rcases hl with rfl | rfl
      · simp [isIdiv, String.data_append]
      · decide))
    t code n reg code1 n1 h hp

/-- C10: division lowering. For a `BinaryExpr` whose two operands generate
code (first the left one, leaving `asm1`, then the right one, leaving
`asm2`), the operator `/` appends after that code the line `cdq` immediately
followed by `idiv <register of the right operand>`, while `+`, `-`, `*` append
exactly the one line `add|sub|imul <left register>, <right register>`; all
four return the left register. Consequently, for every tree, every `idiv`
line of the generated listing directly follows a `cdq` line; and on every tree
that satisfies the child-count invariant the generator does produce such a
listing. -/
theorem division_lowering (l r : ASTNode) (rest : List ASTNode) (asmCode : List String)
    (regCount : Nat) (leftReg rightReg : String) (asm1 asm2 : List String) (n1 n2 : Nat)
    (hl : generateAssembly l asmCode regCount = some (leftReg, asm1, n1))
    (hr : generateAssembly r asm1 n1 = some (rightReg, asm2, n2)) :
    (asmCode <+: asm1 ∧ asm1 <+: asm2) ∧
    generateAssembly (.mk "BinaryExpr" "/" (l :: r :: rest)) asmCode regCount =
      some (leftReg, asm2 ++ ["cdq", "idiv " ++ rightReg], n2) ∧
    generateAssembly (.mk "BinaryExpr" "+" (l :: r :: rest)) asmCode regCount =
      some (leftReg, asm2 ++ ["add " ++ leftReg ++ ", " ++ rightReg], n2) ∧
    generateAssembly (.mk "BinaryExpr" "-" (l :: r :: rest)) asmCode regCount =
      some (leftReg, asm2 ++ ["sub " ++ leftReg ++ ", " ++ rightReg], n2) ∧
    generateAssembly (.mk "BinaryExpr" "*" (l :: r :: rest)) asmCode regCount =
      some (leftReg, asm2 ++ ["imul " ++ leftReg ++ ", " ++ rightReg], n2) ∧
    (∀ (t : ASTNode) (code : List String) (n : Nat) (reg : String) (code1 : List String)
        (m : Nat), generateAssembly t code n = some (reg, code1, m) →
      cdqBeforeEveryIdiv code → cdqBeforeEveryIdiv code1) ∧
    (∀ t : ASTNode, childCountInvariant t →
      ∃ reg code m, generateAssembly t [] 0 = some (reg, code, m) ∧ cdqBeforeEveryIdiv code) := by
  refine ⟨⟨generateAssembly_extends l asmCode asmCode regCount leftReg asm1 n1 hl
      (List.prefix_refl _),
    generateAssembly_extends r asm1 asm1 n1 rightReg asm2 n2 hr (List.prefix_refl _)⟩,
    ?_, ?_, ?_, ?_, generateAssembly_cdqBeforeEveryIdiv, ?_⟩
  · rw [generateAssembly_eq]; simp [hl, hr, binaryAsm]
  · rw [generateAssembly_eq]; simp [hl, hr, binaryAsm]
  · rw [generateAssembly_eq]; simp [hl, hr, binaryAsm]
  · rw [generateAssembly_eq]; simp [hl, hr, binaryAsm]
  · intro t hinv
    obtain ⟨⟨reg, code, m⟩, h⟩ := generateAssembly_total t hinv [] 0
    refine ⟨reg, code, m, h, generateAssembly_cdqBeforeEveryIdiv t [] 0 reg code m h ?_⟩
    intro i line hi
    simp at hi

/-- C10 at `a / 2` from an empty listing and register counter 0: the operands
are loaded into `eax` and `ebx`, then `cdq` and `idiv ebx` follow. -/
theorem division_lowering_witness :
    generateAssembly (.mk "BinaryExpr" "/" [.mk "Identifier" "a" [], .mk "NumberLiteral" "2" []])
      [] 0 = some ("eax", ["mov eax, a", "mov ebx, 2", "cdq", "idiv ebx"], 2) :=
  (division_lowering (.mk "Identifier" "a" []) (.mk "NumberLiteral" "2" []) [] [] 0
    "eax" "ebx" ["mov eax, a"] ["mov eax, a", "mov ebx, 2"] 1 2 (by decide!) (by decide!)).2.1

/-! ## Rule priority in the tokenizer -/

theorem firstMatch_nil : firstMatch tokenSpecs [] = none := by decide

theorem maximal_munch_v (rest : List Char) (ty : TokenType) (v : List Char)
    (h : firstMatch tokenSpecs ('v' :: rest) = some (ty, v))
    (hk : ty ≠ .VAL ∧ ty ≠ .PRT ∧ ty ≠ .AGAR ∧ ty ≠ .BHEJO) :
    ∀ rule ∈ tokenSpecs, ∀ w, matchPattern rule.1 ('v' :: rest) = some w →
      w.length ≤ v.length := by
  simp [firstMatch, tokenSpecs, matchPattern, isIdentStart, Char.isAlpha, Char.isUpper, Char.isLower] at h ⊢
  by_cases hp : ['a', 'l'] <+: rest
  · simp only [hp, if_true] at h
    simp only [Option.some.injEq, Prod.mk.injEq] at h
    obtain ⟨rfl, rfl⟩ := h
    simp at hk
  · simp only [hp, if_false] at h
    simp only [Option.some.injEq, Prod.mk.injEq] at h
    obtain ⟨rfl, rfl⟩ := h
    simp [hp]

theorem maximal_munch_p (rest : List Char) (ty : TokenType) (v : List Char)
    (h : firstMatch tokenSpecs ('p' :: rest) = some (ty, v))
    (hk : ty ≠ .VAL ∧ ty ≠ .PRT ∧ ty ≠ .AGAR ∧ ty ≠ .BHEJO) :
    ∀ rule ∈ tokenSpecs, ∀ w, matchPattern rule.1 ('p' :: rest) = some w →
      w.length ≤ v.length := by
  simp [firstMatch, tokenSpecs, matchPattern, isIdentStart, Char.isAlpha, Char.isUpper, Char.isLower] at h ⊢
  by_cases hp : ['r', 't'] <+: rest
  · simp only [hp, if_true] at h
    simp only [Option.some.injEq, Prod.mk.injEq] at h
    obtain ⟨rfl, rfl⟩ := h
    simp at hk
  · simp only [hp, if_false] at h
    simp only [Option.some.injEq, Prod.mk.injEq] at h
    obtain ⟨rfl, rfl⟩ := h
    simp [hp]

theorem maximal_munch_a (rest : List Char) (ty : TokenType) (v : List Char)
    (h : firstMatch tokenSpecs ('a' :: rest) = some (ty, v))
    (hk : ty ≠ .VAL ∧ ty ≠ .PRT ∧ ty ≠ .AGAR ∧ ty ≠ .BHEJO) :
    ∀ rule ∈ tokenSpecs, ∀ w, matchPattern rule.1 ('a' :: rest) = some w →
      w.length ≤ v.length := by
  simp [firstMatch, tokenSpecs, matchPattern, isIdentStart, Char.isAlpha, Char.isUpper, Char.isLower] at h ⊢
  by_cases hp : ['g', 'a', 'r'] <+: rest
  · simp only [hp, if_true] at h
    simp only [Option.some.injEq, Prod.mk.injEq] at h
    obtain ⟨rfl, rfl⟩ := h
    simp at hk
  · simp only [hp, if_false] at h
    simp only [Option.some.injEq, Prod.mk.injEq] at h
    obtain ⟨rfl, rfl⟩ := h
    simp [hp]

theorem maximal_munch_n (rest : List Char) (ty : TokenType) (v : List Char)
    (h : firstMatch tokenSpecs ('n' :: rest) = some (ty, v))
    (hk : ty ≠ .VAL ∧ ty ≠ .PRT ∧ ty ≠ .AGAR ∧ ty ≠ .BHEJO) :
    ∀ rule ∈ tokenSpecs, ∀ w, matchPattern rule.1 ('n' :: rest) = some w →
      w.length ≤ v.length := by
  simp [firstMatch, tokenSpecs, matchPattern, isIdentStart, Char.isAlpha, Char.isUpper, Char.isLower] at h ⊢
  by_cases hp : ['h', 'i', '-', 't', 'o'] <+: rest
  · simp only [hp, if_true] at h
    simp only [Option.some.injEq, Prod.mk.injEq] at h
    obtain ⟨rfl, rfl⟩ := h
    obtain ⟨tail, rfl⟩ := hp
    simp [List.takeWhile, isIdentChar, Char.isAlphanum, Char.isAlpha, Char.isUpper,
      Char.isLower, Char.isDigit]
  · simp only [hp, if_false] at h
    simp only [Option.some.injEq, Prod.mk.injEq] at h
    obtain ⟨rfl, rfl⟩ := h
    simp [hp]

theorem maximal_munch_b (rest : List Char) (ty : TokenType) (v : List Char)
    (h : firstMatch tokenSpecs ('b' :: rest) = some (ty, v))
    (hk : ty ≠ .VAL ∧ ty ≠ .PRT ∧ ty ≠ .AGAR ∧ ty ≠ .BHEJO) :
    ∀ rule ∈ tokenSpecs, ∀ w, matchPattern rule.1 ('b' :: rest) = some w →
      w.length ≤ v.length := by
  simp [firstMatch, tokenSpecs, matchPattern, isIdentStart, Char.isAlpha, Char.isUpper, Char.isLower] at h ⊢
  by_cases hp : ['h', 'e', 'j', 'o'] <+: rest
  · simp only [hp, if_true] at h
    simp only [Option.some.injEq, Prod.mk.injEq] at h
    obtain ⟨rfl, rfl⟩ := h
    simp at hk
  · simp only [hp, if_false] at h
    simp only [Option.some.injEq, Prod.mk.injEq] at h
    obtain ⟨rfl, rfl⟩ := h
    simp [hp]

theorem maximal_munch_assign (rest : List Char) (ty : TokenType) (v : List Char)
    (h : firstMatch tokenSpecs ('=' :: rest) = some (ty, v))
    (hk : ty ≠ .VAL ∧ ty ≠ .PRT ∧ ty ≠ .AGAR ∧ ty ≠ .BHEJO) :
    ∀ rule ∈ tokenSpecs, ∀ w, matchPattern rule.1 ('=' :: rest) = some w →
      w.length ≤ v.length := by
  simp [firstMatch, tokenSpecs, matchPattern, isIdentStart, Char.isAlpha, Char.isUpper, Char.isLower] at h ⊢
  by_cases hp : ['='] <+: rest
  · simp only [hp, if_true] at h
    simp only [Option.some.injEq, Prod.mk.injEq] at h
    obtain ⟨rfl, rfl⟩ := h
    simp
  · simp only [hp, if_false] at h
    simp only [Option.some.injEq, Prod.mk.injEq] at h
    obtain ⟨rfl, rfl⟩ := h
    simp [hp]

theorem maximal_munch_bang (rest : List Char) (ty : TokenType) (v : List Char)
    (h : firstMatch tokenSpecs ('!' :: rest) = some (ty, v))
    (hk : ty ≠ .VAL ∧ ty ≠ .PRT ∧ ty ≠ .AGAR ∧ ty ≠ .BHEJO) :
    ∀ rule ∈ tokenSpecs, ∀ w, matchPattern rule.1 ('!' :: rest) = some w →
      w.length ≤ v.length := by
  simp [firstMatch, tokenSpecs, matchPattern, isIdentStart, Char.isAlpha, Char.isUpper, Char.isLower] at h ⊢
  by_cases hp : ['='] <+: rest
  · simp only [hp, if_true] at h
    simp only [Option.some.injEq, Prod.mk.injEq] at h
    obtain ⟨rfl, rfl⟩ := h
    simp
  · simp [hp] at h

theorem maximal_munch_less (rest : List Char) (ty : TokenType) (v : List Char)
    (h : firstMatch tokenSpecs ('<' :: rest) = some (ty, v))
    (hk : ty ≠ .VAL ∧ ty ≠ .PRT ∧ ty ≠ .AGAR ∧ ty ≠ .BHEJO) :
    ∀ rule ∈ tokenSpecs, ∀ w, matchPattern rule.1 ('<' :: rest) = some w →
      w.length ≤ v.length := by
  simp [firstMatch, tokenSpecs, matchPattern, isIdentStart, Char.isAlpha, Char.isUpper, Char.isLower] at h ⊢
  by_cases hp : ['='] <+: rest
  · simp only [hp, if_true] at h
    simp only [Option.some.injEq, Prod.mk.injEq] at h
    obtain ⟨rfl, rfl⟩ := h
    simp
  · simp only [hp, if_false] at h
    simp only [Option.some.injEq, Prod.mk.injEq] at h
    obtain ⟨rfl, rfl⟩ := h
    simp [hp]

theorem maximal_munch_greater (rest : List Char) (ty : TokenType) (v : List Char)
    (h : firstMatch tokenSpecs ('>' :: rest) = some (ty, v))
    (hk : ty ≠ .VAL ∧ ty ≠ .PRT ∧ ty ≠ .AGAR ∧ ty ≠ .BHEJO) :
    ∀ rule ∈ tokenSpecs, ∀ w, matchPattern rule.1 ('>' :: rest) = some w →
      w.length ≤ v.length := by
  simp [firstMatch, tokenSpecs, matchPattern, isIdentStart, Char.isAlpha, Char.isUpper, Char.isLower] at h ⊢
  by_cases hp : ['='] <+: rest
  · simp only [hp, if_true] at h
    simp only [Option.some.injEq, Prod.mk.injEq] at h
    obtain ⟨rfl, rfl⟩ := h
    simp
  · simp only [hp, if_false] at h
    simp only [Option.some.injEq, Prod.mk.injEq] at h
    obtain ⟨rfl, rfl⟩ := h
    simp [hp]

theorem maximal_munch_plus (rest : List Char) (ty : TokenType) (v : List Char)
    (h : firstMatch tokenSpecs ('+' :: rest) = some (ty, v))
    (hk : ty ≠ .VAL ∧ ty ≠ .PRT ∧ ty ≠ .AGAR ∧ ty ≠ .BHEJO) :
    ∀ rule ∈ tokenSpecs, ∀ w, matchPattern rule.1 ('+' :: rest) = some w →
      w.length ≤ v.length := by
  simp [firstMatch, tokenSpecs, matchPattern, isIdentStart, Char.isAlpha, Char.isUpper, Char.isLower] at h ⊢
  obtain ⟨rfl, rfl⟩ := h
  simp

theorem maximal_munch_star (rest : List Char) (ty : TokenType) (v : List Char)
    (h : firstMatch tokenSpecs ('*' :: rest) = some (ty, v))
    (hk : ty ≠ .VAL ∧ ty ≠ .PRT ∧ ty ≠ .AGAR ∧ ty ≠ .BHEJO) :
    ∀ rule ∈ tokenSpecs, ∀ w, matchPattern rule.1 ('*' :: rest) = some w →
      w.length ≤ v.length := by
  simp [firstMatch, tokenSpecs, matchPattern, isIdentStart, Char.isAlpha, Char.isUpper, Char.isLower] at h ⊢
  obtain ⟨rfl, rfl⟩ := h
  simp

theorem maximal_munch_slash (rest : List Char) (ty : TokenType) (v : List Char)
    (h : firstMatch tokenSpecs ('/' :: rest) = some (ty, v))
    (hk : ty ≠ .VAL ∧ ty ≠ .PRT ∧ ty ≠ .AGAR ∧ ty ≠ .BHEJO) :
    ∀ rule ∈ tokenSpecs, ∀ w, matchPattern rule.1 ('/' :: rest) = some w →
      w.length ≤ v.length := by
  simp [firstMatch, tokenSpecs, matchPattern, isIdentStart, Char.isAlpha, Char.isUpper, Char.isLower] at h ⊢
  obtain ⟨rfl, rfl⟩ := h
  simp

theorem maximal_munch_minus (rest : List Char) (ty : TokenType) (v : List Char)
    (h : firstMatch tokenSpecs ('-' :: rest) = some (ty, v))
    (hk : ty ≠ .VAL ∧ ty ≠ .PRT ∧ ty ≠ .AGAR ∧ ty ≠ .BHEJO) :
    ∀ rule ∈ tokenSpecs, ∀ w, matchPattern rule.1 ('-' :: rest) = some w →
      w.length ≤ v.length := by
  simp [firstMatch, tokenSpecs, matchPattern, isIdentStart, Char.isAlpha, Char.isUpper, Char.isLower] at h ⊢
  obtain ⟨rfl, rfl⟩ := h
  simp

theorem maximal_munch_lparen (rest : List Char) (ty : TokenType) (v : List Char)
    (h : firstMatch tokenSpecs ('(' :: rest) = some (ty, v))
    (hk : ty ≠ .VAL ∧ ty ≠ .PRT ∧ ty ≠ .AGAR ∧ ty ≠ .BHEJO) :
    ∀ rule ∈ tokenSpecs, ∀ w, matchPattern rule.1 ('(' :: rest) = some w →
      w.length ≤ v.length := by
  simp [firstMatch, tokenSpecs, matchPattern, isIdentStart, Char.isAlpha, Char.isUpper, Char.isLower] at h ⊢
  obtain ⟨rfl, rfl⟩ := h
  simp

theorem maximal_munch_rparen (rest : List Char) (ty : TokenType) (v : List Char)
    (h : firstMatch tokenSpecs (')' :: rest) = some (ty, v))
    (hk : ty ≠ .VAL ∧ ty ≠ .PRT ∧ ty ≠ .AGAR ∧ ty ≠ .BHEJO) :
    ∀ rule ∈ tokenSpecs, ∀ w, matchPattern rule.1 (')' :: rest) = some w →
      w.length ≤ v.length := by
  simp [firstMatch, tokenSpecs, matchPattern, isIdentStart, Char.isAlpha, Char.isUpper, Char.isLower] at h ⊢
  obtain ⟨rfl, rfl⟩ := h
  simp

theorem maximal_munch_lbrace (rest : List Char) (ty : TokenType) (v : List Char)
    (h : firstMatch tokenSpecs ('\x7b' :: rest) = some (ty, v))
    (hk : ty ≠ .VAL ∧ ty ≠ .PRT ∧ ty ≠ .AGAR ∧ ty ≠ .BHEJO) :
    ∀ rule ∈ tokenSpecs, ∀ w, matchPattern rule.1 ('\x7b' :: rest) = some w →
      w.length ≤ v.length := by
  simp [firstMatch, tokenSpecs, matchPattern, isIdentStart, Char.isAlpha, Char.isUpper, Char.isLower] at h ⊢
  obtain ⟨rfl, rfl⟩ := h
  simp

theorem maximal_munch_rbrace (rest : List Char) (ty : TokenType) (v : List Char)
    (h : firstMatch tokenSpecs ('\x7d' :: rest) = some (ty, v))
    (hk : ty ≠ .VAL ∧ ty ≠ .PRT ∧ ty ≠ .AGAR ∧ ty ≠ .BHEJO) :
    ∀ rule ∈ tokenSpecs, ∀ w, matchPattern rule.1 ('\x7d' :: rest) = some w →
      w.length ≤ v.length := by
  simp [firstMatch, tokenSpecs, matchPattern, isIdentStart, Char.isAlpha, Char.isUpper, Char.isLower] at h ⊢
  obtain ⟨rfl, rfl⟩ := h
  simp

theorem maximal_munch_semi (rest : List Char) (ty : TokenType) (v : List Char)
    (h : firstMatch tokenSpecs (';' :: rest) = some (ty, v))
    (hk : ty ≠ .VAL ∧ ty ≠ .PRT ∧ ty ≠ .AGAR ∧ ty ≠ .BHEJO) :
    ∀ rule ∈ tokenSpecs, ∀ w, matchPattern rule.1 (';' :: rest) = some w →
      w.length ≤ v.length := by
  simp [firstMatch, tokenSpecs, matchPattern, isIdentStart, Char.isAlpha, Char.isUpper, Char.isLower] at h ⊢
  obtain ⟨rfl, rfl⟩ := h
  simp

theorem maximal_munch_quote (rest : List Char) (ty : TokenType) (v : List Char)
    (h : firstMatch tokenSpecs ('"' :: rest) = some (ty, v))
    (_hk : ty ≠ .VAL ∧ ty ≠ .PRT ∧ ty ≠ .AGAR ∧ ty ≠ .BHEJO) :
    ∀ rule ∈ tokenSpecs, ∀ w, matchPattern rule.1 ('"' :: rest) = some w →
      w.length ≤ v.length := by
  simp [firstMatch, tokenSpecs, matchPattern, isIdentStart, Char.isAlpha, Char.isUpper, Char.isLower] at h ⊢
  intro w hw
  rw [hw] at h
  simp only [Option.some.injEq, Prod.mk.injEq] at h
  rw [h.2]

theorem isIdentStart_of_isDigit (c : Char) (h : c.isDigit = true) : isIdentStart c = false := by
  simp only [Char.isDigit, Bool.and_eq_true, decide_eq_true_eq] at h
  have h57 : c.val ≤ 57 := h.2
  simp only [isIdentStart, Char.isAlpha, Char.isUpper, Char.isLower, Bool.or_eq_false_iff,
    Bool.and_eq_false_iff, decide_eq_false_iff_not, beq_eq_false_iff_ne]
  refine ⟨⟨?_, ?_⟩, ?_⟩
  · left; intro h3
    have h4 : (65 : UInt32) ≤ 57 := UInt32.le_trans h3 h57
    revert h4; decide
  · left; intro h3
    have h4 : (97 : UInt32) ≤ 57 := UInt32.le_trans h3 h57
    revert h4; decide
  · rintro rfl; revert h57; decide

set_option maxHeartbeats 1000000 in
theorem maximal_munch_other (c : Char) (rest : List Char) (ty : TokenType) (v : List Char)
    (h0 : c ≠ 'v') (h1 : c ≠ 'p') (h2 : c ≠ 'a') (h3 : c ≠ 'n') (h4 : c ≠ 'b') (h5 : c ≠ '=') (h6 : c ≠ '!') (h7 : c ≠ '<') (h8 : c ≠ '>') (h9 : c ≠ '+') (h10 : c ≠ '*') (h11 : c ≠ '/') (h12 : c ≠ '-') (h13 : c ≠ '(') (h14 : c ≠ ')') (h15 : c ≠ '\x7b') (h16 : c ≠ '\x7d') (h17 : c ≠ ';') (h18 : c ≠ '"')
    (h : firstMatch tokenSpecs (c :: rest) = some (ty, v)) :
    ∀ rule ∈ tokenSpecs, ∀ w, matchPattern rule.1 (c :: rest) = some w →
      w.length ≤ v.length := by
  by_cases hd : c.isDigit = true
  · have hi := isIdentStart_of_isDigit c hd
    simp [firstMatch, tokenSpecs, matchPattern, List.takeWhile, hd, hi, h0, h0.symm, h1, h1.symm, h2, h2.symm, h3, h3.symm, h4, h4.symm, h5, h5.symm, h6, h6.symm, h7, h7.symm, h8, h8.symm, h9, h9.symm, h10, h10.symm, h11, h11.symm, h12, h12.symm, h13, h13.symm, h14, h14.symm, h15, h15.symm, h16, h16.symm, h17, h17.symm, h18, h18.symm] at h ⊢
    obtain ⟨rfl, rfl⟩ := h
    simp
  · simp [firstMatch, tokenSpecs, matchPattern, List.takeWhile, hd, h0, h0.symm, h1, h1.symm, h2, h2.symm, h3, h3.symm, h4, h4.symm, h5, h5.symm, h6, h6.symm, h7, h7.symm, h8, h8.symm, h9, h9.symm, h10, h10.symm, h11, h11.symm, h12, h12.symm, h13, h13.symm, h14, h14.symm, h15, h15.symm, h16, h16.symm, h17, h17.symm, h18, h18.symm] at h ⊢
    by_cases hi : isIdentStart c = true
    · simp only [hi, if_true, Option.some.injEq, Prod.mk.injEq] at h
      obtain ⟨rfl, rfl⟩ := h
      simp
    · simp [hi] at h

/-- A token that is not one of the keywords `val`, `prt`, `agar`, `bhejo` is a
longest match: no rule of the table matches a longer prefix of the input it
was scanned from. -/
theorem firstMatch_maximal (remaining : List Char) (ty : TokenType) (v : List Char)
    (h : firstMatch tokenSpecs remaining = some (ty, v))
    (hk : ty ≠ .VAL ∧ ty ≠ .PRT ∧ ty ≠ .AGAR ∧ ty ≠ .BHEJO) :
    ∀ rule ∈ tokenSpecs, ∀ w, matchPattern rule.1 remaining = some w →
      w.length ≤ v.length := by
  rcases remaining with _ | ⟨c, rest⟩
  · rw [firstMatch_nil] at h; cases h
  · 
    by_cases h0 : c = 'v'
    · subst h0; exact maximal_munch_v rest ty v h hk
    by_cases h1 : c = 'p'
    · subst h1; exact maximal_munch_p rest ty v h hk
    by_cases h2 : c = 'a'
    · subst h2; exact maximal_munch_a rest ty v h hk
    by_cases h3 : c = 'n'
    · subst h3; exact maximal_munch_n rest ty v h hk
    by_cases h4 : c = 'b'
    · subst h4; exact maximal_munch_b rest ty v h hk
    by_cases h5 : c = '='
    · subst h5; exact maximal_munch_assign rest ty v h hk
    by_cases h6 : c = '!'
    · subst h6; exact maximal_munch_bang rest ty v h hk
    by_cases h7 : c = '<'
    · subst h7; exact maximal_munch_less rest ty v h hk
    by_cases h8 : c = '>'
    · subst h8; exact maximal_munch_greater rest ty v h hk
    by_cases h9 : c = '+'
    · subst h9; exact maximal_munch_plus rest ty v h hk
    by_cases h10 : c = '*'
    · subst h10; exact maximal_munch_star rest ty v h hk
    by_cases h11 : c = '/'
    · subst h11; exact maximal_munch_slash rest ty v h hk
    by_cases h12 : c = '-'
    · subst h12; exact maximal_munch_minus rest ty v h hk
    by_cases h13 : c = '('
    · subst h13; exact maximal_munch_lparen rest ty v h hk
    by_cases h14 : c = ')'
    · subst h14; exact maximal_munch_rparen rest ty v h hk
    by_cases h15 : c = '\x7b'
    · subst h15; exact maximal_munch_lbrace rest ty v h hk
    by_cases h16 : c = '\x7d'
    · subst h16; exact maximal_munch_rbrace rest ty v h hk
    by_cases h17 : c = ';'
    · subst h17; exact maximal_munch_semi rest ty v h hk
    by_cases h18 : c = '"'
    · subst h18; exact maximal_munch_quote rest ty v h hk
    exact maximal_munch_other c rest ty v h0 h1 h2 h3 h4 h5 h6 h7 h8 h9 h10 h11 h12 h13 h14 h15 h16 h17 h18 h

/-- The rule scan returns the match of the first rule, in table order, that
matches. -/
theorem firstMatch_first (specs : List (Pattern × TokenType)) (remaining : List Char)
    (ty : TokenType) (v : List Char) (h : firstMatch specs remaining = some (ty, v)) :
    ∃ before p after, specs = before ++ (p, ty) :: after ∧
      matchPattern p remaining = some v ∧ ∀ q ∈ before, matchPattern q.1 remaining = none := by
  induction specs with
  | nil => simp [firstMatch] at h
  | cons s specs ih =>
    obtain ⟨p, ty1⟩ := s
    simp only [firstMatch] at h
    split at h
    · rename_i w hw
      simp only [Option.some.injEq, Prod.mk.injEq] at h
      obtain ⟨rfl, rfl⟩ := h
      exact ⟨[], p, specs, rfl, hw, by simp⟩
    · rename_i hnone
      obtain ⟨before, q, after, hs, hq, hb⟩ := ih h
      refine ⟨(p, ty1) :: before, q, after, by rw [hs]; rfl, hq, ?_⟩
      intro r hr
      rcases List.mem_cons.mp hr with rfl | hr
      · exact hnone
      · exact hb r hr

/-! ## The tokenizer loop -/

theorem matchPattern_ne_nil (p : Pattern) (ty : TokenType) (remaining v : List Char)
    (hp : (p, ty) ∈ tokenSpecs) (h : matchPattern p remaining = some v) : v ≠ [] := by
  cases p with
  | lit s =>
    simp only [matchPattern] at h
    split at h
    · simp only [Option.some.injEq] at h
      subst h
      simp only [tokenSpecs, List.mem_cons, Prod.mk.injEq, Pattern.lit.injEq, List.mem_singleton,
        List.not_mem_nil, or_false, false_and, false_or, reduceCtorEq] at hp
      rcases hp with hp | hp | hp | hp | hp | hp | hp | hp | hp | hp | hp | hp | hp | hp | hp |
        hp | hp <;> (rw [hp.1]; decide)
    · cases h
  | anyOf cs =>
    rcases remaining with _ | ⟨c, rest⟩
    · simp [matchPattern] at h
    · simp only [matchPattern] at h
      split at h
      · simp only [Option.some.injEq] at h; subst h; simp
      · cases h
  | stringLit =>
    rcases remaining with _ | ⟨c, rest⟩
    · simp [matchPattern] at h
    · simp only [matchPattern] at h
      split at h
      · split at h
        · simp only [Option.some.injEq] at h; subst h; simp
        · cases h
      · cases h
  | digits =>
    simp only [matchPattern] at h
    split at h
    · cases h
    · simp only [Option.some.injEq] at h; subst h; simp
  | ident =>
    rcases remaining with _ | ⟨c, rest⟩
    · simp [matchPattern] at h
    · simp only [matchPattern] at h
      split at h
      · simp only [Option.some.injEq] at h; subst h; simp
      · cases h

/-- Every token text the rule scan returns is non-empty. -/
theorem firstMatch_ne_nil (remaining : List Char) (ty : TokenType) (v : List Char)
    (h : firstMatch tokenSpecs remaining = some (ty, v)) : v ≠ [] := by
  obtain ⟨before, p, after, hs, hp, _⟩ := firstMatch_first tokenSpecs remaining ty v h
  exact matchPattern_ne_nil p ty remaining v (by rw [hs]; simp) hp

theorem skipSpaces_drop (rest : List Char) (pos line lineStart : Nat) :
    ∃ k, (skipSpaces rest pos line lineStart).1 = rest.drop k ∧
      (skipSpaces rest pos line lineStart).2.1 = pos + k := by
  induction rest generalizing pos line lineStart with
  | nil => exact ⟨0, rfl, rfl⟩
  | cons c cs ih =>
    simp only [skipSpaces]
    split
    · split
      · obtain ⟨k, h1, h2⟩ := ih (pos + 1) (line + 1) (pos + 1)
        exact ⟨k + 1, by rw [h1]; rfl, by rw [h2]; omega⟩
      · obtain ⟨k, h1, h2⟩ := ih (pos + 1) line lineStart
        exact ⟨k + 1, by rw [h1]; rfl, by rw [h2]; omega⟩
    · exact ⟨0, rfl, rfl⟩

/-- The tokenizer loop ends within one iteration per remaining character. -/
theorem tokenizeLoop_total (fuel : Nat) (st : LexState) (h : st.rest.length < fuel) :
    ∃ st1, tokenizeLoop fuel st = some st1 := by
  induction fuel generalizing st with
  | zero => omega
  | succ fuel ih =>
    obtain ⟨k, hk1, -⟩ := skipSpaces_drop st.rest st.pos st.line st.lineStart
    rw [tokenizeLoop]
    split
    · exact ⟨_, rfl⟩
    · rename_i c0 cs0 hrest
      split
      · exact ⟨_, rfl⟩
      · rename_i c cs pos line lineStart hskip
        rw [hrest] at hskip hk1 h
        rw [hskip] at hk1
        simp only at hk1
        have hlen : (c :: cs).length ≤ (c0 :: cs0).length := by
          rw [hk1, List.length_drop]; omega
        split
        · rename_i ty v hm
          have hv : v ≠ [] := firstMatch_ne_nil _ _ _ hm
          have hvl : 0 < v.length := List.length_pos.mpr hv
          apply ih
          simp only [List.length_drop]
          simp only [List.length_cons] at hlen h ⊢
          omega
        · apply ih
          simp only [List.length_cons] at hlen h ⊢
          omega

/-- The tokenizer returns on every source text. -/
theorem tokenize_total (source : String) : ∃ r, tokenize source = some r := by
  obtain ⟨st, h⟩ := tokenizeLoop_total (source.length + 1) ⟨source.data, 0, 1, 0, [], []⟩
    (by show source.data.length < source.data.length + 1; omega)
  exact ⟨_, by rw [tokenize, h]⟩

/-- Every token the loop adds is the result of the rule scan at some offset of
the source. -/
theorem tokenizeLoop_emitted (src : List Char) (fuel : Nat) (st st1 : LexState)
    (h : tokenizeLoop fuel st = some st1) (hrest : st.rest = src.drop st.pos)
    (hq : ∀ t ∈ st.tokens, ∃ p, firstMatch tokenSpecs (src.drop p) = some (t.type, t.value.data)) :
    ∀ t ∈ st1.tokens, ∃ p, firstMatch tokenSpecs (src.drop p) = some (t.type, t.value.data) := by
  induction fuel generalizing st with
  | zero => simp [tokenizeLoop] at h
  | succ fuel ih =>
    obtain ⟨k, hk1, hk2⟩ := skipSpaces_drop st.rest st.pos st.line st.lineStart
    rw [tokenizeLoop] at h
    split at h
    · simp only [Option.some.injEq] at h; subst h; exact hq
    · split at h
      · simp only [Option.some.injEq] at h; subst h; exact hq
      · rename_i c cs pos line lineStart hskip
        rw [hskip] at hk1 hk2
        simp only at hk1 hk2
        have hdrop : c :: cs = src.drop pos := by
          rw [hk1, hrest, List.drop_drop, hk2]
        split at h
        · rename_i ty v hm
          refine ih _ h ?_ ?_
          · simp only
            rw [hdrop, List.drop_drop]
          · intro t ht
            simp only [List.mem_append, List.mem_singleton] at ht
            rcases ht with ht | rfl
            · exact hq t ht
            · exact ⟨pos, by rw [← hdrop]; exact hm⟩
        · refine ih _ h ?_ hq
          simp only
          have : cs = (c :: cs).drop 1 := rfl
          rw [this, hdrop, List.drop_drop]

/-- C9, refuted as stated: on the source `value` the tokenizer emits the
keyword token `val` (then the identifier `ue`), although the identifier rule of
the table matches the strictly longer prefix `value` at the same position. -/
theorem maximal_munch_refuted :
    tokenize "value" =
      some ([⟨.VAL, "val", 1, 0⟩, ⟨.ID, "ue", 1, 3⟩, ⟨.END, "", 1, 0⟩], []) ∧
    firstMatch tokenSpecs "value".data = some (.VAL, "val".data) ∧
    (Pattern.ident, TokenType.ID) ∈ tokenSpecs ∧
    matchPattern .ident "value".data = some "value".data ∧
    "val".data.length < "value".data.length := by
  refine ⟨?_, ?_, ?_, ?_, ?_⟩ <;> decide!

/-! ## The scan of the tokenizer -/

/-- Dropping the ghost list from `tokenizeLoopPlaced` gives `tokenizeLoop`, and
the recorded tokens are the tokens of the state. -/
theorem tokenizeLoopPlaced_erase (fuel : Nat) (st : LexState) (placed : List (Nat × Token))
    (hp : placed.map Prod.snd = st.tokens) :
    (tokenizeLoopPlaced fuel st placed).map Prod.fst = tokenizeLoop fuel st ∧
      ∀ st1 placed1, tokenizeLoopPlaced fuel st placed = some (st1, placed1) →
        placed1.map Prod.snd = st1.tokens := by
  induction fuel generalizing st placed with
  | zero => exact ⟨rfl, fun st1 placed1 h => by simp [tokenizeLoopPlaced] at h⟩
  | succ fuel ih =>
    rw [tokenizeLoopPlaced, tokenizeLoop]
    rcases hr : st.rest with _ | ⟨c0, cs0⟩
    · refine ⟨rfl, fun st1 placed1 h => ?_⟩
      simp only [Option.some.injEq, Prod.mk.injEq] at h
      obtain ⟨rfl, rfl⟩ := h
      exact hp
    · simp only
      rcases hs : skipSpaces (c0 :: cs0) st.pos st.line st.lineStart with
        ⟨_ | ⟨c, cs⟩, pos, line, lineStart⟩
      · refine ⟨rfl, fun st1 placed1 h => ?_⟩
        simp only [Option.some.injEq, Prod.mk.injEq] at h
        obtain ⟨rfl, rfl⟩ := h
        exact hp
      · simp only
        rcases hm : firstMatch tokenSpecs (c :: cs) with _ | ⟨ty, v⟩
        · exact ih _ _ hp
        · exact ih _ _ (by simp [hp])

theorem firstMatch_eq_none (specs : List (Pattern × TokenType)) (remaining : List Char) :
    firstMatch specs remaining = none ↔ ∀ rule ∈ specs, matchPattern rule.1 remaining = none := by
  induction specs with
  | nil => simp [firstMatch]
  | cons s specs ih =>
    obtain ⟨p, ty⟩ := s
    simp only [firstMatch, List.mem_cons, forall_eq_or_imp]
    cases hm : matchPattern p remaining with
    | none => simpa using ih
    | some v => simp

/-- No rule matches at a white-space character. -/
theorem firstMatch_isspace (c : Char) (cs : List Char) (h : isspace c = true) :
    firstMatch tokenSpecs (c :: cs) = none := by
  simp only [isspace, Bool.or_eq_true, beq_iff_eq] at h
  rcases h with ((((rfl | rfl) | rfl) | rfl) | rfl) | rfl <;>
    simp [firstMatch, tokenSpecs, matchPattern, isIdentStart, Char.isAlpha, Char.isUpper,
      Char.isLower, Char.isDigit, List.takeWhile]

theorem drop_succ_of_drop (src : List Char) (pos : Nat) (c : Char) (cs : List Char)
    (h : c :: cs = src.drop pos) : cs = src.drop (pos + 1) := by
  have : src.drop (pos + 1) = (src.drop pos).drop 1 := by
    rw [List.drop_drop, Nat.add_comm]
  rw [this, ← h]
  rfl

/-- The white-space loop moves on over positions where no rule matches. -/
theorem skipSpaces_scan (src : List Char) :
    ∀ (rest : List Char) (pos line lineStart : Nat), rest = src.drop pos →
      (skipSpaces rest pos line lineStart).1 =
          src.drop (skipSpaces rest pos line lineStart).2.1 ∧
        pos ≤ (skipSpaces rest pos line lineStart).2.1 ∧
        ∀ q, pos ≤ q → q < (skipSpaces rest pos line lineStart).2.1 →
          firstMatch tokenSpecs (src.drop q) = none := by
  intro rest
  induction rest with
  | nil =>
    intro pos line lineStart h
    exact ⟨h, Nat.le_refl _, fun q h1 h2 => by simp only [skipSpaces] at h2; omega⟩
  | cons c cs ih =>
    intro pos line lineStart h
    have hcs := drop_succ_of_drop src pos c cs h
    simp only [skipSpaces]
    split
    · rename_i hsp
      have step : ∀ l ls, (skipSpaces cs (pos + 1) l ls).1 =
            src.drop (skipSpaces cs (pos + 1) l ls).2.1 ∧
          pos ≤ (skipSpaces cs (pos + 1) l ls).2.1 ∧
          ∀ q, pos ≤ q → q < (skipSpaces cs (pos + 1) l ls).2.1 →
            firstMatch tokenSpecs (src.drop q) = none := by
        intro l ls
        obtain ⟨h1, h2, h3⟩ := ih (pos + 1) l ls hcs
        refine ⟨h1, by omega, fun q hq1 hq2 => ?_⟩
        by_cases hq : q = pos
        · subst hq
          rw [← h]
          exact firstMatch_isspace c cs hsp
        · exact h3 q (by omega) hq2
      split
      · exact step _ _
      · exact step _ _
    · exact ⟨h, Nat.le_refl _, fun q h1 h2 => by simp only at h2; omega⟩

theorem matchPattern_isPrefix (p : Pattern) (remaining v : List Char)
    (h : matchPattern p remaining = some v) : v <+: remaining := by
  cases p with
  | lit s =>
    simp only [matchPattern] at h
    split at h
    · rename_i hp
      simp only [Option.some.injEq] at h
      subst h
      exact List.isPrefixOf_iff_prefix.1 hp
    · cases h
  | anyOf cs =>
    rcases remaining with _ | ⟨c, rest⟩
    · simp [matchPattern] at h
    · simp only [matchPattern] at h
      split at h
      · simp only [Option.some.injEq] at h
        subst h
        exact (List.prefix_cons_inj c).2 (List.nil_prefix)
      · cases h
  | stringLit =>
    rcases remaining with _ | ⟨c, rest⟩
    · simp [matchPattern] at h
    · simp only [matchPattern] at h
      split at h
      · split at h
        · rename_i d ds hd
          simp only [Option.some.injEq] at h
          subst h
          have hq : d = '"' := by
            have := List.head_dropWhile_not isNotQuote rest
              (by rw [hd]; exact List.cons_ne_nil _ _)
            simp only [hd, List.head_cons] at this
            simpa [isNotQuote] using this
          refine (List.prefix_cons_inj c).2 ⟨ds, ?_⟩
          have := List.takeWhile_append_dropWhile isNotQuote rest
          rw [hd, hq] at this
          simpa using this
        · cases h
      · cases h
  | digits =>
    simp only [matchPattern] at h
    split at h
    · cases h
    · rename_i d ds hd
      simp only [Option.some.injEq] at h
      subst h
      rw [← hd]
      exact List.takeWhile_prefix _
  | ident =>
    rcases remaining with _ | ⟨c, rest⟩
    · simp [matchPattern] at h
    · simp only [matchPattern] at h
      split at h
      · simp only [Option.some.injEq] at h
        subst h
        exact (List.prefix_cons_inj c).2 (List.takeWhile_prefix _)
      · cases h

/-- The text the rule scan returns is a prefix of the input it was given. -/
theorem firstMatch_isPrefix (remaining : List Char) (ty : TokenType) (v : List Char)
    (h : firstMatch tokenSpecs remaining = some (ty, v)) : v <+: remaining := by
  obtain ⟨before, p, after, -, hp, -⟩ := firstMatch_first tokenSpecs remaining ty v h
  exact matchPattern_isPrefix p remaining v hp

theorem ScanInvariant.advance (src : List Char) (pos pos1 : Nat) (placed : List (Nat × Token))
    (h : ScanInvariant src pos placed) (hle : pos ≤ pos1)
    (hnone : ∀ q, pos ≤ q → q < pos1 → firstMatch tokenSpecs (src.drop q) = none) :
    ScanInvariant src pos1 placed := by
  obtain ⟨ha, hb, hc, hd⟩ := h
  refine ⟨ha, fun pt hpt => Nat.le_trans (hb pt hpt) hle, hc, fun q hq hcov => ?_⟩
  by_cases hlt : q < pos
  · exact hd q hlt hcov
  · exact hnone q (by omega) hq

theorem ScanInvariant.token (src : List Char) (pos : Nat) (placed : List (Nat × Token))
    (ty : TokenType) (v : List Char) (line column : Nat)
    (h : ScanInvariant src pos placed)
    (hm : firstMatch tokenSpecs (src.drop pos) = some (ty, v)) :
    ScanInvariant src (pos + v.length) (placed ++ [(pos, ⟨ty, String.mk v, line, column⟩)]) := by
  obtain ⟨ha, hb, hc, hd⟩ := h
  refine ⟨?_, ?_, ?_, ?_⟩
  · intro pt hpt
    rcases List.mem_append.1 hpt with h1 | h1
    · exact ha pt h1
    · simp only [List.mem_singleton] at h1
      subst h1
      exact hm
  · intro pt hpt
    rcases List.mem_append.1 hpt with h1 | h1
    · exact Nat.le_trans (hb pt h1) (Nat.le_add_right _ _)
    · simp only [List.mem_singleton] at h1
      subst h1
      exact Nat.le_refl _
  · rw [List.pairwise_append]
    refine ⟨hc, List.pairwise_singleton _ _, fun a ha1 b hb1 => ?_⟩
    simp only [List.mem_singleton] at hb1
    subst hb1
    exact hb a ha1
  · intro q hq hcov
    by_cases hlt : q < pos
    · exact hd q hlt (fun pt hpt => hcov pt (List.mem_append_left _ hpt))
    · exact absurd (show covers (pos, ⟨ty, String.mk v, line, column⟩) q from
        ⟨by show pos ≤ q; omega, hq⟩) (hcov _ (List.mem_append_right _ (by simp)))

/-- The scan of the tokenizer, with the offsets: when the loop ends, the scan
has passed the whole source and the invariant holds of the placed tokens. -/
theorem tokenizeLoopPlaced_scan (src : List Char) :
    ∀ (fuel : Nat) (st : LexState) (placed : List (Nat × Token)) (st1 : LexState)
      (placed1 : List (Nat × Token)),
      tokenizeLoopPlaced fuel st placed = some (st1, placed1) →
      st.rest = src.drop st.pos → ScanInvariant src st.pos placed →
      ScanInvariant src st1.pos placed1 ∧ src.length ≤ st1.pos := by
  intro fuel
  induction fuel with
  | zero => intro st placed st1 placed1 h; simp [tokenizeLoopPlaced] at h
  | succ fuel ih =>
    intro st placed st1 placed1 h hrest hinv
    rw [tokenizeLoopPlaced] at h
    rcases hr : st.rest with _ | ⟨c0, cs0⟩
    · simp only [hr, Option.some.injEq, Prod.mk.injEq] at h
      obtain ⟨rfl, rfl⟩ := h
      refine ⟨hinv, ?_⟩
      rw [hr] at hrest
      exact List.drop_eq_nil_iff.1 hrest.symm
    · simp only [hr] at h
      obtain ⟨hs1, hs2, hs3⟩ := skipSpaces_scan src st.rest st.pos st.line st.lineStart hrest
      rw [hr] at hs1 hs2 hs3
      rcases hs : skipSpaces (c0 :: cs0) st.pos st.line st.lineStart with
        ⟨_ | ⟨c, cs⟩, pos, line, lineStart⟩
      · rw [hs] at hs1 hs2 hs3 h
        simp only [Option.some.injEq, Prod.mk.injEq] at h hs1 hs2 hs3
        obtain ⟨rfl, rfl⟩ := h
        exact ⟨ScanInvariant.advance src _ _ _ hinv hs2 hs3,
          List.drop_eq_nil_iff.1 hs1.symm⟩
      · rw [hs] at hs1 hs2 hs3 h
        simp only at h hs1 hs2 hs3
        have hinv1 := ScanInvariant.advance src _ _ _ hinv hs2 hs3
        rcases hm : firstMatch tokenSpecs (c :: cs) with _ | ⟨ty, v⟩
        · rw [hm] at h
          simp only at h
          refine ih _ _ _ _ h (drop_succ_of_drop src pos c cs hs1) ?_
          refine ScanInvariant.advance src _ _ _ hinv1 (Nat.le_succ _) (fun q hq1 hq2 => ?_)
          have : q = pos := by
            simp only at hq1 hq2
            omega
          subst this
          rw [← hs1]
          exact hm
        · rw [hm] at h
          simp only at h
          refine ih _ _ _ _ h ?_ ?_
          · simp only
            rw [hs1, List.drop_drop]
          · exact ScanInvariant.token src pos placed ty v _ _ hinv1 (by rw [← hs1]; exact hm)

/-- C9, amended: the tokenizer is an ordered-priority scan. On every source it
returns, and its tokens before the `END` sentinel, taken with the offsets at
which the scan matched them, are such that: the text of each token is the
source text at its offset; it is the match of the first rule of `tokenSpecs`,
in table order, that matches there (no earlier rule matches at that offset);
when the token is not one of the keywords `val`, `prt`, `agar`, `bhejo` it is
also a longest match (no rule matches a strictly longer prefix there); the
tokens follow each other in the source without overlap; and at every offset
where some rule matches, a token starts, unless the offset lies inside a token
that started earlier. -/
theorem first_rule_wins (source : String) :
    ∃ placed errs lastLine,
      tokenizePlaced source = some placed ∧
      tokenize source = some (placed.map Prod.snd ++ [⟨.END, "", lastLine, 0⟩], errs) ∧
      (∀ pt ∈ placed,
        pt.2.value.data <+: source.data.drop pt.1 ∧
        (∃ before rule after, tokenSpecs = before ++ (rule, pt.2.type) :: after ∧
          matchPattern rule (source.data.drop pt.1) = some pt.2.value.data ∧
          ∀ q ∈ before, matchPattern q.1 (source.data.drop pt.1) = none) ∧
        ((pt.2.type ≠ .VAL ∧ pt.2.type ≠ .PRT ∧ pt.2.type ≠ .AGAR ∧ pt.2.type ≠ .BHEJO) →
          ∀ rule ∈ tokenSpecs, ∀ w, matchPattern rule.1 (source.data.drop pt.1) = some w →
            w.length ≤ pt.2.value.length)) ∧
      placed.Pairwise (fun a b => a.1 + a.2.value.length ≤ b.1) ∧
      (∀ q, (∃ rule ∈ tokenSpecs, ∃ w, matchPattern rule.1 (source.data.drop q) = some w) →
        (∃ t, (q, t) ∈ placed) ∨
        (∃ pt ∈ placed, pt.1 < q ∧ q < pt.1 + pt.2.value.length)) := by
  obtain ⟨st, hst⟩ := tokenizeLoop_total (source.length + 1) ⟨source.data, 0, 1, 0, [], []⟩
    (by show source.data.length < source.data.length + 1; omega)
  obtain ⟨her, hto⟩ := tokenizeLoopPlaced_erase (source.length + 1)
    ⟨source.data, 0, 1, 0, [], []⟩ [] rfl
  rw [hst] at her
  rcases hpl : tokenizeLoopPlaced (source.length + 1) ⟨source.data, 0, 1, 0, [], []⟩ [] with
    _ | ⟨st1, placed⟩
  · rw [hpl] at her
    cases her
  rw [hpl] at her
  simp only [Option.map_some', Option.some.injEq] at her
  subst her
  have htok := hto st1 placed hpl
  obtain ⟨⟨ha, -, hc, hd⟩, hlen⟩ := tokenizeLoopPlaced_scan source.data (source.length + 1)
    ⟨source.data, 0, 1, 0, [], []⟩ [] st1 placed hpl rfl
    ⟨by simp, by simp, List.Pairwise.nil, fun q hq => absurd hq (Nat.not_lt_zero q)⟩
  refine ⟨placed, st1.errors, st1.line, by simp [tokenizePlaced, hpl],
    by rw [tokenize, hst, htok], ?_, hc, ?_⟩
  · intro pt hpt
    have hm := ha pt hpt
    exact ⟨firstMatch_isPrefix _ _ _ hm, firstMatch_first tokenSpecs _ _ _ hm,
      fun hk => firstMatch_maximal _ _ _ hm hk⟩
  · rintro q ⟨rule, hrule, w, hw⟩
    have hsome : firstMatch tokenSpecs (source.data.drop q) ≠ none := by
      intro hnone
      have := (firstMatch_eq_none tokenSpecs _).1 hnone rule hrule
      rw [hw] at this
      cases this
    have hq : q < source.data.length := by
      by_contra hge
      rw [List.drop_eq_nil_iff.2 (by omega), firstMatch_nil] at hsome
      exact hsome rfl
    have hcov : ∃ pt ∈ placed, covers pt q := by
      by_contra hno
      push_neg at hno
      exact hsome (hd q (by omega) hno)
    obtain ⟨pt, hpt, h1, h2⟩ := hcov
    by_cases heq : pt.1 = q
    · exact Or.inl ⟨pt.2, by rw [← heq]; exact hpt⟩
    · exact Or.inr ⟨pt, hpt, by omega, h2⟩

/-! ## Faults of the pipeline -/

/-- C17, the failing input `val x;`: the source tokenizes, parses and passes
the semantic check without a diagnostic, its tree holds a `Declaration` with no
child at index 0, and `Interpreter::execute` reaches that node and reads
`children[0]`: the run faults. -/
theorem executed_declaration_without_child :
    parseSource "val x;" = some (.mk "Program" "" [.mk "Declaration" "x" []]) ∧
    (compile "val x;").map (fun r => (r.errors, r.symbolTable)) = some ([], .ran ["x"]) ∧
    (ASTNode.mk "Declaration" "x" []).children[0]? = none ∧
    execute (.mk "Declaration" "x" []) ⟨[], []⟩ = none ∧
    execute (.mk "Program" "" [.mk "Declaration" "x" []]) ⟨[], []⟩ = none := by
  refine ⟨?_, ?_, ?_, ?_, ?_⟩ <;> decide!

/-- C18, the failing input `val x = + 3;`: the token stream ends in `END`, the
expression starts with an operator, `parsePrimary` records its diagnostic and
returns null, the loop of `parseExpression` then parses `3` as right operand
and calls `addChild` on the null left operand: the parse faults instead of
returning a null statement. -/
theorem parser_adds_null_left_operand :
    tokenize "val x = + 3;" =
      some ([⟨.VAL, "val", 1, 0⟩, ⟨.ID, "x", 1, 4⟩, ⟨.ASSIGN, "=", 1, 6⟩, ⟨.OP, "+", 1, 8⟩,
        ⟨.NUMBER, "3", 1, 10⟩, ⟨.SEMI, ";", 1, 11⟩, ⟨.END, "", 1, 0⟩], []) ∧
    parsePrimary ⟨[⟨.OP, "+", 1, 8⟩, ⟨.NUMBER, "3", 1, 10⟩, ⟨.SEMI, ";", 1, 11⟩,
        ⟨.END, "", 1, 0⟩], []⟩ =
      (none, ⟨[⟨.OP, "+", 1, 8⟩, ⟨.NUMBER, "3", 1, 10⟩, ⟨.SEMI, ";", 1, 11⟩, ⟨.END, "", 1, 0⟩],
        ["Expected identifier or number in expression"]⟩) ∧
    parseExpression 8 0 ⟨[⟨.OP, "+", 1, 8⟩, ⟨.NUMBER, "3", 1, 10⟩, ⟨.SEMI, ";", 1, 11⟩,
        ⟨.END, "", 1, 0⟩], []⟩ = .crash ∧
    parseProgram [⟨.VAL, "val", 1, 0⟩, ⟨.ID, "x", 1, 4⟩, ⟨.ASSIGN, "=", 1, 6⟩, ⟨.OP, "+", 1, 8⟩,
        ⟨.NUMBER, "3", 1, 10⟩, ⟨.SEMI, ";", 1, 11⟩, ⟨.END, "", 1, 0⟩] [] = .crash := by
  refine ⟨?_, ?_, ?_, ?_⟩ <;> decide!

/-- C11, failing inputs: four source texts on which the pipeline reaches an
undefined operation. `val x;` indexes a missing child in the interpreter,
`prt(1 / 0);` divides by zero, `prt(99999999999);` converts a literal that does
not fit an `int`, and `val x = + 3;` dereferences a null node in the parser.
None of them stops with diagnostics and none completes. -/
theorem pipeline_reaches_undefined_operations :
    (compile "val x;").map (fun r => (r.errors, r.output)) = some ([], .fault) ∧
    (compile "prt(1 / 0);").map (fun r => (r.errors, r.output)) = some ([], .fault) ∧
    evalBinary "/" 1 0 = none ∧
    (compile "prt(99999999999);").map (fun r => (r.errors, r.output)) = some ([], .fault) ∧
    stoi "99999999999" = none ∧
    (compile "val x = + 3;").map (fun r => (r.errors, r.ast)) = some ([], .fault) := by
  refine ⟨?_, ?_, ?_, ?_, ?_, ?_⟩ <;> decide!

/-! ## Three-address code of conditionals -/

/-- C12, the failing input: for
`val a = 5; agar (a > 3) { prt(1); } nhi-to { prt(0); }` the listing holds
neither `print 1` nor `print 0`: the generator has no case for `Block`, so the
call on a then-block or else-block appends nothing, whatever the block
holds. -/
theorem ifElse_blocks_emit_nothing :
    (compile "val a = 5; agar (a > 3) \x7b prt(1); \x7d nhi-to \x7b prt(0); \x7d").map
        (fun r => r.intermediateCode) =
      some (.ran ["a = 5", "T1 = a > 3", "ifnot T1 goto L2", "goto L3", "L2:", "L3:"]) ∧
    (compile "val a = 5; agar (a > 3) \x7b prt(1); \x7d nhi-to \x7b prt(0); \x7d").map
        (fun r => r.intermediateCode) ≠
      some (.ran ["a = 5", "T1 = a > 3", "ifnot T1 goto L2", "print 1", "goto L3", "L2:",
        "print 0", "L3:"]) ∧
    generateIntermediateCode (.mk "Print" "" [.mk "NumberLiteral" "1" []]) [] 0 =
      some ("", ["print 1"], 0) ∧
    generateIntermediateCode (.mk "Block" "" [.mk "Print" "" [.mk "NumberLiteral" "1" []]]) [] 0 =
      some ("", [], 0) := by
  refine ⟨?_, ?_, ?_, ?_⟩ <;> decide!

/-! ## Unterminated string literals -/

/-- No rule matches at a quote that no later quote closes. -/
theorem firstMatch_unterminated_quote (cs : List Char) (h : '"' ∉ cs) :
    firstMatch tokenSpecs ('"' :: cs) = none := by
  have hd : cs.dropWhile isNotQuote = [] := by
    rw [List.dropWhile_eq_nil_iff]
    intro c hc
    have : c ≠ '"' := fun hq => h (hq ▸ hc)
    simp [isNotQuote, this]
  simp [firstMatch, tokenSpecs, matchPattern, isIdentStart, Char.isAlpha, Char.isUpper,
    Char.isLower, hd]

/-- The iteration of the tokenizer loop at a quote that no later quote closes:
no token is added, the diagnostic "Illegal character" with the line and column
the tokenizer has tracked is recorded, and the scan goes on one character
further, with the characters after the quote. -/
theorem tokenizeLoop_unterminated_quote (fuel : Nat) (st : LexState) (cs : List Char)
    (hrest : st.rest = '"' :: cs) (h : '"' ∉ cs) :
    tokenizeLoop (fuel + 1) st =
      tokenizeLoop fuel
        { rest := cs, pos := st.pos + 1, line := st.line, lineStart := st.lineStart,
          tokens := st.tokens,
          errors := st.errors ++ [illegalCharMsg '"' st.line (st.pos - st.lineStart)] } := by
  rw [tokenizeLoop, hrest]
  have hs : skipSpaces ('"' :: cs) st.pos st.line st.lineStart =
      ('"' :: cs, st.pos, st.line, st.lineStart) := by
    simp [skipSpaces, isspace]
  simp only [hs, firstMatch_unterminated_quote cs h]

/-- C20, the failing input: in the source `prt("x` newline `y"); "abc` the last
quote has no later quote. No `STRING` token is emitted for it, one diagnostic
is recorded, `abc` is tokenized as an identifier and the stream ends with
`END`; but the diagnostic gives line 1, column 12, while the quote stands at
offset 12, which is line 2, column 5: the newline inside the earlier string
literal was never counted. -/
theorem unterminated_quote_position :
    tokenize "prt(\"x\ny\"); \"abc" =
      some ([⟨.PRT, "prt", 1, 0⟩, ⟨.LPAREN, "(", 1, 3⟩, ⟨.STRING, "\"x\ny\"", 1, 4⟩,
        ⟨.RPAREN, ")", 1, 9⟩, ⟨.SEMI, ";", 1, 10⟩, ⟨.ID, "abc", 1, 13⟩, ⟨.END, "", 1, 0⟩],
        ["Illegal character '\"' at line 1, column 12"]) ∧
    "prt(\"x\ny\"); \"abc".data.drop 12 = ['"', 'a', 'b', 'c'] ∧
    lineAt "prt(\"x\ny\"); \"abc".data 12 = 2 ∧
    columnAt "prt(\"x\ny\"); \"abc".data 12 = 5 := by
  refine ⟨?_, ?_, ?_, ?_⟩ <;> decide!

/-! ## Register cycling -/

theorem getRegister_eq (i : Nat) : getRegister i = registerNames.getD (i % 4) "" := rfl

theorem filter_isMov_binaryAsm (op l r : String) :
    (binaryAsm op l r).1.filter (fun line => isMov line) = [] := by
  unfold binaryAsm
  split
  · simp [isMov, String.data_append]
  · split
    · simp [isMov, String.data_append]
    · split
      · simp [isMov, String.data_append]
      · split
        · simp [isMov, String.data_append]
        · simp

/-- The code of an expression: its load lines, in order, are one `mov` per
leaf into the register the running counter selects, and the counter grows by
the number of leaves. -/
theorem generateAssembly_loads (e : Expr) (code : List String) (n : Nat) :
    ∃ reg new, generateAssembly e.toAST code n = some (reg, code ++ new, n + e.leaves.length) ∧
      new.filter (fun line => isMov line) =
        (e.leaves.enumFrom n).map (fun p => "mov " ++ getRegister p.1 ++ ", " ++ p.2) := by
  induction e generalizing code n with
  | num digits =>
    refine ⟨getRegister n, ["mov " ++ getRegister n ++ ", " ++ String.mk digits], ?_, ?_⟩
    · simp [Expr.toAST, generateAssembly_eq, Expr.leaves]
    · simp [Expr.leaves, isMov, String.data_append]
  | var name =>
    refine ⟨getRegister n, ["mov " ++ getRegister n ++ ", " ++ name], ?_, ?_⟩
    · simp [Expr.toAST, generateAssembly_eq, Expr.leaves]
    · simp [Expr.leaves, isMov, String.data_append]
  | bin op l r ihl ihr =>
    obtain ⟨regL, newL, hl, hfl⟩ := ihl code n
    obtain ⟨regR, newR, hr, hfr⟩ := ihr (code ++ newL) (n + l.leaves.length)
    refine ⟨(binaryAsm op.symbol regL regR).2,
      newL ++ newR ++ (binaryAsm op.symbol regL regR).1, ?_, ?_⟩
    · have hne : ¬ (op.symbol = "NumberLiteral" ∨ op.symbol = "Identifier") := by
        cases op <;> decide
      simp [Expr.toAST, generateAssembly_eq, hl, hr, Expr.leaves, Nat.add_assoc]
    · simp only [List.filter_append, hfl, hfr, filter_isMov_binaryAsm, List.append_nil,
        Expr.leaves, List.enumFrom_append, List.map_append]

theorem getElem?_enumFrom_map (texts : List String) (n i : Nat) (f : Nat × String → String) :
    ((texts.enumFrom n).map f)[i]? = (texts[i]?).map (fun text => f (n + i, text)) := by
  induction texts generalizing n i with
  | nil => simp
  | cons t ts ih =>
    cases i with
    | zero => simp [List.enumFrom]
    | succ i =>
      simp only [List.enumFrom, List.map_cons, List.getElem?_cons_succ, ih]
      congr 1
      funext text
      congr 2
      omega

theorem nodup_registers (k : Nat) :
    ((List.range k).map getRegister).Nodup ↔ k ≤ 4 := by
  constructor
  · intro h
    by_contra hk
    have h5 : 5 ≤ k := by omega
    have hsub : ((List.range 5).map getRegister).Nodup := by
      have hpre : (List.range 5) <+: (List.range k) := by
        rw [List.range_eq_range', List.range_eq_range']
        exact ⟨List.range' 5 (k - 5), by
          rw [List.range'_append]; congr 1; omega⟩
      exact List.Nodup.sublist (List.Sublist.map _ hpre.sublist) h
    revert hsub
    decide
  · intro h
    interval_cases k <;> decide

/-- C19: register cycling. For every expression, `generateAssembly` started
with register counter 0 returns; among the lines it appends, the `mov` lines
are exactly one per leaf, in left-to-right order, and the load of the i-th leaf
(i = 0, 1, 2, ...) is `mov <r>, <leaf text>` with `r` the (i mod 4)-th of
`eax`, `ebx`, `ecx`, `edx`. Hence the registers of the leaves are pairwise
distinct if and only if there are at most 4 leaves, and with 5 leaves or more
the first and the fifth leaf are loaded into the same register. -/
theorem register_cycling (e : Expr) (code : List String) :
    ∃ reg new, generateAssembly e.toAST code 0 = some (reg, code ++ new, e.leaves.length) ∧
      (new.filter (fun line => isMov line)).length = e.leaves.length ∧
      (∀ i text, e.leaves[i]? = some text →
        (new.filter (fun line => isMov line))[i]? =
          some ("mov " ++ registerNames.getD (i % 4) "" ++ ", " ++ text)) ∧
      (((List.range e.leaves.length).map getRegister).Nodup ↔ e.leaves.length ≤ 4) ∧
      (∀ first fifth, e.leaves[0]? = some first → e.leaves[4]? = some fifth →
        (new.filter (fun line => isMov line))[0]? = some ("mov eax, " ++ first) ∧
        (new.filter (fun line => isMov line))[4]? = some ("mov eax, " ++ fifth)) := by
  obtain ⟨reg, new, h, hf⟩ := generateAssembly_loads e code 0
  have hload : ∀ i text, e.leaves[i]? = some text →
      (new.filter (fun line => isMov line))[i]? =
        some ("mov " ++ registerNames.getD (i % 4) "" ++ ", " ++ text) := by
    intro i text hi
    rw [hf, getElem?_enumFrom_map, hi]
    simp [getRegister_eq]
  refine ⟨reg, new, by simpa using h, by simp [hf], hload, nodup_registers _, ?_⟩
  intro first fifth h0 h4
  exact ⟨by rw [hload 0 first h0]; rfl, by rw [hload 4 fifth h4]; rfl⟩

/-! ## Return in the interpreter -/

theorem executeAll_output (cs : List ASTNode)
    (ih : ∀ c ∈ cs, ∀ vars out, execute c ⟨vars, out⟩ =
      (execute c ⟨vars, []⟩).map (fun s => ⟨s.vars, out ++ s.output⟩)) :
    ∀ vars out, executeAll cs ⟨vars, out⟩ =
      (executeAll cs ⟨vars, []⟩).map (fun s => ⟨s.vars, out ++ s.output⟩) := by
  induction cs with
  | nil => intro vars out; simp [executeAll_nil]
  | cons c cs ihc =>
    intro vars out
    have ihcs := ihc (fun d hd => ih d (List.mem_cons_of_mem _ hd))
    rw [executeAll_cons, executeAll_cons, ih c (List.mem_cons_self _ _) vars out]
    cases hc : execute c ⟨vars, []⟩ with
    | none => rfl
    | some s =>
      simp only [Option.map_some']
      rw [ihcs s.vars (out ++ s.output)]
      have hs : executeAll cs s = executeAll cs ⟨s.vars, s.output⟩ := rfl
      rw [hs, ihcs s.vars s.output]
      cases executeAll cs ⟨s.vars, []⟩ <;> simp [List.append_assoc]

/-- The interpreter only appends to the output: a run from a state with output
`out` is the run from the same variables with empty output, with `out` in
front. -/
theorem execute_output (t : ASTNode) :
    ∀ vars out, execute t ⟨vars, out⟩ =
      (execute t ⟨vars, []⟩).map (fun s => ⟨s.vars, out ++ s.output⟩) := by
  induction t using ASTNode.induct with
  | h ty v cs ih =>
    intro vars out
    have hall := executeAll_output cs ih
    rw [execute_eq, execute_eq]
    split
    · exact hall vars out
    · split
      · rcases cs with _ | ⟨c, rest⟩
        · rfl
        · simp only
          cases evaluate c vars with
          | none => rfl
          | some r => simp
      · split
        · rcases cs with _ | ⟨c, rest⟩
          · simp
          · simp only
            split
            · simp
            · cases evaluate c vars with
              | none => rfl
              | some r => simp
        · split
          · rcases cs with _ | ⟨c, _ | ⟨t, _ | ⟨e, rest⟩⟩⟩
            · rfl
            · simp only
              cases evaluate c vars with
              | none => rfl
              | some r =>
                simp only
                split <;> simp
            · simp only
              cases evaluate c vars with
              | none => rfl
              | some r =>
                simp only
                split
                · exact ih t (by simp) r.2 out
                · simp
            · simp only
              cases evaluate c vars with
              | none => rfl
              | some r =>
                simp only
                split
                · exact ih t (by simp) r.2 out
                · exact ih e (by simp) r.2 out
          · split
            · exact hall vars out
            · split
              · rcases cs with _ | ⟨c, rest⟩
                · rfl
                · simp only
                  cases evaluate c vars with
                  | none => rfl
                  | some r => simp
              · simp

/-- C16, refuted as stated: a `Return` whose expression reads a name that is
absent changes the variable map (`variables[name]` inserts `y = 0`); execution
goes on after it. The same happens in the pipeline on a source that passes
every check. -/
theorem return_changes_map :
    execute (.mk "Return" "" [.mk "Identifier" "y" []]) ⟨[], []⟩ =
      some ⟨[("y", 0)], ["Return: 0"]⟩ ∧
    execute (.mk "Program" "" [.mk "Return" "" [.mk "Identifier" "y" []],
        .mk "Print" "" [.mk "NumberLiteral" "2" []]]) ⟨[], []⟩ =
      some ⟨[("y", 0)], ["Return: 0", "2"]⟩ ∧
    (compile "agar (0 > 1) \x7b val y = 1; \x7d bhejo y; prt(2);").map
      (fun r => (r.errors, r.output)) = some ([], .ran ["Return: 0", "2"]) ∧
    interpretSource "agar (0 > 1) \x7b val y = 1; \x7d bhejo y; prt(2);" =
      some ⟨[("y", 0)], ["Return: 0", "2"]⟩ := by
  refine ⟨?_, ?_, ?_, ?_⟩ <;> decide!

/-- C16, amended: `Return` does not terminate execution. For every `Program`
whose child list is a `Return` followed by further statements, when the
expression of the `Return` evaluates (to `v`, leaving the map `vars1`), the
`Return` appends the line "Return: v" and the run is the line followed by
exactly the output the further statements produce when run from `vars1`;
`vars1` gives every name the value it had, except that names the expression
read while absent now hold 0, and it is the map before the `Return` when every
identifier of the expression is bound. The source `bhejo 1; prt(2);` prints
"Return: 1" then "2". -/
theorem return_does_not_terminate (payload rp : String) (e : ASTNode) (more rest : List ASTNode)
    (st : RunState) (v : Int) (vars1 : Vars) (h : evaluate e st.vars = some (v, vars1)) :
    execute (.mk "Return" rp (e :: more)) st =
      some ⟨vars1, st.output ++ ["Return: " ++ toString v]⟩ ∧
    execute (.mk "Program" payload (.mk "Return" rp (e :: more) :: rest)) st =
      (executeAll rest ⟨vars1, []⟩).map
        (fun s => ⟨s.vars, st.output ++ ("Return: " ++ toString v) :: s.output⟩) ∧
    (∀ x, vars1.find x = st.vars.find x ∨ (st.vars.find x = none ∧ vars1.find x = some 0)) ∧
    ((∀ n ∈ identifierNames e, (st.vars.find n).isSome) → vars1 = st.vars) ∧
    interpretSource "bhejo 1; prt(2);" = some ⟨[], ["Return: 1", "2"]⟩ := by
  have hret : execute (.mk "Return" rp (e :: more)) st =
      some ⟨vars1, st.output ++ ["Return: " ++ toString v]⟩ := by
    rw [execute_eq]; simp [h]
  refine ⟨hret, ?_, evaluate_find e _ _ _ h, fun hb => evaluate_bound e _ _ _ hb h, by decide!⟩
  rw [execute_eq]
  simp only [if_true, executeAll_cons, hret]
  rw [executeAll_output rest (fun c _ => execute_output c)]
  cases executeAll rest ⟨vars1, []⟩ <;> simp

/-- C16 amended, at `bhejo a + 1; prt(a);` run with `a = 4`. -/
theorem return_does_not_terminate_witness :
    execute (.mk "Program" "" [.mk "Return" "" [.mk "BinaryExpr" "+" [.mk "Identifier" "a" [],
        .mk "NumberLiteral" "1" []]], .mk "Print" "" [.mk "Identifier" "a" []]])
        ⟨[("a", 4)], []⟩ =
      some ⟨[("a", 4)], ["Return: 5", "4"]⟩ :=
  (return_does_not_terminate "" "" (.mk "BinaryExpr" "+" [.mk "Identifier" "a" [],
      .mk "NumberLiteral" "1" []]) [] [.mk "Print" "" [.mk "Identifier" "a" []]]
    ⟨[("a", 4)], []⟩ 5 [("a", 4)] (by decide!)).2.1

/-! ## The shared counter of temporaries and labels -/

theorem generateIntermediateCode_eq (ty v : String) (cs : List ASTNode) (code : List String)
    (tempCount : Nat) :
    generateIntermediateCode (.mk ty v cs) code tempCount =
    if ty = "Program" then
      match generateIntermediateCodeAll cs code tempCount with
      | some (code1, n1) => some ("", code1, n1)
      | none => none
    else if ty = "Declaration" then
      match cs with
      | [] => some ("", code, tempCount)
      | c :: _ =>
        match generateIntermediateCode c code tempCount with
        | some (temp, code1, n1) => some ("", code1 ++ [v ++ " = " ++ temp], n1)
        | none => none
    else if ty = "BinaryExpr" then
      match cs with
      | l :: r :: _ =>
        match generateIntermediateCode l code tempCount with
        | some (leftTemp, code1, n1) =>
          match generateIntermediateCode r code1 n1 with
          | some (rightTemp, code2, n2) =>
            some ("T" ++ toString (n2 + 1),
              code2 ++ ["T" ++ toString (n2 + 1) ++ " = " ++ leftTemp ++ " " ++ v ++ " " ++
                rightTemp], n2 + 1)
          | none => none
        | none => none
      | _ => none
    else if ty = "Identifier" then some (v, code, tempCount)
    else if ty = "NumberLiteral" then some (v, code, tempCount)
    else if ty = "Return" then
      match cs with
      | [] => some ("", code, tempCount)
      | c :: _ =>
        match generateIntermediateCode c code tempCount with
        | some (retVal, code1, n1) => some ("", code1 ++ ["return " ++ retVal], n1)
        | none => none
    else if ty = "Print" then
      match cs with
      | [] => some ("", code, tempCount)
      | c :: _ =>
        match generateIntermediateCode c code tempCount with
        | some (val, code1, n1) => some ("", code1 ++ ["print " ++ val], n1)
        | none => none
    else if ty = "IfElse" then
      match cs with
      | [c, t] =>
        match generateIntermediateCode c code tempCount with
        | some (cond, code1, n1) =>
          match generateIntermediateCode t
              (code1 ++ ["ifnot " ++ cond ++ " goto " ++ ("L" ++ toString (n1 + 1))])
              (n1 + 2) with
          | some (_, code2, n2) =>
            some ("", code2 ++ ["goto " ++ ("L" ++ toString (n1 + 2)),
              "L" ++ toString (n1 + 1) ++ ":", "L" ++ toString (n1 + 2) ++ ":"], n2)
          | none => none
        | none => none
      | c :: t :: e :: _ =>
        match generateIntermediateCode c code tempCount with
        | some (cond, code1, n1) =>
          match generateIntermediateCode t
              (code1 ++ ["ifnot " ++ cond ++ " goto " ++ ("L" ++ toString (n1 + 1))])
              (n1 + 2) with
          | some (_, code2, n2) =>
            match generateIntermediateCode e
                (code2 ++ ["goto " ++ ("L" ++ toString (n1 + 2)),
                  "L" ++ toString (n1 + 1) ++ ":"]) n2 with
            | some (_, code3, n3) => some ("", code3 ++ ["L" ++ toString (n1 + 2) ++ ":"], n3)
            | none => none
          | none => none
        | none => none
      | _ => none
    else some ("", code, tempCount) := by
  rcases cs with _ | ⟨c, _ | ⟨t, _ | ⟨e, rest⟩⟩⟩ <;> rfl

theorem generateIntermediateCodeAll_nil (code : List String) (n : Nat) :
    generateIntermediateCodeAll [] code n = some (code, n) := rfl

theorem generateIntermediateCodeAll_cons (c : ASTNode) (cs : List ASTNode) (code : List String)
    (n : Nat) :
    generateIntermediateCodeAll (c :: cs) code n =
      match generateIntermediateCode c code n with
      | some (_, code1, n1) => generateIntermediateCodeAll cs code1 n1
      | none => none := rfl

theorem generateIntermediateCodeTraced_eq (ty v : String) (cs : List ASTNode)
    (code : List String) (tempCount : Nat) (minted : List Minted) :
    generateIntermediateCodeTraced (.mk ty v cs) code tempCount minted =
    if ty = "Program" then
      match generateIntermediateCodeTracedAll cs code tempCount minted with
      | some (code1, n1, m1) => some ("", code1, n1, m1)
      | none => none
    else if ty = "Declaration" then
      match cs with
      | [] => some ("", code, tempCount, minted)
      | c :: _ =>
        match generateIntermediateCodeTraced c code tempCount minted with
        | some (temp, code1, n1, m1) => some ("", code1 ++ [v ++ " = " ++ temp], n1, m1)
        | none => none
    else if ty = "BinaryExpr" then
      match cs with
      | l :: r :: _ =>
        match generateIntermediateCodeTraced l code tempCount minted with
        | some (leftTemp, code1, n1, m1) =>
          match generateIntermediateCodeTraced r code1 n1 m1 with
          | some (rightTemp, code2, n2, m2) =>
            some ("T" ++ toString (n2 + 1),
              code2 ++ ["T" ++ toString (n2 + 1) ++ " = " ++ leftTemp ++ " " ++ v ++ " " ++
                rightTemp], n2 + 1, m2 ++ [⟨"T", n2 + 1⟩])
          | none => none
        | none => none
      | _ => none
    else if ty = "Identifier" then some (v, code, tempCount, minted)
    else if ty = "NumberLiteral" then some (v, code, tempCount, minted)
    else if ty = "Return" then
      match cs with
      | [] => some ("", code, tempCount, minted)
      | c :: _ =>
        match generateIntermediateCodeTraced c code tempCount minted with
        | some (retVal, code1, n1, m1) => some ("", code1 ++ ["return " ++ retVal], n1, m1)
        | none => none
    else if ty = "Print" then
      match cs with
      | [] => some ("", code, tempCount, minted)
      | c :: _ =>
        match generateIntermediateCodeTraced c code tempCount minted with
        | some (val, code1, n1, m1) => some ("", code1 ++ ["print " ++ val], n1, m1)
        | none => none
    else if ty = "IfElse" then
      match cs with
      | [c, t] =>
        match generateIntermediateCodeTraced c code tempCount minted with
        | some (cond, code1, n1, m1) =>
          match generateIntermediateCodeTraced t
              (code1 ++ ["ifnot " ++ cond ++ " goto " ++ ("L" ++ toString (n1 + 1))])
              (n1 + 2) (m1 ++ [⟨"L", n1 + 1⟩, ⟨"L", n1 + 2⟩]) with
          | some (_, code2, n2, m2) =>
            some ("", code2 ++ ["goto " ++ ("L" ++ toString (n1 + 2)),
              "L" ++ toString (n1 + 1) ++ ":", "L" ++ toString (n1 + 2) ++ ":"], n2, m2)
          | none => none
        | none => none
      | c :: t :: e :: _ =>
        match generateIntermediateCodeTraced c code tempCount minted with
        | some (cond, code1, n1, m1) =>
          match generateIntermediateCodeTraced t
              (code1 ++ ["ifnot " ++ cond ++ " goto " ++ ("L" ++ toString (n1 + 1))])
              (n1 + 2) (m1 ++ [⟨"L", n1 + 1⟩, ⟨"L", n1 + 2⟩]) with
          | some (_, code2, n2, m2) =>
            match generateIntermediateCodeTraced e
                (code2 ++ ["goto " ++ ("L" ++ toString (n1 + 2)),
                  "L" ++ toString (n1 + 1) ++ ":"]) n2 m2 with
            | some (_, code3, n3, m3) =>
              some ("", code3 ++ ["L" ++ toString (n1 + 2) ++ ":"], n3, m3)
            | none => none
          | none => none
        | none => none
      | _ => none
    else some ("", code, tempCount, minted) := by
  rcases cs with _ | ⟨c, _ | ⟨t, _ | ⟨e, rest⟩⟩⟩ <;> rfl

theorem generateIntermediateCodeTracedAll_nil (code : List String) (n : Nat)
    (minted : List Minted) :
    generateIntermediateCodeTracedAll [] code n minted = some (code, n, minted) := rfl

theorem generateIntermediateCodeTracedAll_cons (c : ASTNode) (cs : List ASTNode)
    (code : List String) (n : Nat) (minted : List Minted) :
    generateIntermediateCodeTracedAll (c :: cs) code n minted =
      match generateIntermediateCodeTraced c code n minted with
      | some (_, code1, n1, m1) => generateIntermediateCodeTracedAll cs code1 n1 m1
      | none => none := rfl

theorem irVisited_eq (ty v : String) (cs : List ASTNode) :
    irVisited (.mk ty v cs) =
    .mk ty v cs ::
      (if ty = "Program" then irVisitedAll cs
      else if ty = "Declaration" ∨ ty = "Return" ∨ ty = "Print" then
        match cs with
        | [] => []
        | c :: _ => irVisited c
      else if ty = "BinaryExpr" then
        match cs with
        | l :: r :: _ => irVisited l ++ irVisited r
        | _ => []
      else if ty = "IfElse" then
        match cs with
        | [c, t] => irVisited c ++ irVisited t
        | c :: t :: e :: _ => irVisited c ++ irVisited t ++ irVisited e
        | _ => []
      else []) := by
  rcases cs with _ | ⟨c, _ | ⟨t, _ | ⟨e, rest⟩⟩⟩ <;> rfl

theorem irVisitedAll_nil : irVisitedAll [] = [] := rfl

theorem irVisitedAll_cons (c : ASTNode) (cs : List ASTNode) :
    irVisitedAll (c :: cs) = irVisited c ++ irVisitedAll cs := rfl

/-- Dropping the ghost list from the traced generator gives
`generateIntermediateCode`. -/
theorem generateIntermediateCodeTraced_erase (t : ASTNode) :
    ∀ code n tr,
      (generateIntermediateCodeTraced t code n tr).map (fun r => (r.1, r.2.1, r.2.2.1)) =
        generateIntermediateCode t code n := by
  induction t using ASTNode.induct with
  | h ty v cs ih =>
    intro code n tr
    have ihAll : ∀ (l : List ASTNode), (∀ c ∈ l, c ∈ cs) → ∀ code n tr,
        (generateIntermediateCodeTracedAll l code n tr).map (fun r => (r.1, r.2.1)) =
          generateIntermediateCodeAll l code n := by
      intro l
      induction l with
      | nil => intro _ code n tr; rfl
      | cons c l ihl =>
        intro hsub code n tr
        rw [generateIntermediateCodeTracedAll_cons, generateIntermediateCodeAll_cons,
          ← ih c (hsub c (by simp)) code n tr]
        rcases generateIntermediateCodeTraced c code n tr with _ | ⟨a, b, k, d⟩
        · rfl
        · exact ihl (fun x hx => hsub x (by simp [hx])) b k d
    rw [generateIntermediateCodeTraced_eq, generateIntermediateCode_eq]
    by_cases h0 : ty = "Program"
    · rw [if_pos h0, if_pos h0]
      rw [← ihAll cs (fun _ h => h) code n tr]
      rcases generateIntermediateCodeTracedAll cs code n tr with _ | ⟨b, k, d⟩ <;> rfl
    rw [if_neg h0, if_neg h0]
    by_cases h1 : ty = "Declaration"
    · rw [if_pos h1, if_pos h1]
      rcases cs with _ | ⟨c, rest⟩
      · rfl
      · simp only
        rw [← ih c (by simp) code n tr]
        rcases generateIntermediateCodeTraced c code n tr with _ | ⟨a, b, k, d⟩ <;> rfl
    rw [if_neg h1, if_neg h1]
    by_cases h2 : ty = "BinaryExpr"
    · rw [if_pos h2, if_pos h2]
      rcases cs with _ | ⟨l, _ | ⟨r, rest⟩⟩
      · rfl
      · rfl
      · simp only
        rw [← ih l (by simp) code n tr]
        rcases generateIntermediateCodeTraced l code n tr with _ | ⟨a, b, k, d⟩
        · rfl
        · simp only [Option.map_some']
          rw [← ih r (by simp) b k d]
          rcases generateIntermediateCodeTraced r b k d with _ | ⟨a2, b2, k2, d2⟩ <;> rfl
    rw [if_neg h2, if_neg h2]
    by_cases h3 : ty = "Identifier"
    · rw [if_pos h3, if_pos h3]
      rfl
    rw [if_neg h3, if_neg h3]
    by_cases h4 : ty = "NumberLiteral"
    · rw [if_pos h4, if_pos h4]
      rfl
    rw [if_neg h4, if_neg h4]
    by_cases h5 : ty = "Return"
    · rw [if_pos h5, if_pos h5]
      rcases cs with _ | ⟨c, rest⟩
      · rfl
      · simp only
        rw [← ih c (by simp) code n tr]
        rcases generateIntermediateCodeTraced c code n tr with _ | ⟨a, b, k, d⟩ <;> rfl
    rw [if_neg h5, if_neg h5]
    by_cases h6 : ty = "Print"
    · rw [if_pos h6, if_pos h6]
      rcases cs with _ | ⟨c, rest⟩
      · rfl
      · simp only
        rw [← ih c (by simp) code n tr]
        rcases generateIntermediateCodeTraced c code n tr with _ | ⟨a, b, k, d⟩ <;> rfl
    rw [if_neg h6, if_neg h6]
    by_cases h7 : ty = "IfElse"
    · rw [if_pos h7, if_pos h7]
      rcases cs with _ | ⟨c, _ | ⟨t, _ | ⟨e, rest⟩⟩⟩
      · rfl
      · rfl
      · simp only
        rw [← ih c (by simp) code n tr]
        rcases generateIntermediateCodeTraced c code n tr with _ | ⟨a, b, k, d⟩
        · rfl
        · simp only [Option.map_some']
          rw [← ih t (by simp)
            (b ++ ["ifnot " ++ a ++ " goto " ++ ("L" ++ toString (k + 1))]) (k + 2)
            (d ++ [⟨"L", k + 1⟩, ⟨"L", k + 2⟩])]
          generalize generateIntermediateCodeTraced t _ _ _ = g
          rcases g with _ | ⟨a2, b2, k2, d2⟩ <;> rfl
      · simp only
        rw [← ih c (by simp) code n tr]
        rcases generateIntermediateCodeTraced c code n tr with _ | ⟨a, b, k, d⟩
        · rfl
        · simp only [Option.map_some']
          rw [← ih t (by simp)
            (b ++ ["ifnot " ++ a ++ " goto " ++ ("L" ++ toString (k + 1))]) (k + 2)
            (d ++ [⟨"L", k + 1⟩, ⟨"L", k + 2⟩])]
          generalize generateIntermediateCodeTraced t _ _ _ = g
          rcases g with _ | ⟨a2, b2, k2, d2⟩
          · rfl
          · simp only [Option.map_some']
            rw [← ih e (by simp)
              (b2 ++ ["goto " ++ ("L" ++ toString (k + 2)), "L" ++ toString (k + 1) ++ ":"])
              k2 d2]
            generalize generateIntermediateCodeTraced e _ _ _ = g
            rcases g with _ | ⟨a3, b3, k3, d3⟩ <;> rfl
    rw [if_neg h7, if_neg h7]
    rfl

theorem MintSpec.refl (n : Nat) (tr : List Minted) : MintSpec n tr [] n tr :=
  ⟨[], by simp⟩

theorem MintSpec.trans (n n1 n2 : Nat) (tr tr1 tr2 : List Minted) (v1 v2 : List ASTNode)
    (h1 : MintSpec n tr v1 n1 tr1) (h2 : MintSpec n1 tr1 v2 n2 tr2) :
    MintSpec n tr (v1 ++ v2) n2 tr2 := by
  obtain ⟨a, rfl, ha, rfl, haT, haL, hak⟩ := h1
  obtain ⟨b, rfl, hb, rfl, hbT, hbL, hbk⟩ := h2
  refine ⟨a ++ b, by simp, ?_, by simp; omega, ?_, ?_, ?_⟩
  · rw [List.map_append, ha, hb, List.length_append, Nat.add_comm a.length b.length,
      ← List.range'_append_1]
    congr 2
    omega
  · simp [haT, hbT]
  · simp [haL, hbL]; omega
  · intro m hm
    rcases List.mem_append.1 hm with h | h
    · exact hak m h
    · exact hbk m h

theorem MintSpec.skip (n n1 : Nat) (tr tr1 : List Minted) (x : ASTNode) (vis : List ASTNode)
    (hB : x.nodeType ≠ "BinaryExpr") (hI : x.nodeType ≠ "IfElse")
    (h : MintSpec n tr vis n1 tr1) : MintSpec n tr (x :: vis) n1 tr1 := by
  obtain ⟨a, rfl, ha, rfl, haT, haL, hak⟩ := h
  exact ⟨a, rfl, ha, rfl, by simp [haT, hB], by simp [haL, hI], hak⟩

theorem MintSpec.temporary (n n1 : Nat) (tr tr1 : List Minted) (x : ASTNode)
    (vis : List ASTNode) (hB : x.nodeType = "BinaryExpr")
    (h : MintSpec n tr vis n1 tr1) :
    MintSpec n tr (x :: vis) (n1 + 1) (tr1 ++ [⟨"T", n1 + 1⟩]) := by
  obtain ⟨a, rfl, ha, rfl, haT, haL, hak⟩ := h
  refine ⟨a ++ [⟨"T", n + a.length + 1⟩], by simp, ?_, by simp; omega, ?_, ?_, ?_⟩
  · rw [List.map_append, ha, List.length_append, List.length_singleton, List.range'_concat]
    simp; omega
  · simp [haT, hB, List.filter_cons]
  · simp [haL, hB, List.filter_cons]
  · intro m hm
    rcases List.mem_append.1 hm with h | h
    · exact hak m h
    · simp at h; subst h; exact Or.inl rfl

theorem MintSpec.labels (n n1 n2 : Nat) (tr tr1 tr2 : List Minted) (x : ASTNode)
    (v1 v2 : List ASTNode) (hI : x.nodeType = "IfElse")
    (h1 : MintSpec n tr v1 n1 tr1)
    (h2 : MintSpec (n1 + 2) (tr1 ++ [⟨"L", n1 + 1⟩, ⟨"L", n1 + 2⟩]) v2 n2 tr2) :
    MintSpec n tr (x :: (v1 ++ v2)) n2 tr2 := by
  have hmid : MintSpec n1 tr1 [x] (n1 + 2) (tr1 ++ [⟨"L", n1 + 1⟩, ⟨"L", n1 + 2⟩]) := by
    refine ⟨[⟨"L", n1 + 1⟩, ⟨"L", n1 + 2⟩], rfl, by simp [List.range'], rfl, ?_, ?_, ?_⟩
    · simp [hI, List.filter_cons]
    · simp [hI, List.filter_cons]
    · intro m hm
      simp at hm
      rcases hm with rfl | rfl <;> exact Or.inr rfl
  have h := MintSpec.trans _ _ _ _ _ _ _ _ (MintSpec.trans _ _ _ _ _ _ _ _ h1 hmid) h2
  obtain ⟨a, rfl, ha, rfl, haT, haL, hak⟩ := h
  refine ⟨a, rfl, ha, rfl, ?_, ?_, hak⟩
  · rw [haT]; simp [hI, List.filter_cons]
  · rw [haL]; simp [hI, List.filter_cons]; omega

/-- The counter and the minted names over one call of the traced generator. -/
theorem generateIntermediateCodeTraced_mints (t : ASTNode) :
    ∀ code n tr name code1 n1 tr1,
      generateIntermediateCodeTraced t code n tr = some (name, code1, n1, tr1) →
        MintSpec n tr (irVisited t) n1 tr1 := by
  induction t using ASTNode.induct with
  | h ty v cs ih =>
    intro code n tr name code1 n1 tr1 h
    have ihAll : ∀ (l : List ASTNode), (∀ c ∈ l, c ∈ cs) → ∀ code n tr code1 n1 tr1,
        generateIntermediateCodeTracedAll l code n tr = some (code1, n1, tr1) →
          MintSpec n tr (irVisitedAll l) n1 tr1 := by
      intro l
      induction l with
      | nil =>
        intro _ code n tr code1 n1 tr1 h
        rw [generateIntermediateCodeTracedAll_nil] at h
        simp only [Option.some.injEq, Prod.mk.injEq] at h
        obtain ⟨-, rfl, rfl⟩ := h
        exact MintSpec.refl _ _
      | cons c l ihl =>
        intro hsub code n tr code1 n1 tr1 h
        rw [generateIntermediateCodeTracedAll_cons] at h
        rcases hc : generateIntermediateCodeTraced c code n tr with _ | ⟨a, b, k, d⟩
        · simp [hc] at h
        · rw [hc] at h
          rw [irVisitedAll_cons]
          exact MintSpec.trans _ _ _ _ _ _ _ _ (ih c (hsub c (by simp)) _ _ _ _ _ _ _ hc)
            (ihl (fun x hx => hsub x (by simp [hx])) _ _ _ _ _ _ h)
    rw [generateIntermediateCodeTraced_eq] at h
    rw [irVisited_eq]
    by_cases h0 : ty = "Program"
    · rw [if_pos h0] at h ⊢
      rcases hc : generateIntermediateCodeTracedAll cs code n tr with _ | ⟨b, k, d⟩
      · simp [hc] at h
      · simp only [hc, Option.some.injEq, Prod.mk.injEq] at h
        obtain ⟨-, -, rfl, rfl⟩ := h
        exact MintSpec.skip _ _ _ _ _ _ (by simp [ASTNode.nodeType, h0])
          (by simp [ASTNode.nodeType, h0]) (ihAll cs (fun _ h => h) _ _ _ _ _ _ hc)
    rw [if_neg h0] at h ⊢
    by_cases h1 : ty = "Declaration"
    · rw [if_pos h1] at h
      rw [if_pos (Or.inl h1)]
      refine MintSpec.skip _ _ _ _ _ _ (by simp [ASTNode.nodeType, h1])
        (by simp [ASTNode.nodeType, h1]) ?_
      rcases cs with _ | ⟨c, rest⟩
      · simp only [Option.some.injEq, Prod.mk.injEq] at h
        obtain ⟨-, -, rfl, rfl⟩ := h
        exact MintSpec.refl _ _
      · simp only at h ⊢
        rcases hc : generateIntermediateCodeTraced c code n tr with _ | ⟨a, b, k, d⟩
        · simp [hc] at h
        · simp only [hc, Option.some.injEq, Prod.mk.injEq] at h
          obtain ⟨-, -, rfl, rfl⟩ := h
          exact ih c (by simp) _ _ _ _ _ _ _ hc
    rw [if_neg h1] at h
    by_cases h2 : ty = "BinaryExpr"
    · rw [if_pos h2] at h
      rw [if_neg (by simp [h2]), if_pos h2]
      rcases cs with _ | ⟨l, _ | ⟨r, rest⟩⟩
      · simp at h
      · simp at h
      · simp only at h ⊢
        rcases hl : generateIntermediateCodeTraced l code n tr with _ | ⟨a, b, k, d⟩
        · simp [hl] at h
        · simp only [hl] at h
          rcases hr : generateIntermediateCodeTraced r b k d with _ | ⟨a2, b2, k2, d2⟩
          · simp [hr] at h
          · simp only [hr, Option.some.injEq, Prod.mk.injEq] at h
            obtain ⟨-, -, rfl, rfl⟩ := h
            exact MintSpec.temporary _ _ _ _ _ _ (by simp [ASTNode.nodeType, h2])
              (MintSpec.trans _ _ _ _ _ _ _ _ (ih l (by simp) _ _ _ _ _ _ _ hl)
                (ih r (by simp) _ _ _ _ _ _ _ hr))
    rw [if_neg h2] at h
    by_cases h3 : ty = "Identifier"
    · rw [if_pos h3] at h
      rw [if_neg (by simp [h3]), if_neg h2, if_neg (by simp [h3])]
      simp only [Option.some.injEq, Prod.mk.injEq] at h
      obtain ⟨-, -, rfl, rfl⟩ := h
      exact MintSpec.skip _ _ _ _ _ _ (by simp [ASTNode.nodeType, h3])
        (by simp [ASTNode.nodeType, h3]) (MintSpec.refl _ _)
    rw [if_neg h3] at h
    by_cases h4 : ty = "NumberLiteral"
    · rw [if_pos h4] at h
      rw [if_neg (by simp [h4]), if_neg h2, if_neg (by simp [h4])]
      simp only [Option.some.injEq, Prod.mk.injEq] at h
      obtain ⟨-, -, rfl, rfl⟩ := h
      exact MintSpec.skip _ _ _ _ _ _ (by simp [ASTNode.nodeType, h4])
        (by simp [ASTNode.nodeType, h4]) (MintSpec.refl _ _)
    rw [if_neg h4] at h
    by_cases h5 : ty = "Return"
    · rw [if_pos h5] at h
      rw [if_pos (Or.inr (Or.inl h5))]
      refine MintSpec.skip _ _ _ _ _ _ (by simp [ASTNode.nodeType, h5])
        (by simp [ASTNode.nodeType, h5]) ?_
      rcases cs with _ | ⟨c, rest⟩
      · simp only [Option.some.injEq, Prod.mk.injEq] at h
        obtain ⟨-, -, rfl, rfl⟩ := h
        exact MintSpec.refl _ _
      · simp only at h ⊢
        rcases hc : generateIntermediateCodeTraced c code n tr with _ | ⟨a, b, k, d⟩
        · simp [hc] at h
        · simp only [hc, Option.some.injEq, Prod.mk.injEq] at h
          obtain ⟨-, -, rfl, rfl⟩ := h
          exact ih c (by simp) _ _ _ _ _ _ _ hc
    rw [if_neg h5] at h
    by_cases h6 : ty = "Print"
    · rw [if_pos h6] at h
      rw [if_pos (Or.inr (Or.inr h6))]
      refine MintSpec.skip _ _ _ _ _ _ (by simp [ASTNode.nodeType, h6])
        (by simp [ASTNode.nodeType, h6]) ?_
      rcases cs with _ | ⟨c, rest⟩
      · simp only [Option.some.injEq, Prod.mk.injEq] at h
        obtain ⟨-, -, rfl, rfl⟩ := h
        exact MintSpec.refl _ _
      · simp only at h ⊢
        rcases hc : generateIntermediateCodeTraced c code n tr with _ | ⟨a, b, k, d⟩
        · simp [hc] at h
        · simp only [hc, Option.some.injEq, Prod.mk.injEq] at h
          obtain ⟨-, -, rfl, rfl⟩ := h
          exact ih c (by simp) _ _ _ _ _ _ _ hc
    rw [if_neg h6] at h
    rw [if_neg (by simp [h1, h5, h6]), if_neg h2]
    by_cases h7 : ty = "IfElse"
    · rw [if_pos h7] at h ⊢
      rcases cs with _ | ⟨c, _ | ⟨t, _ | ⟨e, rest⟩⟩⟩
      · simp at h
      · simp at h
      · simp only at h ⊢
        rcases hc : generateIntermediateCodeTraced c code n tr with _ | ⟨a, b, k, d⟩
        · simp [hc] at h
        · simp only [hc] at h
          rcases ht : generateIntermediateCodeTraced t
            (b ++ ["ifnot " ++ a ++ " goto " ++ ("L" ++ toString (k + 1))]) (k + 2)
            (d ++ [⟨"L", k + 1⟩, ⟨"L", k + 2⟩]) with _ | ⟨a2, b2, k2, d2⟩
          · simp [ht] at h
          · simp only [ht, Option.some.injEq, Prod.mk.injEq] at h
            obtain ⟨-, -, rfl, rfl⟩ := h
            exact MintSpec.labels _ _ _ _ _ _ _ _ _ (by simp [ASTNode.nodeType, h7])
              (ih c (by simp) _ _ _ _ _ _ _ hc) (ih t (by simp) _ _ _ _ _ _ _ ht)
      · simp only at h ⊢
        rcases hc : generateIntermediateCodeTraced c code n tr with _ | ⟨a, b, k, d⟩
        · simp [hc] at h
        · simp only [hc] at h
          rcases ht : generateIntermediateCodeTraced t
            (b ++ ["ifnot " ++ a ++ " goto " ++ ("L" ++ toString (k + 1))]) (k + 2)
            (d ++ [⟨"L", k + 1⟩, ⟨"L", k + 2⟩]) with _ | ⟨a2, b2, k2, d2⟩
          · simp [ht] at h
          · simp only [ht] at h
            rcases he : generateIntermediateCodeTraced e
              (b2 ++ ["goto " ++ ("L" ++ toString (k + 2)), "L" ++ toString (k + 1) ++ ":"])
              k2 d2 with _ | ⟨a3, b3, k3, d3⟩
            · simp [he] at h
            · simp only [he, Option.some.injEq, Prod.mk.injEq] at h
              obtain ⟨-, -, rfl, rfl⟩ := h
              rw [List.append_assoc]
              exact MintSpec.labels _ _ _ _ _ _ _ _ _ (by simp [ASTNode.nodeType, h7])
                (ih c (by simp) _ _ _ _ _ _ _ hc)
                (MintSpec.trans _ _ _ _ _ _ _ _ (ih t (by simp) _ _ _ _ _ _ _ ht)
                  (ih e (by simp) _ _ _ _ _ _ _ he))
    rw [if_neg h7] at h ⊢
    simp only [Option.some.injEq, Prod.mk.injEq] at h
    obtain ⟨-, -, rfl, rfl⟩ := h
    exact MintSpec.skip _ _ _ _ _ _ (by simp [ASTNode.nodeType, h2])
      (by simp [ASTNode.nodeType, h7]) (MintSpec.refl _ _)

/-- The generator only appends to the instruction list. -/
theorem generateIntermediateCodeTraced_extends (t : ASTNode) :
    ∀ code n tr name code1 n1 tr1,
      generateIntermediateCodeTraced t code n tr = some (name, code1, n1, tr1) →
        code <+: code1 := by
  induction t using ASTNode.induct with
  | h ty v cs ih =>
    intro code n tr name code1 n1 tr1 h
    have ihAll : ∀ (l : List ASTNode), (∀ c ∈ l, c ∈ cs) → ∀ code n tr code1 n1 tr1,
        generateIntermediateCodeTracedAll l code n tr = some (code1, n1, tr1) →
          code <+: code1 := by
      intro l
      induction l with
      | nil =>
        intro _ code n tr code1 n1 tr1 h
        rw [generateIntermediateCodeTracedAll_nil] at h
        simp only [Option.some.injEq, Prod.mk.injEq] at h
        obtain ⟨rfl, -, -⟩ := h
        exact List.prefix_refl _
      | cons c l ihl =>
        intro hsub code n tr code1 n1 tr1 h
        rw [generateIntermediateCodeTracedAll_cons] at h
        rcases hc : generateIntermediateCodeTraced c code n tr with _ | ⟨a, b, k, d⟩
        · simp [hc] at h
        · rw [hc] at h
          exact (ih c (hsub c (by simp)) _ _ _ _ _ _ _ hc).trans
            (ihl (fun x hx => hsub x (by simp [hx])) _ _ _ _ _ _ h)
    have first : ∀ (suffix : String → String) (c : ASTNode), c ∈ cs →
        (match generateIntermediateCodeTraced c code n tr with
          | some (temp, code1, n1, m1) => some ("", code1 ++ [suffix temp], n1, m1)
          | none => none) = some (name, code1, n1, tr1) → code <+: code1 := by
      intro suffix c hmem h
      rcases hc : generateIntermediateCodeTraced c code n tr with _ | ⟨a, b, k, d⟩
      · simp [hc] at h
      · simp only [hc, Option.some.injEq, Prod.mk.injEq] at h
        obtain ⟨-, rfl, -, -⟩ := h
        exact (ih c hmem _ _ _ _ _ _ _ hc).trans (List.prefix_append _ _)
    rw [generateIntermediateCodeTraced_eq] at h
    by_cases h0 : ty = "Program"
    · rw [if_pos h0] at h
      rcases hc : generateIntermediateCodeTracedAll cs code n tr with _ | ⟨b, k, d⟩
      · simp [hc] at h
      · simp only [hc, Option.some.injEq, Prod.mk.injEq] at h
        obtain ⟨-, rfl, -, -⟩ := h
        exact ihAll cs (fun _ h => h) _ _ _ _ _ _ hc
    rw [if_neg h0] at h
    by_cases h1 : ty = "Declaration"
    · rw [if_pos h1] at h
      rcases cs with _ | ⟨c, rest⟩
      · simp only [Option.some.injEq, Prod.mk.injEq] at h
        obtain ⟨-, rfl, -, -⟩ := h
        exact List.prefix_refl _
      · exact first (fun temp => v ++ " = " ++ temp) c (by simp) h
    rw [if_neg h1] at h
    by_cases h2 : ty = "BinaryExpr"
    · rw [if_pos h2] at h
      rcases cs with _ | ⟨l, _ | ⟨r, rest⟩⟩
      · simp at h
      · simp at h
      · simp only at h
        rcases hl : generateIntermediateCodeTraced l code n tr with _ | ⟨a, b, k, d⟩
        · simp [hl] at h
        · simp only [hl] at h
          rcases hr : generateIntermediateCodeTraced r b k d with _ | ⟨a2, b2, k2, d2⟩
          · simp [hr] at h
          · simp only [hr, Option.some.injEq, Prod.mk.injEq] at h
            obtain ⟨-, rfl, -, -⟩ := h
            exact ((ih l (by simp) _ _ _ _ _ _ _ hl).trans
              (ih r (by simp) _ _ _ _ _ _ _ hr)).trans (List.prefix_append _ _)
    rw [if_neg h2] at h
    by_cases h3 : ty = "Identifier"
    · rw [if_pos h3] at h
      simp only [Option.some.injEq, Prod.mk.injEq] at h
      obtain ⟨-, rfl, -, -⟩ := h
      exact List.prefix_refl _
    rw [if_neg h3] at h
    by_cases h4 : ty = "NumberLiteral"
    · rw [if_pos h4] at h
      simp only [Option.some.injEq, Prod.mk.injEq] at h
      obtain ⟨-, rfl, -, -⟩ := h
      exact List.prefix_refl _
    rw [if_neg h4] at h
    by_cases h5 : ty = "Return"
    · rw [if_pos h5] at h
      rcases cs with _ | ⟨c, rest⟩
      · simp only [Option.some.injEq, Prod.mk.injEq] at h
        obtain ⟨-, rfl, -, -⟩ := h
        exact List.prefix_refl _
      · exact first (fun temp => "return " ++ temp) c (by simp) h
    rw [if_neg h5] at h
    by_cases h6 : ty = "Print"
    · rw [if_pos h6] at h
      rcases cs with _ | ⟨c, rest⟩
      · simp only [Option.some.injEq, Prod.mk.injEq] at h
        obtain ⟨-, rfl, -, -⟩ := h
        exact List.prefix_refl _
      · exact first (fun temp => "print " ++ temp) c (by simp) h
    rw [if_neg h6] at h
    by_cases h7 : ty = "IfElse"
    · rw [if_pos h7] at h
      rcases cs with _ | ⟨c, _ | ⟨t, _ | ⟨e, rest⟩⟩⟩
      · simp at h
      · simp at h
      · simp only at h
        rcases hc : generateIntermediateCodeTraced c code n tr with _ | ⟨a, b, k, d⟩
        · simp [hc] at h
        · simp only [hc] at h
          rcases ht : generateIntermediateCodeTraced t
            (b ++ ["ifnot " ++ a ++ " goto " ++ ("L" ++ toString (k + 1))]) (k + 2)
            (d ++ [⟨"L", k + 1⟩, ⟨"L", k + 2⟩]) with _ | ⟨a2, b2, k2, d2⟩
          · simp [ht] at h
          · simp only [ht, Option.some.injEq, Prod.mk.injEq] at h
            obtain ⟨-, rfl, -, -⟩ := h
            exact (((ih c (by simp) _ _ _ _ _ _ _ hc).trans (List.prefix_append _ _)).trans
              (ih t (by simp) _ _ _ _ _ _ _ ht)).trans (List.prefix_append _ _)
      · simp only at h
        rcases hc : generateIntermediateCodeTraced c code n tr with _ | ⟨a, b, k, d⟩
        · simp [hc] at h
        · simp only [hc] at h
          rcases ht : generateIntermediateCodeTraced t
            (b ++ ["ifnot " ++ a ++ " goto " ++ ("L" ++ toString (k + 1))]) (k + 2)
            (d ++ [⟨"L", k + 1⟩, ⟨"L", k + 2⟩]) with _ | ⟨a2, b2, k2, d2⟩
          · simp [ht] at h
          · simp only [ht] at h
            rcases he : generateIntermediateCodeTraced e
              (b2 ++ ["goto " ++ ("L" ++ toString (k + 2)), "L" ++ toString (k + 1) ++ ":"])
              k2 d2 with _ | ⟨a3, b3, k3, d3⟩
            · simp [he] at h
            · simp only [he, Option.some.injEq, Prod.mk.injEq] at h
              obtain ⟨-, rfl, -, -⟩ := h
              exact (((((ih c (by simp) _ _ _ _ _ _ _ hc).trans (List.prefix_append _ _)).trans
                (ih t (by simp) _ _ _ _ _ _ _ ht)).trans (List.prefix_append _ _)).trans
                (ih e (by simp) _ _ _ _ _ _ _ he)).trans (List.prefix_append _ _)
    rw [if_neg h7] at h
    simp only [Option.some.injEq, Prod.mk.injEq] at h
    obtain ⟨-, rfl, -, -⟩ := h
    exact List.prefix_refl _

/-- C13. Temporaries and labels share one strictly increasing counter. For a
`generateIntermediateCode` pass over any tree, started with counter 0, that
returns: the names made from the counter, listed in the order of minting by the
traced generator (which returns the same name, instructions and counter), are
such that the name at position `k` (counted from 0) carries the number `k + 1`
and is a temporary `T` or a label `L`; the numbers are pairwise distinct; one
temporary is minted per `BinaryExpr` node visited and two labels per `IfElse`
node visited, so the final counter is the number of `BinaryExpr` nodes visited
plus twice the number of `IfElse` nodes visited. A `BinaryExpr` runs its left
operand, then its right operand on the instructions and counter the left one
left behind (each only appending instructions), then mints exactly one
temporary and appends exactly one instruction defining it. The source
`val r = 2 + 3 * 4;` yields `T1 = 3 * 4`, `T2 = 2 + T1`, `r = T2`. -/
theorem temporaries_and_labels_share_counter (t : ASTNode) (code code1 : List String)
    (name : String) (n1 : Nat)
    (h : generateIntermediateCode t code 0 = some (name, code1, n1)) :
    (∃ minted : List Minted,
      generateIntermediateCodeTraced t code 0 [] = some (name, code1, n1, minted) ∧
      (∀ (k : Nat) (m : Minted), minted[k]? = some m →
        m.number = k + 1 ∧ (m.kind = "T" ∨ m.kind = "L")) ∧
      (minted.map Minted.number).Nodup ∧
      (minted.filter (fun m => m.kind = "T")).length = irVisitedCount "BinaryExpr" t ∧
      (minted.filter (fun m => m.kind = "L")).length = 2 * irVisitedCount "IfElse" t ∧
      n1 = irVisitedCount "BinaryExpr" t + 2 * irVisitedCount "IfElse" t) ∧
    (∀ (v : String) (l r : ASTNode) (rest : List ASTNode) (c0 c1 c2 : List String)
        (k0 k1 k2 : Nat) (m0 m1 m2 : List Minted) (lt rt : String),
      generateIntermediateCodeTraced l c0 k0 m0 = some (lt, c1, k1, m1) →
      generateIntermediateCodeTraced r c1 k1 m1 = some (rt, c2, k2, m2) →
      generateIntermediateCodeTraced (.mk "BinaryExpr" v (l :: r :: rest)) c0 k0 m0 =
          some ("T" ++ toString (k2 + 1),
            c2 ++ ["T" ++ toString (k2 + 1) ++ " = " ++ lt ++ " " ++ v ++ " " ++ rt],
            k2 + 1, m2 ++ [⟨"T", k2 + 1⟩]) ∧
        c0 <+: c1 ∧ c1 <+: c2) ∧
    (compile "val r = 2 + 3 * 4;").map (fun r => r.intermediateCode) =
      some (.ran ["T1 = 3 * 4", "T2 = 2 + T1", "r = T2"]) := by
  refine ⟨?_, ?_, by decide!⟩
  · have he := generateIntermediateCodeTraced_erase t code 0 []
    rw [h] at he
    rcases ht : generateIntermediateCodeTraced t code 0 [] with _ | ⟨a, b, k, minted⟩
    · simp [ht] at he
    · simp only [ht, Option.map_some', Option.some.injEq, Prod.mk.injEq] at he
      obtain ⟨rfl, rfl, rfl⟩ := he
      obtain ⟨new, hnew, hnum, hk, hT, hL, hkind⟩ :=
        generateIntermediateCodeTraced_mints t code 0 [] _ _ _ _ ht
      simp only [List.nil_append] at hnew
      subst hnew
      refine ⟨minted, rfl, ?_, ?_, hT, hL, ?_⟩
      · intro i m hm
        refine ⟨?_, hkind m (List.getElem?_mem hm)⟩
        have h1 : (minted.map Minted.number)[i]? = some m.number := by
          rw [List.getElem?_map, hm]; rfl
        rw [hnum, List.getElem?_range'] at h1
        · simp at h1; omega
        · rcases List.getElem?_eq_some_iff.1 hm with ⟨hlt, -⟩
          exact hlt
      · rw [hnum]
        exact List.nodup_range' _ _
      · have hlen : minted.length =
            (minted.filter (fun m => m.kind = "T")).length +
              (minted.filter (fun m => m.kind = "L")).length := by
          clear hT hL hnum hk ht
          induction minted with
          | nil => rfl
          | cons m ms ihm =>
            have hms := ihm (fun x hx => hkind x (by simp [hx]))
            rcases hkind m (by simp) with hm | hm
            · simp [List.filter_cons, hm]; omega
            · simp [List.filter_cons, hm]; omega
        rw [hk, hlen, hT, hL]
        simp [irVisitedCount]
  · intro v l r rest c0 c1 c2 k0 k1 k2 m0 m1 m2 lt rt hl hr
    refine ⟨?_, generateIntermediateCodeTraced_extends l _ _ _ _ _ _ _ hl,
      generateIntermediateCodeTraced_extends r _ _ _ _ _ _ _ hr⟩
    rw [generateIntermediateCodeTraced_eq]
    simp [hl, hr]

theorem temporaries_and_labels_share_counter_witness :
    generateIntermediateCode counterSample [] 0 =
      some ("", ["T1 = a > 3", "ifnot T1 goto L2", "goto L3", "L2:", "T4 = a * 2", "print T4",
        "L3:"], 4) ∧
    generateIntermediateCodeTraced counterSample [] 0 [] =
      some ("", ["T1 = a > 3", "ifnot T1 goto L2", "goto L3", "L2:", "T4 = a * 2", "print T4",
        "L3:"], 4, [⟨"T", 1⟩, ⟨"L", 2⟩, ⟨"L", 3⟩, ⟨"T", 4⟩]) ∧
    irVisitedCount "BinaryExpr" counterSample = 2 ∧
    irVisitedCount "IfElse" counterSample = 1 ∧
    4 = irVisitedCount "BinaryExpr" counterSample + 2 * irVisitedCount "IfElse" counterSample :=
  ⟨by decide!, by decide!, by decide!, by decide!,
    (temporaries_and_labels_share_counter counterSample []
      ["T1 = a > 3", "ifnot T1 goto L2", "goto L3", "L2:", "T4 = a * 2", "print T4", "L3:"]
      "" 4 (by decide!)).1.choose_spec.2.2.2.2.2⟩

/-! ## The shape of parsed trees -/

theorem shapeInvariant_mk (ty v : String) (cs : List ASTNode)
    (hok : shapeOk (.mk ty v cs)) (hcs : ∀ c ∈ cs, shapeInvariant c) :
    shapeInvariant (.mk ty v cs) := by
  intro n hn
  rw [preorder_eq] at hn
  rcases List.mem_cons.1 hn with rfl | hn
  · exact hok
  · obtain ⟨c, hc, hnc⟩ := (mem_preorderAll n cs).1 hn
    exact hcs c hc n hnc

theorem shapeInvariant_children (ty v : String) (cs : List ASTNode)
    (h : shapeInvariant (.mk ty v cs)) : ∀ c ∈ cs, shapeInvariant c := by
  intro c hc n hn
  apply h n
  rw [preorder_eq]
  exact List.mem_cons_of_mem _ ((mem_preorderAll n cs).mpr ⟨c, hc, hn⟩)

theorem shapeInvariant_childCount (t : ASTNode) (h : shapeInvariant t) :
    childCountInvariant t := fun n hn => (h n hn).1

/-- A node of a kind that the shape does not constrain. -/
theorem shapeOk_other (ty v : String) (cs : List ASTNode)
    (h1 : ty ≠ "Declaration") (h2 : ty ≠ "BinaryExpr") (h3 : ty ≠ "IfElse")
    (h4 : ty ≠ "Return") : shapeOk (.mk ty v cs) := by
  simp [shapeOk, childCountOk, ASTNode.nodeType, h1, h2, h3, h4]

theorem shapeInvariant_addChild (b s : ASTNode) (hty : b.nodeType = "Block" ∨
    b.nodeType = "Program") (hb : shapeInvariant b) (hs : shapeInvariant s) :
    shapeInvariant (b.addChild s) ∧ (b.addChild s).nodeType = b.nodeType := by
  rcases b with ⟨ty, v, cs⟩
  simp only [ASTNode.nodeType] at hty
  refine ⟨shapeInvariant_mk _ _ _ ?_ ?_, rfl⟩
  · rcases hty with rfl | rfl
    · exact shapeOk_other _ _ _ (by decide) (by decide) (by decide) (by decide)
    · exact shapeOk_other _ _ _ (by decide) (by decide) (by decide) (by decide)
  · intro c hc
    rcases List.mem_append.1 hc with h | h
    · exact shapeInvariant_children _ _ _ hb c h
    · simp at h; subst h; exact hs

theorem parsePrimary_shape (st : ParseState) (r : ASTNode)
    (h : (parsePrimary st).1 = some r) : shapeInvariant r ∧ isExpressionNode r := by
  unfold parsePrimary at h
  split at h
  · simp only [Option.some.injEq] at h; subst h
    exact ⟨shapeInvariant_mk _ _ _
      (shapeOk_other _ _ _ (by decide) (by decide) (by decide) (by decide)) (by simp),
      Or.inl rfl⟩
  · split at h
    · simp only [Option.some.injEq] at h; subst h
      exact ⟨shapeInvariant_mk _ _ _
        (shapeOk_other _ _ _ (by decide) (by decide) (by decide) (by decide)) (by simp),
        Or.inr (Or.inl rfl)⟩
    · simp at h

theorem shapeInvariant_binary (op : String) (l r : ASTNode)
    (hl : shapeInvariant l) (hr : shapeInvariant r) :
    shapeInvariant (.mk "BinaryExpr" op [l, r]) ∧
      isExpressionNode (.mk "BinaryExpr" op [l, r]) := by
  refine ⟨shapeInvariant_mk _ _ _ ?_ ?_, Or.inr (Or.inr rfl)⟩
  · simp [shapeOk, childCountOk, ASTNode.nodeType, ASTNode.children]
  · intro c hc
    simp at hc
    rcases hc with rfl | rfl
    · exact hl
    · exact hr

theorem exprLoop_shape (recur : Int → ParseState → PResult (Option ASTNode))
    (hrec : ∀ p st r st1, recur p st = .ok (some r) st1 →
      shapeInvariant r ∧ isExpressionNode r) :
    ∀ (fuel : Nat) (minPrec : Int) (left : Option ASTNode) (st : ParseState) (r : ASTNode)
      (st1 : ParseState),
      (∀ l, left = some l → shapeInvariant l ∧ isExpressionNode l) →
      exprLoop recur fuel minPrec left st = .ok (some r) st1 →
      shapeInvariant r ∧ isExpressionNode r := by
  intro fuel
  induction fuel with
  | zero => intro minPrec left st r st1 _ h; simp [exprLoop] at h
  | succ fuel ih =>
    intro minPrec left st r st1 hleft h
    rw [exprLoop] at h
    split at h
    · rcases hr : recur (getPrecedence (currentToken st).value + 1) (advance st) with
        ⟨_ | right, st2⟩ | _ | _
      · simp [hr] at h
      · rw [hr] at h
        rcases left with _ | l
        · simp at h
        · simp only at h
          exact ih _ _ _ _ _
            (fun x hx => by
              simp only [Option.some.injEq] at hx; subst hx
              exact shapeInvariant_binary _ _ _ (hleft l rfl).1 (hrec _ _ _ _ hr).1) h
      · simp [hr] at h
      · simp [hr] at h
    · simp only [PResult.ok.injEq] at h
      exact hleft r h.1

theorem parseExpression_shape :
    ∀ (fuel : Nat) (minPrec : Int) (st : ParseState) (r : ASTNode) (st1 : ParseState),
      parseExpression fuel minPrec st = .ok (some r) st1 →
      shapeInvariant r ∧ isExpressionNode r := by
  intro fuel
  induction fuel with
  | zero => intro minPrec st r st1 h; simp [parseExpression] at h
  | succ fuel ih =>
    intro minPrec st r st1 h
    rw [parseExpression] at h
    exact exprLoop_shape _ (fun p st r st1 h => ih p st r st1 h) _ _ _ _ _ _
      (fun l hl => parsePrimary_shape st l hl) h

theorem parseReturn_shape (fuel : Nat) (st : ParseState) (r : ASTNode) (st1 : ParseState)
    (h : parseReturn fuel st = .ok (some r) st1) : shapeInvariant r := by
  unfold parseReturn at h
  rcases he : parseExpression fuel 0 (advance st) with ⟨_ | e, st2⟩ | _ | _
  · simp [he] at h
  · simp only [he] at h
    split at h
    · simp at h
    · simp only [PResult.ok.injEq, Option.some.injEq] at h
      obtain ⟨rfl, -⟩ := h
      refine shapeInvariant_mk _ _ _ ?_ ?_
      · simp [shapeOk, childCountOk, ASTNode.nodeType, ASTNode.children]
      · intro c hc
        simp at hc; subst hc
        exact (parseExpression_shape _ _ _ _ _ he).1
  · simp [he] at h
  · simp [he] at h

theorem finishPrint_shape (expr : Option ASTNode) (st : ParseState) (r : ASTNode)
    (st1 : ParseState) (hexpr : ∀ e, expr = some e → shapeInvariant e)
    (h : finishPrint expr st = .ok (some r) st1) : shapeInvariant r := by
  unfold finishPrint at h
  split at h
  · simp at h
  · split at h
    · simp at h
    · rcases expr with _ | e
      · simp only [PResult.ok.injEq, Option.some.injEq] at h
        obtain ⟨rfl, -⟩ := h
        exact shapeInvariant_mk _ _ _
          (shapeOk_other _ _ _ (by decide) (by decide) (by decide) (by decide)) (by simp)
      · simp only [PResult.ok.injEq, Option.some.injEq] at h
        obtain ⟨rfl, -⟩ := h
        refine shapeInvariant_mk _ _ _
          (shapeOk_other _ _ _ (by decide) (by decide) (by decide) (by decide)) ?_
        intro c hc
        simp at hc; subst hc
        exact hexpr c rfl

theorem parsePrint_shape (fuel : Nat) (st : ParseState) (r : ASTNode) (st1 : ParseState)
    (h : parsePrint fuel st = .ok (some r) st1) : shapeInvariant r := by
  unfold parsePrint at h
  simp only at h
  split at h
  · simp at h
  · split at h
    · refine finishPrint_shape _ _ _ _ ?_ h
      intro e he
      simp only [Option.some.injEq] at he; subst he
      exact shapeInvariant_mk _ _ _
        (shapeOk_other _ _ _ (by decide) (by decide) (by decide) (by decide)) (by simp)
    · rcases he : parseExpression fuel 0 (advance (advance st)) with ⟨expr, st2⟩ | _ | _
      · simp only [he] at h
        refine finishPrint_shape _ _ _ _ ?_ h
        intro e hsome
        subst hsome
        exact (parseExpression_shape _ _ _ _ _ he).1
      · simp [he] at h
      · simp [he] at h

theorem finishDeclaration_shape (varName : String) (expr : Option ASTNode) (st : ParseState)
    (r : ASTNode) (st1 : ParseState) (hexpr : ∀ e, expr = some e → shapeInvariant e)
    (h : finishDeclaration varName expr st = .ok (some r) st1) : shapeInvariant r := by
  unfold finishDeclaration at h
  split at h
  · simp at h
  · rcases expr with _ | e
    · simp only [PResult.ok.injEq, Option.some.injEq] at h
      obtain ⟨rfl, -⟩ := h
      exact shapeInvariant_mk _ _ _
        (by simp [shapeOk, childCountOk, ASTNode.nodeType, ASTNode.children]) (by simp)
    · simp only [PResult.ok.injEq, Option.some.injEq] at h
      obtain ⟨rfl, -⟩ := h
      refine shapeInvariant_mk _ _ _
        (by simp [shapeOk, childCountOk, ASTNode.nodeType, ASTNode.children]) ?_
      intro c hc
      simp at hc; subst hc
      exact hexpr c rfl

theorem parseDeclaration_shape (fuel : Nat) (st : ParseState) (r : ASTNode) (st1 : ParseState)
    (h : parseDeclaration fuel st = .ok (some r) st1) : shapeInvariant r := by
  unfold parseDeclaration at h
  simp only at h
  split at h
  · simp at h
  · split at h
    · simp at h
    · split at h
      · simp at h
      · split at h
        · rcases he : parseExpression fuel 0 (advance (advance (advance st))) with
            ⟨_ | e, st2⟩ | _ | _
          · simp [he] at h
          · simp only [he] at h
            refine finishDeclaration_shape _ _ _ _ _ ?_ h
            intro x hx
            simp only [Option.some.injEq] at hx; subst hx
            exact (parseExpression_shape _ _ _ _ _ he).1
          · simp [he] at h
          · simp [he] at h
        · exact finishDeclaration_shape _ _ _ _ _ (by simp) h

theorem blockLoop_shape (stmt : ParseState → PResult (Option ASTNode))
    (hstmt : ∀ st r st1, stmt st = .ok (some r) st1 → shapeInvariant r) :
    ∀ (fuel : Nat) (block : ASTNode) (st : ParseState) (r : ASTNode) (st1 : ParseState),
      block.nodeType = "Block" → shapeInvariant block →
      blockLoop stmt fuel block st = .ok r st1 →
      r.nodeType = "Block" ∧ shapeInvariant r := by
  intro fuel
  induction fuel with
  | zero => intro block st r st1 _ _ h; simp [blockLoop] at h
  | succ fuel ih =>
    intro block st r st1 hty hb h
    rw [blockLoop] at h
    split at h
    · rcases hs : stmt st with ⟨_ | s, st2⟩ | _ | _
      · simp only [hs] at h
        exact ih _ _ _ _ hty hb h
      · simp only [hs] at h
        have hadd := shapeInvariant_addChild block s (Or.inl hty) hb (hstmt _ _ _ hs)
        exact ih _ _ _ _ (hadd.2.trans hty) hadd.1 h
      · simp [hs] at h
      · simp [hs] at h
    · simp only [PResult.ok.injEq] at h
      obtain ⟨rfl, -⟩ := h
      exact ⟨hty, hb⟩

theorem shapeInvariant_emptyBlock : shapeInvariant (.mk "Block" "" []) :=
  shapeInvariant_mk _ _ _
    (shapeOk_other _ _ _ (by decide) (by decide) (by decide) (by decide)) (by simp)

theorem shapeOk_ifElse (v : String) (cs : List ASTNode) (h : ifElseChildrenOk cs) :
    shapeOk (.mk "IfElse" v cs) := by
  refine ⟨⟨fun h1 => ?_, fun h1 => ?_, fun _ => h.1, fun h1 => ?_⟩, fun _ => h⟩
  all_goals exact absurd (show "IfElse" = _ from h1) (by decide)

/-- The `IfElse` node built by `parseElse`: three children exactly when the
token after the then-block is `nhi-to`, two otherwise. -/
theorem parseElse_shape (stmt : ParseState → PResult (Option ASTNode))
    (hstmt : ∀ st r st1, stmt st = .ok (some r) st1 → shapeInvariant r)
    (fuel : Nat) (condition ifBlock : ASTNode) (st : ParseState) (r : ASTNode)
    (st1 : ParseState)
    (hc : shapeInvariant condition ∧ isExpressionNode condition)
    (hb : ifBlock.nodeType = "Block" ∧ shapeInvariant ifBlock)
    (h : parseElse stmt fuel condition ifBlock st = .ok (some r) st1) :
    shapeInvariant r ∧ r.nodeType = "IfElse" ∧
      (r.children.length = 3 ↔ (currentToken st).type = .NHI_TO) ∧
      (r.children.length = 2 ↔ (currentToken st).type ≠ .NHI_TO) := by
  unfold parseElse at h
  split at h
  · rename_i helse
    simp only at h
    split at h
    · simp at h
    · rcases hl : blockLoop stmt fuel (.mk "Block" "" []) (advance (advance st)) with
        ⟨elseBlock, st2⟩ | _ | _
      · simp only [hl] at h
        split at h
        · simp at h
        · simp only [PResult.ok.injEq, Option.some.injEq] at h
          obtain ⟨rfl, -⟩ := h
          have he := blockLoop_shape stmt hstmt _ (.mk "Block" "" []) _ _ _ rfl shapeInvariant_emptyBlock hl
          refine ⟨shapeInvariant_mk _ _ _ ?_ ?_, rfl, by simp [ASTNode.children, helse],
            by simp [ASTNode.children, helse]⟩
          · exact shapeOk_ifElse _ _ (by simp [ifElseChildrenOk, hc.2, hb.1, he.1])
          · intro c hmem
            simp at hmem
            rcases hmem with rfl | rfl | rfl
            · exact hc.1
            · exact hb.2
            · exact he.2
      · simp [hl] at h
      · simp [hl] at h
  · rename_i helse
    simp only [PResult.ok.injEq, Option.some.injEq] at h
    obtain ⟨rfl, -⟩ := h
    refine ⟨shapeInvariant_mk _ _ _ ?_ ?_, rfl, by simp [ASTNode.children, helse],
      by simp [ASTNode.children, helse]⟩
    · exact shapeOk_ifElse _ _ (by simp [ifElseChildrenOk, hc.2, hb.1])
    · intro c hmem
      simp at hmem
      rcases hmem with rfl | rfl
      · exact hc.1
      · exact hb.2

theorem parseIfElse_shape (stmt : ParseState → PResult (Option ASTNode))
    (hstmt : ∀ st r st1, stmt st = .ok (some r) st1 → shapeInvariant r)
    (fuel : Nat) (st : ParseState) (r : ASTNode) (st1 : ParseState)
    (h : parseIfElse stmt fuel st = .ok (some r) st1) : shapeInvariant r := by
  unfold parseIfElse at h
  simp only at h
  split at h
  · simp at h
  · rcases he : parseExpression fuel 0 (advance (advance st)) with ⟨_ | cond, st2⟩ | _ | _
    · simp [he] at h
    · simp only [he] at h
      split at h
      · simp at h
      · split at h
        · simp at h
        · rcases hl : blockLoop stmt fuel (.mk "Block" "" []) (advance (advance st2)) with
            ⟨ifBlock, st3⟩ | _ | _
          · simp only [hl] at h
            split at h
            · simp at h
            · exact (parseElse_shape stmt hstmt _ _ _ _ _ _
                (parseExpression_shape _ _ _ _ _ he)
                (blockLoop_shape stmt hstmt _ (.mk "Block" "" []) _ _ _ rfl shapeInvariant_emptyBlock hl) h).1
          · simp [hl] at h
          · simp [hl] at h
    · simp [he] at h
    · simp [he] at h

theorem parseStatement_shape :
    ∀ (fuel : Nat) (st : ParseState) (r : ASTNode) (st1 : ParseState),
      parseStatement fuel st = .ok (some r) st1 → shapeInvariant r := by
  intro fuel
  induction fuel with
  | zero => intro st r st1 h; simp [parseStatement] at h
  | succ fuel ih =>
    intro st r st1 h
    rw [parseStatement] at h
    split at h
    · exact parseDeclaration_shape _ _ _ _ h
    · split at h
      · exact parsePrint_shape _ _ _ _ h
      · split at h
        · exact parseIfElse_shape _ ih _ _ _ _ h
        · split at h
          · exact parseReturn_shape _ _ _ _ h
          · simp at h

theorem programLoop_shape (stmt : ParseState → PResult (Option ASTNode))
    (hstmt : ∀ st r st1, stmt st = .ok (some r) st1 → shapeInvariant r) :
    ∀ (fuel : Nat) (program : ASTNode) (st : ParseState) (r : ASTNode) (st1 : ParseState),
      program.nodeType = "Program" → shapeInvariant program →
      programLoop stmt fuel program st = .ok r st1 →
      r.nodeType = "Program" ∧ shapeInvariant r := by
  intro fuel
  induction fuel with
  | zero => intro program st r st1 _ _ h; simp [programLoop] at h
  | succ fuel ih =>
    intro program st r st1 hty hb h
    rw [programLoop] at h
    split at h
    · rcases hs : stmt st with ⟨_ | s, st2⟩ | _ | _
      · simp only [hs] at h
        exact ih _ _ _ _ hty hb h
      · simp only [hs] at h
        have hadd := shapeInvariant_addChild program s (Or.inr hty) hb (hstmt _ _ _ hs)
        exact ih _ _ _ _ (hadd.2.trans hty) hadd.1 h
      · simp [hs] at h
      · simp [hs] at h
    · simp only [PResult.ok.injEq] at h
      obtain ⟨rfl, -⟩ := h
      exact ⟨hty, hb⟩

theorem parseProgram_shape (tokens : List Token) (errors : List String) (ast : ASTNode)
    (st : ParseState) (h : parseProgram tokens errors = .ok ast st) :
    ast.nodeType = "Program" ∧ shapeInvariant ast :=
  programLoop_shape _ (parseStatement_shape _) _ (.mk "Program" "" []) _ _ _ rfl
    (shapeInvariant_mk _ _ _
      (shapeOk_other _ _ _ (by decide) (by decide) (by decide) (by decide)) (by simp)) h

/-- C14. The shape of parsed trees. Whenever `parseProgram` returns a tree
(for every token list and whatever diagnostics it records, so in particular for
a stream that ends in `END` and parses without a diagnostic), every node of the
tree is such that a `Declaration` has 0 or 1 children, a `BinaryExpr` exactly
2, a `Return` exactly 1, and an `IfElse` either an expression and a `Block`, or
an expression and two `Block`s. The `IfElse` node is built after the then-block
has been closed, and it gets 3 children exactly when the token that follows is
`nhi-to`, that is, when an else-branch was written, and 2 exactly when it is
not. The source `conditionalSample` shows both. -/
theorem parsed_tree_shape (tokens : List Token) (ast : ASTNode) (st : ParseState)
    (h : parseProgram tokens [] = .ok ast st) :
    (∀ n ∈ preorder ast,
      (n.nodeType = "Declaration" → n.children.length = 0 ∨ n.children.length = 1) ∧
      (n.nodeType = "BinaryExpr" → n.children.length = 2) ∧
      (n.nodeType = "Return" → n.children.length = 1) ∧
      (n.nodeType = "IfElse" →
        (∃ c t, n.children = [c, t] ∧ isExpressionNode c ∧ t.nodeType = "Block") ∨
        (∃ c t e, n.children = [c, t, e] ∧ isExpressionNode c ∧ t.nodeType = "Block" ∧
          e.nodeType = "Block"))) ∧
    (∀ (fuel : Nat) (condition ifBlock node : ASTNode) (st1 st2 : ParseState),
      parseElse (parseStatement fuel) fuel condition ifBlock st1 = .ok (some node) st2 →
        node.nodeType = "IfElse" ∧
        (node.children.length = 3 ↔ (currentToken st1).type = .NHI_TO) ∧
        (node.children.length = 2 ↔ (currentToken st1).type ≠ .NHI_TO)) ∧
    parseSource conditionalSample =
      some (.mk "Program" "" [
        .mk "Declaration" "a" [.mk "NumberLiteral" "5" []],
        .mk "IfElse" "" [
          .mk "BinaryExpr" ">" [.mk "Identifier" "a" [], .mk "NumberLiteral" "3" []],
          .mk "Block" "" [.mk "Return" "" [.mk "BinaryExpr" "+"
            [.mk "Identifier" "a" [], .mk "NumberLiteral" "1" []]]]],
        .mk "IfElse" "" [
          .mk "Identifier" "a" [],
          .mk "Block" "" [.mk "Declaration" "b" []],
          .mk "Block" "" [.mk "Print" "" [.mk "Identifier" "a" []]]]]) := by
  refine ⟨?_, ?_, by decide!⟩
  · intro n hn
    obtain ⟨⟨hd, hb, hi, hr⟩, hk⟩ := (parseProgram_shape tokens [] ast st h).2 n hn
    refine ⟨fun hty => ?_, hb, hr, fun hty => ?_⟩
    · have := hd hty
      omega
    · obtain ⟨hlen, h0, h1, h2⟩ := hk hty
      rcases hcs : n.children with _ | ⟨c, _ | ⟨t, _ | ⟨e, _ | ⟨x, rest⟩⟩⟩⟩
      · simp [hcs] at hlen
      · simp [hcs] at hlen
      · rw [hcs] at h0 h1
        exact Or.inl ⟨c, t, rfl, h0 c rfl, h1 t rfl⟩
      · rw [hcs] at h0 h1 h2
        exact Or.inr ⟨c, t, e, rfl, h0 c rfl, h1 t rfl, h2 e rfl⟩
      · simp [hcs] at hlen
  · intro fuel condition ifBlock node st1 st2 hp
    unfold parseElse at hp
    split at hp
    · rename_i helse
      simp only at hp
      split at hp
      · simp at hp
      · rcases hl : blockLoop (parseStatement fuel) fuel (.mk "Block" "" [])
            (advance (advance st1)) with ⟨elseBlock, st3⟩ | _ | _
        · simp only [hl] at hp
          split at hp
          · simp at hp
          · simp only [PResult.ok.injEq, Option.some.injEq] at hp
            obtain ⟨rfl, -⟩ := hp
            exact ⟨rfl, by simp [ASTNode.children, helse], by simp [ASTNode.children, helse]⟩
        · simp [hl] at hp
        · simp [hl] at hp
    · rename_i helse
      simp only [PResult.ok.injEq, Option.some.injEq] at hp
      obtain ⟨rfl, -⟩ := hp
      exact ⟨rfl, by simp [ASTNode.children, helse], by simp [ASTNode.children, helse]⟩

/-- C14 at the tokens of `agar (a) { } nhi-to { prt(a); }`: the parse returns,
records no diagnostic, and the `IfElse` node has three children. -/
theorem parsed_tree_shape_witness :
    parseProgram conditionalTokens [] =
      .ok (.mk "Program" "" [.mk "IfElse" "" [.mk "Identifier" "a" [], .mk "Block" "" [],
          .mk "Block" "" [.mk "Print" "" [.mk "Identifier" "a" []]]]])
        ⟨[⟨.END, "", 1, 0⟩], []⟩ ∧
    ∀ n ∈ preorder (.mk "Program" "" [.mk "IfElse" "" [.mk "Identifier" "a" [],
        .mk "Block" "" [], .mk "Block" "" [.mk "Print" "" [.mk "Identifier" "a" []]]]]),
      (n.nodeType = "Declaration" → n.children.length = 0 ∨ n.children.length = 1) ∧
      (n.nodeType = "BinaryExpr" → n.children.length = 2) ∧
      (n.nodeType = "Return" → n.children.length = 1) ∧
      (n.nodeType = "IfElse" →
        (∃ c t, n.children = [c, t] ∧ isExpressionNode c ∧ t.nodeType = "Block") ∨
        (∃ c t e, n.children = [c, t, e] ∧ isExpressionNode c ∧ t.nodeType = "Block" ∧
          e.nodeType = "Block")) :=
  ⟨by decide!, (parsed_tree_shape conditionalTokens _ ⟨[⟨.END, "", 1, 0⟩], []⟩ (by decide!)).1⟩

/-! ## Reads of unbound names -/

theorem evaluateTraced_eq (ty v : String) (cs : List ASTNode) (vars : Vars) :
    evaluateTraced (.mk ty v cs) vars =
    if ty = "NumberLiteral" then
      match stoi v with
      | some n => (some (n, vars), [])
      | none => (none, [])
    else if ty = "Identifier" then
      match vars.find v with
      | some n => (some (n, vars), [])
      | none => (some (0, vars.set v 0), [v])
    else if ty = "BinaryExpr" then
      match cs with
      | l :: r :: _ =>
        match evaluateTraced l vars with
        | (some (left, vars1), reads1) =>
          match evaluateTraced r vars1 with
          | (some (right, vars2), reads2) =>
            match evalBinary v left right with
            | some n => (some (n, vars2), reads1 ++ reads2)
            | none => (none, reads1 ++ reads2)
          | (none, reads2) => (none, reads1 ++ reads2)
        | (none, reads1) => (none, reads1)
      | _ => (none, [])
    else (some (0, vars), []) := by
  rcases cs with _ | ⟨c, _ | ⟨t, rest⟩⟩ <;> rfl

theorem executeTraced_eq (ty v : String) (cs : List ASTNode) (st : RunState) :
    executeTraced (.mk ty v cs) st =
    if ty = "Program" then executeTracedAll cs st
    else if ty = "Declaration" then
      match cs with
      | c :: _ =>
        match evaluateTraced c st.vars with
        | (some (val, vars1), reads) => (some { st with vars := Vars.set vars1 v val }, reads)
        | (none, reads) => (none, reads)
      | [] => (none, [])
    else if ty = "Print" then
      match cs with
      | [] => (some st, [])
      | c :: _ =>
        if c.nodeType = "StringLiteral" then
          (some { st with output := st.output ++ [stripQuotes c.value] }, [])
        else
          match evaluateTraced c st.vars with
          | (some (val, vars1), reads) =>
            (some { vars := vars1, output := st.output ++ [toString val] }, reads)
          | (none, reads) => (none, reads)
    else if ty = "IfElse" then
      match cs with
      | [] => (none, [])
      | [c] =>
        match evaluateTraced c st.vars with
        | (some (cond, vars1), reads) =>
          if cond ≠ 0 then (none, reads) else (some { st with vars := vars1 }, reads)
        | (none, reads) => (none, reads)
      | [c, t] =>
        match evaluateTraced c st.vars with
        | (some (cond, vars1), reads) =>
          if cond ≠ 0 then
            ((executeTraced t { st with vars := vars1 }).1,
              reads ++ (executeTraced t { st with vars := vars1 }).2)
          else (some { st with vars := vars1 }, reads)
        | (none, reads) => (none, reads)
      | c :: t :: e :: _ =>
        match evaluateTraced c st.vars with
        | (some (cond, vars1), reads) =>
          if cond ≠ 0 then
            ((executeTraced t { st with vars := vars1 }).1,
              reads ++ (executeTraced t { st with vars := vars1 }).2)
          else
            ((executeTraced e { st with vars := vars1 }).1,
              reads ++ (executeTraced e { st with vars := vars1 }).2)
        | (none, reads) => (none, reads)
    else if ty = "Block" then executeTracedAll cs st
    else if ty = "Return" then
      match cs with
      | c :: _ =>
        match evaluateTraced c st.vars with
        | (some (val, vars1), reads) =>
          (some { vars := vars1, output := st.output ++ ["Return: " ++ toString val] }, reads)
        | (none, reads) => (none, reads)
      | [] => (none, [])
    else (some st, []) := by
  rcases cs with _ | ⟨c, _ | ⟨t, _ | ⟨e, rest⟩⟩⟩ <;> rfl

theorem executeTracedAll_nil (st : RunState) : executeTracedAll [] st = (some st, []) := rfl

theorem executeTracedAll_cons (c : ASTNode) (cs : List ASTNode) (st : RunState) :
    executeTracedAll (c :: cs) st =
      match executeTraced c st with
      | (some st1, reads) => ((executeTracedAll cs st1).1, reads ++ (executeTracedAll cs st1).2)
      | (none, reads) => (none, reads) := rfl

/-- Dropping the ghost list from `evaluateTraced` gives `evaluate`. -/
theorem evaluateTraced_erase (t : ASTNode) :
    ∀ vars, (evaluateTraced t vars).1 = evaluate t vars := by
  induction t using ASTNode.induct with
  | h ty v cs ih =>
    intro vars
    rw [evaluateTraced_eq, evaluate_eq]
    by_cases h0 : ty = "NumberLiteral"
    · rw [if_pos h0, if_pos h0]
      cases stoi v <;> rfl
    rw [if_neg h0, if_neg h0]
    by_cases h1 : ty = "Identifier"
    · rw [if_pos h1, if_pos h1]
      cases vars.find v <;> rfl
    rw [if_neg h1, if_neg h1]
    by_cases h2 : ty = "BinaryExpr"
    · rw [if_pos h2, if_pos h2]
      rcases cs with _ | ⟨l, _ | ⟨r, rest⟩⟩
      · rfl
      · rfl
      · simp only
        rw [← ih l (by simp) vars]
        rcases evaluateTraced l vars with ⟨_ | ⟨left, vars1⟩, r1⟩
        · rfl
        · simp only
          rw [← ih r (by simp) vars1]
          rcases evaluateTraced r vars1 with ⟨_ | ⟨right, vars2⟩, r2⟩
          · rfl
          · simp only
            cases evalBinary v left right <;> rfl
    rw [if_neg h2, if_neg h2]

/-- A name read while absent is the name of an `Identifier` node of the
expression. -/
theorem evaluateTraced_reads (t : ASTNode) :
    ∀ vars, ∀ n ∈ (evaluateTraced t vars).2, n ∈ identifierNames t := by
  induction t using ASTNode.induct with
  | h ty v cs ih =>
    intro vars n hn
    rw [evaluateTraced_eq] at hn
    by_cases h0 : ty = "NumberLiteral"
    · rw [if_pos h0] at hn
      cases hs : stoi v <;> simp [hs] at hn
    rw [if_neg h0] at hn
    by_cases h1 : ty = "Identifier"
    · rw [if_pos h1] at hn
      cases hf : vars.find v
      · simp only [hf, List.mem_singleton] at hn
        subst hn
        simp [identifierNames, preorder_eq, ASTNode.nodeType, h1, ASTNode.value]
      · simp [hf] at hn
    rw [if_neg h1] at hn
    by_cases h2 : ty = "BinaryExpr"
    · rw [if_pos h2] at hn
      rcases cs with _ | ⟨l, _ | ⟨r, rest⟩⟩
      · simp at hn
      · simp at hn
      · simp only at hn
        have hl := ih l (by simp) vars
        rcases hel : evaluateTraced l vars with ⟨_ | ⟨left, vars1⟩, r1⟩
        · simp only [hel] at hn hl
          exact identifierNames_mk _ _ _ l (by simp) n (hl n hn)
        · simp only [hel] at hn hl
          have hr := ih r (by simp) vars1
          have hmem : n ∈ r1 ++ (evaluateTraced r vars1).2 := by
            rcases her : evaluateTraced r vars1 with ⟨_ | ⟨right, vars2⟩, r2⟩
            · simpa [her] using hn
            · simp only [her] at hn
              cases heb : evalBinary v left right <;> simpa [heb] using hn
          rcases List.mem_append.1 hmem with h | h
          · exact identifierNames_mk _ _ _ l (by simp) n (hl n h)
          · exact identifierNames_mk _ _ _ r (by simp) n (hr n h)
    rw [if_neg h2] at hn
    simp at hn

/-- An expression whose identifiers are all bound reads no absent name. -/
theorem evaluateTraced_bound (t : ASTNode) (vars : Vars)
    (hb : ∀ n ∈ identifierNames t, (vars.find n).isSome) :
    (evaluateTraced t vars).2 = [] := by
  revert vars
  induction t using ASTNode.induct with
  | h ty v cs ih =>
    intro vars hb
    rw [evaluateTraced_eq]
    by_cases h0 : ty = "NumberLiteral"
    · rw [if_pos h0]
      cases stoi v <;> rfl
    rw [if_neg h0]
    by_cases h1 : ty = "Identifier"
    · rw [if_pos h1]
      have := hb v (by
        simp [identifierNames, preorder_eq, ASTNode.nodeType, h1, ASTNode.value])
      cases hf : vars.find v
      · simp [hf] at this
      · rfl
    rw [if_neg h1]
    by_cases h2 : ty = "BinaryExpr"
    · rw [if_pos h2]
      rcases cs with _ | ⟨l, _ | ⟨r, rest⟩⟩
      · rfl
      · rfl
      · simp only
        have hbl : ∀ n ∈ identifierNames l, (vars.find n).isSome :=
          fun n hn => hb n (identifierNames_mk _ _ _ l (by simp) n hn)
        have hbr : ∀ n ∈ identifierNames r, (vars.find n).isSome :=
          fun n hn => hb n (identifierNames_mk _ _ _ r (by simp) n hn)
        have hl := ih l (by simp) vars hbl
        have hel := evaluateTraced_erase l vars
        rcases hl1 : evaluateTraced l vars with ⟨_ | ⟨left, vars1⟩, r1⟩
        · rw [hl1] at hl
          exact hl
        · rw [hl1] at hl hel
          simp only at hl hel ⊢
          have hv : vars1 = vars := evaluate_bound l vars left vars1 hbl hel.symm
          subst hv
          have hr := ih r (by simp) vars1 hbr
          rcases hr1 : evaluateTraced r vars1 with ⟨_ | ⟨right, vars2⟩, r2⟩
          · rw [hr1] at hr
            simp only at hr ⊢
            rw [hl, hr]; rfl
          · rw [hr1] at hr
            simp only at hr ⊢
            cases evalBinary v left right <;> simp [hl, hr]
    rw [if_neg h2]

/-- Dropping the ghost list from `executeTraced` gives `execute`. -/
theorem executeTraced_erase (t : ASTNode) :
    ∀ st, (executeTraced t st).1 = execute t st := by
  induction t using ASTNode.induct with
  | h ty v cs ih =>
    intro st
    have hall : ∀ (l : List ASTNode), (∀ c ∈ l, c ∈ cs) → ∀ st,
        (executeTracedAll l st).1 = executeAll l st := by
      intro l
      induction l with
      | nil => intro _ st; rfl
      | cons c l ihl =>
        intro hsub st
        rw [executeTracedAll_cons, executeAll_cons, ← ih c (hsub c (by simp)) st]
        rcases executeTraced c st with ⟨_ | st1, r1⟩
        · rfl
        · exact ihl (fun x hx => hsub x (by simp [hx])) st1
    have hev : ∀ c vars, evaluate c vars = (evaluateTraced c vars).1 :=
      fun c vars => (evaluateTraced_erase c vars).symm
    rw [executeTraced_eq, execute_eq]
    by_cases h0 : ty = "Program"
    · rw [if_pos h0, if_pos h0]
      exact hall cs (fun _ h => h) st
    rw [if_neg h0, if_neg h0]
    by_cases h1 : ty = "Declaration"
    · rw [if_pos h1, if_pos h1]
      rcases cs with _ | ⟨c, rest⟩
      · rfl
      · simp only [hev]
        rcases evaluateTraced c st.vars with ⟨_ | ⟨val, vars1⟩, r1⟩ <;> rfl
    rw [if_neg h1, if_neg h1]
    by_cases h2 : ty = "Print"
    · rw [if_pos h2, if_pos h2]
      rcases cs with _ | ⟨c, rest⟩
      · rfl
      · simp only [hev]
        split
        · rfl
        · rcases evaluateTraced c st.vars with ⟨_ | ⟨val, vars1⟩, r1⟩ <;> rfl
    rw [if_neg h2, if_neg h2]
    by_cases h3 : ty = "IfElse"
    · rw [if_pos h3, if_pos h3]
      rcases cs with _ | ⟨c, _ | ⟨t, _ | ⟨e, rest⟩⟩⟩
      · rfl
      · simp only [hev]
        rcases evaluateTraced c st.vars with ⟨_ | ⟨val, vars1⟩, r1⟩
        · rfl
        · simp only
          split <;> rfl
      · simp only [hev]
        rcases evaluateTraced c st.vars with ⟨_ | ⟨val, vars1⟩, r1⟩
        · rfl
        · simp only
          split
          · exact ih t (by simp) _
          · rfl
      · simp only [hev]
        rcases evaluateTraced c st.vars with ⟨_ | ⟨val, vars1⟩, r1⟩
        · rfl
        · simp only
          split
          · exact ih t (by simp) _
          · exact ih e (by simp) _
    rw [if_neg h3, if_neg h3]
    by_cases h4 : ty = "Block"
    · rw [if_pos h4, if_pos h4]
      exact hall cs (fun _ h => h) st
    rw [if_neg h4, if_neg h4]
    by_cases h5 : ty = "Return"
    · rw [if_pos h5, if_pos h5]
      rcases cs with _ | ⟨c, rest⟩
      · rfl
      · simp only [hev]
        rcases evaluateTraced c st.vars with ⟨_ | ⟨val, vars1⟩, r1⟩ <;> rfl
    rw [if_neg h5, if_neg h5]

theorem noDeclaration_mk (ty v : String) (cs : List ASTNode)
    (h : noDeclaration (.mk ty v cs)) : ty ≠ "Declaration" ∧ ∀ c ∈ cs, noDeclaration c := by
  refine ⟨h (.mk ty v cs) (by simp [preorder_eq]), fun c hc n hn => h n ?_⟩
  rw [preorder_eq]
  exact List.mem_cons_of_mem _ ((mem_preorderAll n cs).mpr ⟨c, hc, hn⟩)

/-- A name read while absent during `execute` is the name of an `Identifier`
node of the tree. -/
theorem executeTraced_reads (t : ASTNode) :
    ∀ st, ∀ n ∈ (executeTraced t st).2, n ∈ identifierNames t := by
  induction t using ASTNode.induct with
  | h ty v cs ih =>
    intro st n hn
    have hall : ∀ (l : List ASTNode), (∀ c ∈ l, c ∈ cs) → ∀ st,
        ∀ n ∈ (executeTracedAll l st).2, n ∈ identifierNames (.mk ty v cs) := by
      intro l
      induction l with
      | nil => intro _ st n hn; simp [executeTracedAll_nil] at hn
      | cons c l ihl =>
        intro hsub st n hn
        rw [executeTracedAll_cons] at hn
        have hc := ih c (hsub c (by simp)) st
        rcases hec : executeTraced c st with ⟨_ | st1, r1⟩
        · simp only [hec] at hn hc
          exact identifierNames_mk _ _ _ c (hsub c (by simp)) n (hc n hn)
        · simp only [hec] at hn hc
          rcases List.mem_append.1 hn with h | h
          · exact identifierNames_mk _ _ _ c (hsub c (by simp)) n (hc n h)
          · exact ihl (fun x hx => hsub x (by simp [hx])) st1 n h
    have hexpr : ∀ c ∈ cs, ∀ vars, ∀ n ∈ (evaluateTraced c vars).2,
        n ∈ identifierNames (.mk ty v cs) :=
      fun c hc vars n hn => identifierNames_mk _ _ _ c hc n (evaluateTraced_reads c vars n hn)
    have hsub : ∀ c ∈ cs, ∀ st, ∀ n ∈ (executeTraced c st).2,
        n ∈ identifierNames (.mk ty v cs) :=
      fun c hc st n hn => identifierNames_mk _ _ _ c hc n (ih c hc st n hn)
    rw [executeTraced_eq] at hn
    by_cases h0 : ty = "Program"
    · rw [if_pos h0] at hn
      exact hall cs (fun _ h => h) st n hn
    rw [if_neg h0] at hn
    by_cases h1 : ty = "Declaration"
    · rw [if_pos h1] at hn
      rcases cs with _ | ⟨c, rest⟩
      · simp at hn
      · simp only at hn
        have := hexpr c (by simp) st.vars n
        rcases hec : evaluateTraced c st.vars with ⟨_ | ⟨val, vars1⟩, r1⟩ <;>
          simp only [hec] at hn this <;> exact this hn
    rw [if_neg h1] at hn
    by_cases h2 : ty = "Print"
    · rw [if_pos h2] at hn
      rcases cs with _ | ⟨c, rest⟩
      · simp at hn
      · simp only at hn
        split at hn
        · simp at hn
        · have := hexpr c (by simp) st.vars n
          rcases hec : evaluateTraced c st.vars with ⟨_ | ⟨val, vars1⟩, r1⟩ <;>
            simp only [hec] at hn this <;> exact this hn
    rw [if_neg h2] at hn
    by_cases h3 : ty = "IfElse"
    · rw [if_pos h3] at hn
      rcases cs with _ | ⟨c, _ | ⟨t, _ | ⟨e, rest⟩⟩⟩
      · simp at hn
      · simp only at hn
        have := hexpr c (by simp) st.vars n
        rcases hec : evaluateTraced c st.vars with ⟨_ | ⟨val, vars1⟩, r1⟩
        · simp only [hec] at hn this; exact this hn
        · simp only [hec] at hn this
          split at hn <;> exact this hn
      · simp only at hn
        have := hexpr c (by simp) st.vars n
        rcases hec : evaluateTraced c st.vars with ⟨_ | ⟨val, vars1⟩, r1⟩
        · simp only [hec] at hn this; exact this hn
        · simp only [hec] at hn this
          split at hn
          · rcases List.mem_append.1 hn with h | h
            · exact this h
            · exact hsub t (by simp) _ n h
          · exact this hn
      · simp only at hn
        have := hexpr c (by simp) st.vars n
        rcases hec : evaluateTraced c st.vars with ⟨_ | ⟨val, vars1⟩, r1⟩
        · simp only [hec] at hn this; exact this hn
        · simp only [hec] at hn this
          split at hn
          · rcases List.mem_append.1 hn with h | h
            · exact this h
            · exact hsub t (by simp) _ n h
          · rcases List.mem_append.1 hn with h | h
            · exact this h
            · exact hsub e (by simp) _ n h
    rw [if_neg h3] at hn
    by_cases h4 : ty = "Block"
    · rw [if_pos h4] at hn
      exact hall cs (fun _ h => h) st n hn
    rw [if_neg h4] at hn
    by_cases h5 : ty = "Return"
    · rw [if_pos h5] at hn
      rcases cs with _ | ⟨c, rest⟩
      · simp at hn
      · simp only at hn
        have := hexpr c (by simp) st.vars n
        rcases hec : evaluateTraced c st.vars with ⟨_ | ⟨val, vars1⟩, r1⟩ <;>
          simp only [hec] at hn this <;> exact this hn
    rw [if_neg h5] at hn
    simp at hn

theorem evaluateTraced_bound_vars (c : ASTNode) (vars : Vars)
    (hb : ∀ n ∈ identifierNames c, (vars.find n).isSome) :
    (evaluateTraced c vars).2 = [] ∧
      ∀ val vars1, (evaluateTraced c vars).1 = some (val, vars1) → vars1 = vars :=
  ⟨evaluateTraced_bound c vars hb, fun val vars1 h =>
    evaluate_bound c vars val vars1 hb ((evaluateTraced_erase c vars).symm.trans h)⟩

/-- A statement that holds no `Declaration` and whose identifiers are all
bound reads no absent name and leaves the variable map as it was. -/
theorem executeTraced_noDeclaration (t : ASTNode) :
    ∀ st, noDeclaration t → (∀ n ∈ identifierNames t, (st.vars.find n).isSome) →
      (executeTraced t st).2 = [] ∧
        ∀ st1, (executeTraced t st).1 = some st1 → st1.vars = st.vars := by
  induction t using ASTNode.induct with
  | h ty v cs ih =>
    intro st hnd hb
    obtain ⟨hty, hndc⟩ := noDeclaration_mk ty v cs hnd
    have hbc : ∀ c ∈ cs, ∀ n ∈ identifierNames c, (st.vars.find n).isSome :=
      fun c hc n hn => hb n (identifierNames_mk _ _ _ c hc n hn)
    have hall : ∀ (l : List ASTNode), (∀ c ∈ l, c ∈ cs) → ∀ st0, st0.vars = st.vars →
        (executeTracedAll l st0).2 = [] ∧
          ∀ st1, (executeTracedAll l st0).1 = some st1 → st1.vars = st.vars := by
      intro l
      induction l with
      | nil =>
        intro _ st0 h0
        refine ⟨rfl, fun st1 h => ?_⟩
        simp only [executeTracedAll_nil, Option.some.injEq] at h
        rw [← h, h0]
      | cons c l ihl =>
        intro hsub st0 h0
        have hc := ih c (hsub c (by simp)) st0 (hndc c (hsub c (by simp)))
          (by rw [h0]; exact hbc c (hsub c (by simp)))
        rw [executeTracedAll_cons]
        rcases hec : executeTraced c st0 with ⟨_ | st2, r1⟩
        · rw [hec] at hc
          exact ⟨hc.1, fun st1 h => by simp at h⟩
        · rw [hec] at hc
          simp only at hc ⊢
          have h2 : st2.vars = st.vars := (hc.2 st2 rfl).trans h0
          have hrest := ihl (fun x hx => hsub x (by simp [hx])) st2 h2
          exact ⟨by rw [hc.1, hrest.1]; rfl, hrest.2⟩
    have hexpr : ∀ c ∈ cs, (evaluateTraced c st.vars).2 = [] ∧
        ∀ val vars1, (evaluateTraced c st.vars).1 = some (val, vars1) → vars1 = st.vars :=
      fun c hc => evaluateTraced_bound_vars c st.vars (hbc c hc)
    have hsub : ∀ c ∈ cs, ∀ st0, st0.vars = st.vars → (executeTraced c st0).2 = [] ∧
        ∀ st1, (executeTraced c st0).1 = some st1 → st1.vars = st.vars :=
      fun c hc st0 h0 => by
        have := ih c hc st0 (hndc c hc) (by rw [h0]; exact hbc c hc)
        exact ⟨this.1, fun st1 h => (this.2 st1 h).trans h0⟩
    rw [executeTraced_eq]
    by_cases h0 : ty = "Program"
    · rw [if_pos h0]
      exact hall cs (fun _ h => h) st rfl
    rw [if_neg h0, if_neg hty]
    by_cases h2 : ty = "Print"
    · rw [if_pos h2]
      rcases cs with _ | ⟨c, rest⟩
      · exact ⟨rfl, fun st1 h => by simp at h; rw [← h]⟩
      · simp only
        split
        · exact ⟨rfl, fun st1 h => by simp at h; rw [← h]⟩
        · have := hexpr c (by simp)
          rcases hec : evaluateTraced c st.vars with ⟨_ | ⟨val, vars1⟩, r1⟩
          · rw [hec] at this
            exact ⟨this.1, fun st1 h => by simp at h⟩
          · rw [hec] at this
            refine ⟨this.1, fun st1 h => ?_⟩
            simp only [Option.some.injEq] at h
            rw [← h]
            exact this.2 val vars1 rfl
    rw [if_neg h2]
    by_cases h3 : ty = "IfElse"
    · rw [if_pos h3]
      rcases cs with _ | ⟨c, _ | ⟨t, _ | ⟨e, rest⟩⟩⟩
      · exact ⟨rfl, fun st1 h => by simp at h⟩
      · simp only
        have := hexpr c (by simp)
        rcases hec : evaluateTraced c st.vars with ⟨_ | ⟨val, vars1⟩, r1⟩
        · rw [hec] at this
          exact ⟨this.1, fun st1 h => by simp at h⟩
        · rw [hec] at this
          simp only
          split
          · exact ⟨this.1, fun st1 h => by simp at h⟩
          · refine ⟨this.1, fun st1 h => ?_⟩
            simp only [Option.some.injEq] at h
            rw [← h]
            exact this.2 val vars1 rfl
      · simp only
        have := hexpr c (by simp)
        rcases hec : evaluateTraced c st.vars with ⟨_ | ⟨val, vars1⟩, r1⟩
        · rw [hec] at this
          exact ⟨this.1, fun st1 h => by simp at h⟩
        · rw [hec] at this
          simp only at this ⊢
          split
          · have ht := hsub t (by simp) { st with vars := vars1 } (this.2 val vars1 rfl)
            exact ⟨by rw [this.1, ht.1]; rfl, ht.2⟩
          · refine ⟨this.1, fun st1 h => ?_⟩
            simp only [Option.some.injEq] at h
            rw [← h]
            exact this.2 val vars1 rfl
      · simp only
        have := hexpr c (by simp)
        rcases hec : evaluateTraced c st.vars with ⟨_ | ⟨val, vars1⟩, r1⟩
        · rw [hec] at this
          exact ⟨this.1, fun st1 h => by simp at h⟩
        · rw [hec] at this
          simp only at this ⊢
          split
          · have ht := hsub t (by simp) { st with vars := vars1 } (this.2 val vars1 rfl)
            exact ⟨by rw [this.1, ht.1]; rfl, ht.2⟩
          · have ht := hsub e (by simp) { st with vars := vars1 } (this.2 val vars1 rfl)
            exact ⟨by rw [this.1, ht.1]; rfl, ht.2⟩
    rw [if_neg h3]
    by_cases h4 : ty = "Block"
    · rw [if_pos h4]
      exact hall cs (fun _ h => h) st rfl
    rw [if_neg h4]
    by_cases h5 : ty = "Return"
    · rw [if_pos h5]
      rcases cs with _ | ⟨c, rest⟩
      · exact ⟨rfl, fun st1 h => by simp at h⟩
      · simp only
        have := hexpr c (by simp)
        rcases hec : evaluateTraced c st.vars with ⟨_ | ⟨val, vars1⟩, r1⟩
        · rw [hec] at this
          exact ⟨this.1, fun st1 h => by simp at h⟩
        · rw [hec] at this
          refine ⟨this.1, fun st1 h => ?_⟩
          simp only [Option.some.injEq] at h
          rw [← h]
          exact this.2 val vars1 rfl
    rw [if_neg h5]
    exact ⟨rfl, fun st1 h => by simp at h; rw [← h]⟩

theorem semStep_errors_nil (sem : SemState) (n : ASTNode)
    (h : (semStep sem n).errors = []) : sem.errors = [] := by
  unfold semStep at h
  split at h
  · unfold declare at h
    split at h
    · simp at h
    · exact h
  · split at h
    · unfold checkUse at h
      split at h
      · exact h
      · simp at h
    · exact h

theorem foldl_semStep_errors_nil (nodes : List ASTNode) (sem : SemState)
    (h : (nodes.foldl semStep sem).errors = []) : sem.errors = [] := by
  induction nodes generalizing sem with
  | nil => exact h
  | cons n nodes ih => exact semStep_errors_nil sem n (ih _ h)

theorem semStep_symbolTable_subset (sem : SemState) (n : ASTNode) :
    ∀ x ∈ sem.symbolTable, x ∈ (semStep sem n).symbolTable := by
  intro x hx
  unfold semStep
  split
  · unfold declare
    split
    · exact hx
    · simp [hx]
  · split
    · unfold checkUse
      split <;> exact hx
    · exact hx

theorem foldl_semStep_symbolTable_subset (nodes : List ASTNode) (sem : SemState) :
    ∀ x ∈ sem.symbolTable, x ∈ (nodes.foldl semStep sem).symbolTable := by
  induction nodes generalizing sem with
  | nil => intro x hx; exact hx
  | cons n nodes ih =>
    intro x hx
    exact ih _ x (semStep_symbolTable_subset sem n x hx)

/-- After a pass without diagnostic every identifier of the pass is in the
final symbol table. -/
theorem foldl_semStep_identifiers (nodes : List ASTNode) (sem : SemState)
    (h : (nodes.foldl semStep sem).errors = []) :
    ∀ n ∈ nodes, n.nodeType = "Identifier" →
      n.value ∈ (nodes.foldl semStep sem).symbolTable := by
  induction nodes generalizing sem with
  | nil => intro n hn; simp at hn
  | cons m nodes ih =>
    intro n hn hty
    rcases List.mem_cons.1 hn with rfl | hn
    · have h1 : (semStep sem n).errors = [] := foldl_semStep_errors_nil nodes _ h
      have hmem : n.value ∈ (semStep sem n).symbolTable := by
        have hnd : n.nodeType ≠ "Declaration" := by rw [hty]; decide
        have hs : semStep sem n = checkUse n.value sem := by
          unfold semStep
          rw [if_neg hnd, if_pos hty]
        rw [hs] at h1 ⊢
        by_cases hin : n.value ∈ sem.symbolTable
        · simp [checkUse, hin]
        · simp [checkUse, hin] at h1
      exact foldl_semStep_symbolTable_subset nodes _ _ hmem
    · exact ih _ h n hn hty

/-- A pass without diagnostic over nodes that hold no `Declaration` leaves the
symbol table as it was, and every identifier of the pass is in it. -/
theorem foldl_semStep_noDeclaration_table (nodes : List ASTNode) (sem : SemState)
    (hnd : ∀ n ∈ nodes, n.nodeType ≠ "Declaration")
    (h : (nodes.foldl semStep sem).errors = []) :
    (nodes.foldl semStep sem).symbolTable = sem.symbolTable ∧
      ∀ n ∈ nodes, n.nodeType = "Identifier" → n.value ∈ sem.symbolTable := by
  have htab : ∀ (l : List ASTNode) (s : SemState), (∀ n ∈ l, n.nodeType ≠ "Declaration") →
      (l.foldl semStep s).symbolTable = s.symbolTable := by
    intro l
    induction l with
    | nil => intro s _; rfl
    | cons m l ih =>
      intro s hl
      have hm := hl m (by simp)
      have : (semStep s m).symbolTable = s.symbolTable := by
        simp only [semStep, if_neg hm, checkUse]
        split
        · split <;> rfl
        · rfl
      rw [List.foldl_cons, ih _ (fun n hn => hl n (by simp [hn])), this]
  refine ⟨htab nodes sem hnd, fun n hn hty => ?_⟩
  have := foldl_semStep_identifiers nodes sem h n hn hty
  rwa [htab nodes sem hnd] at this

theorem identifierNames_mem (t : ASTNode) (x : String) :
    x ∈ identifierNames t ↔ ∃ n ∈ preorder t, n.nodeType = "Identifier" ∧ n.value = x := by
  simp [identifierNames, and_assoc]

/-- The statements of a checked program whose declarations run unconditionally
read no absent name, from any state that binds the names of the symbol
table. -/
theorem executeTracedAll_checked (stmts : List ASTNode)
    (htop : ∀ s ∈ stmts, noDeclaration s ∨
      (s.nodeType = "Declaration" ∧
        ∀ c ∈ s.children, noDeclaration c ∧ s.value ∉ identifierNames c)) :
    ∀ (sem : SemState) (st : RunState),
      ((preorderAll stmts).foldl semStep sem).errors = [] →
      (∀ n ∈ sem.symbolTable, (st.vars.find n).isSome) →
      (executeTracedAll stmts st).2 = [] := by
  induction stmts with
  | nil => intro sem st _ _; rfl
  | cons s rest ih =>
    intro sem st herr hbound
    have ihr := ih (fun x hx => htop x (by simp [hx]))
    rw [preorderAll_cons, List.foldl_append] at herr
    have herr1 : ((preorder s).foldl semStep sem).errors = [] :=
      foldl_semStep_errors_nil _ _ herr
    rw [executeTracedAll_cons]
    rcases htop s (by simp) with hnd | ⟨hty, hch⟩
    · obtain ⟨htab, hids⟩ := foldl_semStep_noDeclaration_table (preorder s) sem hnd herr1
      have hb : ∀ n ∈ identifierNames s, (st.vars.find n).isSome := by
        intro n hn
        obtain ⟨m, hm, hmty, rfl⟩ := (identifierNames_mem s n).1 hn
        exact hbound _ (hids m hm hmty)
      obtain ⟨hreads, hvars⟩ := executeTraced_noDeclaration s st hnd hb
      rcases hes : executeTraced s st with ⟨_ | st1, r1⟩
      · rw [hes] at hreads
        exact hreads
      · rw [hes] at hreads hvars
        simp only at hreads hvars ⊢
        rw [hreads, ihr _ st1 herr (by rw [htab, hvars st1 rfl]; exact hbound)]
        rfl
    · rcases s with ⟨ty, x, cs⟩
      simp only [ASTNode.nodeType] at hty
      subst hty
      simp only [ASTNode.children, ASTNode.value] at hch
      rw [preorder_eq, List.foldl_cons] at herr herr1
      have hstep : semStep sem (.mk "Declaration" x cs) = declare x sem := by
        simp [semStep, ASTNode.nodeType, ASTNode.value]
      rw [hstep] at herr herr1
      have herr0 : (declare x sem).errors = [] := foldl_semStep_errors_nil _ _ herr1
      have hx : x ∉ sem.symbolTable := by
        intro hin
        simp [declare, hin] at herr0
      have htab0 : (declare x sem).symbolTable = sem.symbolTable ++ [x] := by
        simp [declare, hx]
      have hndc : ∀ n ∈ preorderAll cs, n.nodeType ≠ "Declaration" := by
        intro n hn
        obtain ⟨c, hc, hnc⟩ := (mem_preorderAll n cs).1 hn
        exact (hch c hc).1 n hnc
      obtain ⟨htab, hids⟩ :=
        foldl_semStep_noDeclaration_table (preorderAll cs) (declare x sem) hndc herr1
      rw [executeTraced_eq, if_neg (by decide), if_pos rfl]
      rcases cs with _ | ⟨c, more⟩
      · rfl
      · simp only
        have hb : ∀ n ∈ identifierNames c, (st.vars.find n).isSome := by
          intro n hn
          obtain ⟨m, hm, hmty, rfl⟩ := (identifierNames_mem c _).1 hn
          have hin := hids m ((mem_preorderAll m _).2 ⟨c, by simp, hm⟩) hmty
          rw [htab0] at hin
          rcases List.mem_append.1 hin with h | h
          · exact hbound _ h
          · simp only [List.mem_singleton] at h
            exact absurd (h ▸ hn) (hch c (by simp)).2
        obtain ⟨hreads, hvars⟩ := evaluateTraced_bound_vars c st.vars hb
        rcases hec : evaluateTraced c st.vars with ⟨_ | ⟨val, vars1⟩, r1⟩
        · rw [hec] at hreads
          exact hreads
        · rw [hec] at hreads hvars
          simp only at hreads hvars ⊢
          have hv := hvars val vars1 rfl
          rw [hreads, ihr _ _ herr ?_]
          · rfl
          · intro n hn
            rw [htab, htab0] at hn
            simp only [Vars.find_set]
            by_cases hxn : x = n
            · simp [hxn]
            · rw [if_neg hxn, hv]
              rcases List.mem_append.1 hn with h | h
              · exact hbound _ h
              · simp only [List.mem_singleton] at h
                exact absurd h.symm hxn

/-- C15, refuted as stated: `val x = x;` and
`agar (0 > 1) { val y = 1; } prt(y);` tokenize, parse and pass the semantic
check without a diagnostic (the checker registers a name before it checks the
initializer, and keeps one table for all branches), and the interpreter then
evaluates an `Identifier` whose name is absent from its map: the zero default
is reached, and the second program prints it. -/
theorem checked_program_reads_absent_name :
    parseSource "val x = x;" =
      some (.mk "Program" "" [.mk "Declaration" "x" [.mk "Identifier" "x" []]]) ∧
    semanticAnalysis (.mk "Program" "" [.mk "Declaration" "x" [.mk "Identifier" "x" []]])
      ⟨[], []⟩ = some ⟨["x"], []⟩ ∧
    executeTraced (.mk "Program" "" [.mk "Declaration" "x" [.mk "Identifier" "x" []]])
      ⟨[], []⟩ = (some ⟨[("x", 0)], []⟩, ["x"]) ∧
    Vars.find [] "x" = none ∧
    evaluate (.mk "Identifier" "x" []) [] = some (0, [("x", 0)]) ∧
    (compile "val x = x;").map (fun r => (r.errors, r.symbolTable, r.output)) =
      some ([], .ran ["x"], .ran []) ∧
    (compile "agar (0 > 1) \x7b val y = 1; \x7d prt(y);").map
      (fun r => (r.errors, r.symbolTable, r.output)) = some ([], .ran ["y"], .ran ["0"]) ∧
    (parseSource "agar (0 > 1) \x7b val y = 1; \x7d prt(y);").map
      (fun t => executeTraced t ⟨[], []⟩) = some (some ⟨[("y", 0)], ["0"]⟩, ["y"]) := by
  refine ⟨?_, ?_, ?_, ?_, ?_, ?_, ?_, ?_⟩ <;> decide!

/-- C15, amended. For every tree with the parser's shape (child counts,
identifiers are leaves) on which semantic checking from an empty symbol table
records no diagnostic: the traced interpreter runs as `execute` does; every
name it reads while the name is absent from the variable map is in the symbol
table, that is, declared somewhere in the program; and when every
`Declaration` is a top-level statement of the `Program` whose initializer does
not mention the declared name, the interpreter evaluates no `Identifier` whose
name is absent from its variable map at that moment, up to the end of the run
or to a fault. -/
theorem checked_reads_are_bound (t : ASTNode) (table : List String)
    (hcount : childCountInvariant t) (hleaf : identifiersAreLeaves t)
    (hcheck : semanticAnalysis t ⟨[], []⟩ = some ⟨table, []⟩) :
    (executeTraced t ⟨[], []⟩).1 = execute t ⟨[], []⟩ ∧
    (∀ n ∈ (executeTraced t ⟨[], []⟩).2, n ∈ table) ∧
    (unconditionalDeclarations t → (executeTraced t ⟨[], []⟩).2 = []) := by
  rw [semanticAnalysis_flat t hcount hleaf] at hcheck
  simp only [Option.some.injEq] at hcheck
  have herr : ((preorder t).foldl semStep ⟨[], []⟩).errors = [] := by rw [hcheck]
  have htab : ((preorder t).foldl semStep ⟨[], []⟩).symbolTable = table := by rw [hcheck]
  refine ⟨executeTraced_erase t _, fun n hn => ?_, fun htop => ?_⟩
  · obtain ⟨m, hm, hmty, rfl⟩ :=
      (identifierNames_mem t n).1 (executeTraced_reads t _ n hn)
    rw [← htab]
    exact foldl_semStep_identifiers _ _ herr m hm hmty
  · obtain ⟨hty, hstm⟩ := htop
    rcases t with ⟨ty, v, stmts⟩
    simp only [ASTNode.nodeType] at hty
    subst hty
    simp only [ASTNode.children] at hstm
    rw [preorder_eq, List.foldl_cons] at herr
    have hstep : semStep ⟨[], []⟩ (.mk "Program" v stmts) = ⟨[], []⟩ := by
      simp [semStep, ASTNode.nodeType]
    rw [hstep] at herr
    rw [executeTraced_eq, if_pos rfl]
    exact executeTracedAll_checked stmts hstm ⟨[], []⟩ ⟨[], []⟩ herr (by simp)

/-- C15 amended, at the tree of
`val a = 1; val b = a + 1; agar (a < b) { prt(a); } nhi-to { prt(b); } bhejo a + b;`. -/
theorem checked_reads_are_bound_witness :
    parseSource
        "val a = 1; val b = a + 1; agar (a < b) \x7b prt(a); \x7d nhi-to \x7b prt(b); \x7d bhejo a + b;" =
      some boundReadsSample ∧
    semanticAnalysis boundReadsSample ⟨[], []⟩ = some ⟨["a", "b"], []⟩ ∧
    unconditionalDeclarations boundReadsSample ∧
    execute boundReadsSample ⟨[], []⟩ = some ⟨[("a", 1), ("b", 2)], ["1", "Return: 3"]⟩ ∧
    (executeTraced boundReadsSample ⟨[], []⟩).2 = [] :=
  ⟨by decide!, by decide!, by decide!, by decide!,
    (checked_reads_are_bound boundReadsSample ["a", "b"] (by decide!) (by decide!)
      (by decide!)).2.2 (by decide!)⟩

/-! ## The result register -/

theorem binaryAsm_arithmetic (op : BinOp) (l r : String)
    (h : op = .add ∨ op = .sub ∨ op = .mul ∨ op = .div) :
    (binaryAsm op.symbol l r).2 = l := by
  rcases h with rfl | rfl | rfl | rfl <;> simp [binaryAsm, BinOp.symbol]

/-- The code of an arithmetic expression starts with the load of its leftmost
leaf into the register the counter selects, and that register is returned. -/
theorem generateAssembly_arithmetic (e : Expr) (h : e.arithmetic) (code : List String)
    (c : Nat) :
    ∃ more, generateAssembly e.toAST code c =
      some (getRegister c,
        code ++ ("mov " ++ getRegister c ++ ", " ++ e.leftmost) :: more,
        c + e.leaves.length) := by
  induction e generalizing code c with
  | num digits =>
    exact ⟨[], by simp [Expr.toAST, generateAssembly_eq, Expr.leaves, Expr.leftmost]⟩
  | var name =>
    exact ⟨[], by simp [Expr.toAST, generateAssembly_eq, Expr.leaves, Expr.leftmost]⟩
  | bin op l r ihl ihr =>
    obtain ⟨hop, hl, hr⟩ := h
    obtain ⟨ml, hgl⟩ := ihl hl code c
    obtain ⟨mr, hgr⟩ := ihr hr
      (code ++ ("mov " ++ getRegister c ++ ", " ++ l.leftmost) :: ml) (c + l.leaves.length)
    refine ⟨ml ++ ("mov " ++ getRegister (c + l.leaves.length) ++ ", " ++ r.leftmost) :: mr ++
      (binaryAsm op.symbol (getRegister c) (getRegister (c + l.leaves.length))).1, ?_⟩
    have hne : ¬("BinaryExpr" = "NumberLiteral" ∨ "BinaryExpr" = "Identifier") := by decide
    rw [Expr.toAST, generateAssembly_eq, if_neg hne, if_pos rfl]
    simp only [hgl, hgr, binaryAsm_arithmetic op _ _ hop, Expr.leaves, Expr.leftmost,
      List.length_append]
    simp [Nat.add_assoc]

/-- C23. The result register of arithmetic expressions. For every expression
built from `Identifier` and `NumberLiteral` leaves and `BinaryExpr` nodes with
the operators `+ - * /`, `generateAssembly` started with register counter `c`
returns; its first line loads the leftmost leaf into the (c mod 4)-th of `eax`,
`ebx`, `ecx`, `edx`, that register is the one it returns, and the counter grows
by exactly the number of leaves. Hence a `Declaration` with such an initializer
ends its code with `mov <name>, eax`, a `Return` of such an expression ends
with `mov eax, eax` followed by `ret`, and both return the register counter
they were called with. -/
theorem arithmetic_result_register (e : Expr) (h : e.arithmetic) (code : List String)
    (c : Nat) (name payload : String) (rest : List ASTNode) :
    (∃ more, generateAssembly e.toAST code c =
      some (registerNames.getD (c % 4) "",
        code ++ ("mov " ++ registerNames.getD (c % 4) "" ++ ", " ++ e.leftmost) :: more,
        c + e.leaves.length)) ∧
    e.leaves.head? = some e.leftmost ∧
    (∃ new, generateAssembly (.mk "Declaration" name (e.toAST :: rest)) code c =
      some ("", code ++ new ++ ["mov " ++ name ++ ", eax"], c)) ∧
    (∃ new, generateAssembly (.mk "Return" payload (e.toAST :: rest)) code c =
      some ("", code ++ new ++ ["mov eax, eax", "ret"], c)) := by
  have hhead : ∀ x : Expr, x.leaves.head? = some x.leftmost := by
    intro x
    induction x with
    | num digits => rfl
    | var name => rfl
    | bin op l r ihl _ =>
      simp only [Expr.leaves, Expr.leftmost]
      cases hl : l.leaves with
      | nil => simp [hl] at ihl
      | cons a as => simpa [hl] using ihl
  obtain ⟨m0, h0⟩ := generateAssembly_arithmetic e h code 0
  have heax : getRegister 0 = "eax" := rfl
  rw [heax] at h0
  refine ⟨generateAssembly_arithmetic e h code c, hhead e, ?_, ?_⟩
  · refine ⟨("mov eax, " ++ e.leftmost) :: m0, ?_⟩
    rw [generateAssembly_eq]
    simp [h0]
    rw [String.append_assoc]
    rfl
  · refine ⟨("mov eax, " ++ e.leftmost) :: m0, ?_⟩
    rw [generateAssembly_eq]
    simp [h0]

/-- C23 at `(a + 2) * b / 4` with register counter 5: the leftmost leaf `a` is
loaded into `ebx`, which is returned, and the counter becomes 9. -/
theorem arithmetic_result_register_witness :
    (Expr.bin .div (.bin .mul (.bin .add (.var "a") (.num ['2'])) (.var "b"))
      (.num ['4'])).arithmetic ∧
    generateAssembly (Expr.bin .div (.bin .mul (.bin .add (.var "a") (.num ['2'])) (.var "b"))
        (.num ['4'])).toAST [] 5 =
      some ("ebx", ["mov ebx, a", "mov ecx, 2", "add ebx, ecx", "mov edx, b", "imul ebx, edx",
        "mov eax, 4", "cdq", "idiv eax"], 9) ∧
    ∃ new, generateAssembly (.mk "Declaration" "x"
        [(Expr.bin .div (.bin .mul (.bin .add (.var "a") (.num ['2'])) (.var "b"))
          (.num ['4'])).toAST]) ["nop"] 5 =
      some ("", ["nop"] ++ new ++ ["mov x, eax"], 5) :=
  ⟨by decide, by decide!,
    (arithmetic_result_register
      (.bin .div (.bin .mul (.bin .add (.var "a") (.num ['2'])) (.var "b")) (.num ['4']))
      (by decide) ["nop"] 5 "x" "" []).2.2.1⟩

/-- C24, the failing input `val x = 1 < 2;`: for a `BinaryExpr` with a
comparison operator `generateAssembly` appends nothing after the loads of the
operands and returns the empty string, no register name; the `Declaration`
then emits `mov x, ` with no source operand, and a `Return` emits `mov eax, `.
The same expression with `+` gets its `add` line and returns `eax`. -/
theorem comparison_yields_no_register :
    parseSource "val x = 1 < 2;" =
      some (.mk "Program" "" [.mk "Declaration" "x" [.mk "BinaryExpr" "<"
        [.mk "NumberLiteral" "1" [], .mk "NumberLiteral" "2" []]]]) ∧
    generateAssembly (.mk "BinaryExpr" "<"
        [.mk "NumberLiteral" "1" [], .mk "NumberLiteral" "2" []]) [] 0 =
      some ("", ["mov eax, 1", "mov ebx, 2"], 2) ∧
    "" ∉ registerNames ∧
    (compile "val x = 1 < 2;").map (fun r => (r.errors, r.asmCode)) =
      some ([], .ran ["mov eax, 1", "mov ebx, 2", "mov x, "]) ∧
    (compile "bhejo 1 < 2;").map (fun r => (r.errors, r.asmCode)) =
      some ([], .ran ["mov eax, 1", "mov ebx, 2", "mov eax, ", "ret"]) ∧
    (compile "val x = 1 + 2;").map (fun r => (r.errors, r.asmCode)) =
      some ([], .ran ["mov eax, 1", "mov ebx, 2", "add eax, ebx", "mov x, eax"]) ∧
    (∀ op l r, getPrecedence op = 0 → binaryAsm op l r = ([], "")) := by
  refine ⟨?_, ?_, ?_, ?_, ?_, ?_, ?_⟩
  · decide!
  · decide!
  · decide
  · decide!
  · decide!
  · decide!
  · intro op l r hp
    have h1 : op ≠ "+" := by rintro rfl; revert hp; decide
    have h2 : op ≠ "-" := by rintro rfl; revert hp; decide
    have h3 : op ≠ "*" := by rintro rfl; revert hp; decide
    have h4 : op ≠ "/" := by rintro rfl; revert hp; decide
    simp [binaryAsm, h1, h2, h3, h4]

/-! ## Identifiers and reserved words -/

/-- A rule whose token kind differs from the kind returned did not match. -/
theorem firstMatch_skip (p : Pattern) (ty ty1 : TokenType) (specs : List (Pattern × TokenType))
    (remaining v : List Char) (hne : ty ≠ ty1)
    (h : firstMatch ((p, ty) :: specs) remaining = some (ty1, v)) :
    matchPattern p remaining = none ∧ firstMatch specs remaining = some (ty1, v) := by
  simp only [firstMatch] at h
  split at h
  · simp only [Option.some.injEq, Prod.mk.injEq] at h
    exact absurd h.1 hne
  · rename_i hnone
    exact ⟨hnone, h⟩

theorem matchPattern_lit_none (s : String) (remaining : List Char)
    (h : matchPattern (.lit s) remaining = none) : ¬ s.data <+: remaining := by
  intro hp
  simp only [matchPattern] at h
  rw [if_pos (List.isPrefixOf_iff_prefix.2 hp)] at h
  cases h

/-- When the rule scan returns an `ID` token, none of the five keyword rules
matched at that position, and the text is a prefix of the input there. -/
theorem firstMatch_ident (remaining v : List Char)
    (h : firstMatch tokenSpecs remaining = some (.ID, v)) :
    (¬ "val".data <+: remaining ∧ ¬ "prt".data <+: remaining ∧ ¬ "agar".data <+: remaining ∧
      ¬ "nhi-to".data <+: remaining ∧ ¬ "bhejo".data <+: remaining) ∧ v <+: remaining := by
  rw [tokenSpecs] at h
  obtain ⟨k1, h⟩ := firstMatch_skip _ _ _ _ _ _ (by decide) h
  obtain ⟨k2, h⟩ := firstMatch_skip _ _ _ _ _ _ (by decide) h
  obtain ⟨k3, h⟩ := firstMatch_skip _ _ _ _ _ _ (by decide) h
  obtain ⟨k4, h⟩ := firstMatch_skip _ _ _ _ _ _ (by decide) h
  obtain ⟨k5, h⟩ := firstMatch_skip _ _ _ _ _ _ (by decide) h
  obtain ⟨-, h⟩ := firstMatch_skip _ _ _ _ _ _ (by decide) h
  obtain ⟨-, h⟩ := firstMatch_skip _ _ _ _ _ _ (by decide) h
  obtain ⟨-, h⟩ := firstMatch_skip _ _ _ _ _ _ (by decide) h
  obtain ⟨-, h⟩ := firstMatch_skip _ _ _ _ _ _ (by decide) h
  obtain ⟨-, h⟩ := firstMatch_skip _ _ _ _ _ _ (by decide) h
  obtain ⟨-, h⟩ := firstMatch_skip _ _ _ _ _ _ (by decide) h
  obtain ⟨-, h⟩ := firstMatch_skip _ _ _ _ _ _ (by decide) h
  obtain ⟨-, h⟩ := firstMatch_skip _ _ _ _ _ _ (by decide) h
  obtain ⟨-, h⟩ := firstMatch_skip _ _ _ _ _ _ (by decide) h
  obtain ⟨-, h⟩ := firstMatch_skip _ _ _ _ _ _ (by decide) h
  obtain ⟨-, h⟩ := firstMatch_skip _ _ _ _ _ _ (by decide) h
  obtain ⟨-, h⟩ := firstMatch_skip _ _ _ _ _ _ (by decide) h
  obtain ⟨-, h⟩ := firstMatch_skip _ _ _ _ _ _ (by decide) h
  obtain ⟨-, h⟩ := firstMatch_skip _ _ _ _ _ _ (by decide) h
  obtain ⟨-, h⟩ := firstMatch_skip _ _ _ _ _ _ (by decide) h
  refine ⟨⟨matchPattern_lit_none _ _ k1, matchPattern_lit_none _ _ k2,
    matchPattern_lit_none _ _ k3, matchPattern_lit_none _ _ k4,
    matchPattern_lit_none _ _ k5⟩, ?_⟩
  simp only [firstMatch] at h
  split at h
  · rename_i w hw
    simp only [Option.some.injEq, Prod.mk.injEq, true_and] at h
    subst h
    rcases remaining with _ | ⟨c, rest⟩
    · simp [matchPattern] at hw
    · simp only [matchPattern] at hw
      split at hw
      · simp only [Option.some.injEq] at hw
        subst hw
        exact (List.prefix_cons_inj c).2 (List.takeWhile_prefix _)
      · cases hw
  · cases h

/-- C22. For every source text the tokenizer returns, and no `ID` token of its
stream has a text that begins with `val`, `prt`, `agar`, `bhejo` (or `nhi-to`),
and none equals `nhi-to`; so no `ID` token text is a member of
`reservedKeywords`, and in every parser state over that stream (every suffix of
it), when the token that `parseDeclaration` examines after `val` has kind `ID`
the lookup `reservedKeywords.count(varName)` finds nothing: only the check of
the token kind can report a reserved word, as it does on `val prt = 1;`. -/
theorem identifier_tokens_are_not_reserved (source : String) :
    ∃ toks errs, tokenize source = some (toks, errs) ∧
      (∀ t ∈ toks, t.type = .ID →
        ¬ beginsWith t.value "val" ∧ ¬ beginsWith t.value "prt" ∧
        ¬ beginsWith t.value "agar" ∧ ¬ beginsWith t.value "bhejo" ∧
        ¬ beginsWith t.value "nhi-to" ∧ t.value ≠ "nhi-to" ∧
        t.value ∉ reservedKeywords) ∧
      (∀ st : ParseState, st.rest <:+ toks → (currentToken (advance st)).type = .ID →
        reservedKeywords.contains (currentToken (advance st)).value = false) ∧
      (tokenize "val prt = 1;").map (fun r => (parseProgram r.1 r.2)) =
        some (.ok (.mk "Program" "" [])
          ⟨[⟨.END, "", 1, 0⟩],
           ["Cannot use reserved keyword 'prt' as an identifier after 'val' at line 1",
            "Expected '(' after 'prt'",
            "Unexpected statement or keyword '=' at line 1, column 8",
            "Unexpected statement or keyword '1' at line 1, column 10",
            "Unexpected statement or keyword ';' at line 1, column 11"]⟩) := by
  obtain ⟨st, hst⟩ := tokenizeLoop_total (source.length + 1) ⟨source.data, 0, 1, 0, [], []⟩
    (by show source.data.length < source.data.length + 1; omega)
  have hid : ∀ t ∈ st.tokens ++ [⟨.END, "", st.line, 0⟩], t.type = .ID →
      ¬ beginsWith t.value "val" ∧ ¬ beginsWith t.value "prt" ∧
      ¬ beginsWith t.value "agar" ∧ ¬ beginsWith t.value "bhejo" ∧
      ¬ beginsWith t.value "nhi-to" ∧ t.value ≠ "nhi-to" ∧
      t.value ∉ reservedKeywords := by
    intro t ht hty
    simp only [List.mem_append, List.mem_singleton] at ht
    rcases ht with ht | rfl
    · obtain ⟨p, hp⟩ := tokenizeLoop_emitted source.data _ _ st hst rfl (by simp) t ht
      rw [hty] at hp
      obtain ⟨⟨k1, k2, k3, k4, k5⟩, hpre⟩ := firstMatch_ident _ _ hp
      have hv : ¬ beginsWith t.value "val" := fun hb => k1 (hb.trans hpre)
      have hprt : ¬ beginsWith t.value "prt" := fun hb => k2 (hb.trans hpre)
      have hag : ¬ beginsWith t.value "agar" := fun hb => k3 (hb.trans hpre)
      have hnh : ¬ beginsWith t.value "nhi-to" := fun hb => k4 (hb.trans hpre)
      have hbh : ¬ beginsWith t.value "bhejo" := fun hb => k5 (hb.trans hpre)
      refine ⟨hv, hprt, hag, hbh, hnh, ?_, ?_⟩
      · intro heq
        exact hnh (by rw [heq]; exact List.prefix_refl _)
      · intro hmem
        simp only [reservedKeywords, List.mem_cons, List.mem_singleton, List.not_mem_nil,
          or_false] at hmem
        rcases hmem with heq | heq | heq | heq | heq
        · exact hv (by rw [heq]; exact List.prefix_refl _)
        · exact hprt (by rw [heq]; exact List.prefix_refl _)
        · exact hag (by rw [heq]; exact List.prefix_refl _)
        · exact hnh (by rw [heq]; exact List.prefix_refl _)
        · exact hbh (by rw [heq]; exact List.prefix_refl _)
    · cases hty
  refine ⟨st.tokens ++ [⟨.END, "", st.line, 0⟩], st.errors, by rw [tokenize, hst], hid, ?_,
    by decide!⟩
  intro ps hsuf hty
  have hadv : (advance ps).rest <:+ ps.rest := by
    rcases ps with ⟨_ | ⟨a, _ | ⟨b, rest⟩⟩, errs⟩
    · exact List.suffix_refl _
    · exact List.suffix_refl _
    · exact List.suffix_cons _ _
  have hmem : currentToken (advance ps) ∈ st.tokens ++ [⟨.END, "", st.line, 0⟩] := by
    unfold currentToken at hty ⊢
    rcases hr : (advance ps).rest with _ | ⟨a, rest⟩
    · rw [hr] at hty
      cases hty
    · simp only
      exact (hadv.trans hsuf).subset (by rw [hr]; simp)
  have := (hid _ hmem hty).2.2.2.2.2.2
  simpa using this

/-! ## Termination of the parser -/

theorem endsInEND_ne_nil (ts : List Token) (h : endsInEND ts) : ts ≠ [] := by
  rintro rfl
  simp [endsInEND] at h

theorem endsInEND_length (ts : List Token) (h : endsInEND ts) : 0 < ts.length :=
  List.length_pos.2 (endsInEND_ne_nil ts h)

theorem endsInEND_tail (t u : Token) (ts : List Token) (h : endsInEND (t :: u :: ts)) :
    endsInEND (u :: ts) := by
  simpa [endsInEND, List.getLast?_cons_cons] using h

theorem advance_endsInEND (st : ParseState) (h : endsInEND st.rest) :
    endsInEND (advance st).rest := by
  rcases st with ⟨_ | ⟨a, _ | ⟨b, rest⟩⟩, errs⟩
  · exact h
  · exact h
  · exact endsInEND_tail a b rest h

theorem advance_length_le (st : ParseState) : (advance st).rest.length ≤ st.rest.length := by
  rcases st with ⟨_ | ⟨a, _ | ⟨b, rest⟩⟩, errs⟩ <;> simp [advance]

/-- On a stream that ends in `END`, `advance` moves on from every token that is
not `END`. -/
theorem advance_length_lt (st : ParseState) (h : endsInEND st.rest)
    (hne : (currentToken st).type ≠ .END) : (advance st).rest.length < st.rest.length := by
  rcases st with ⟨_ | ⟨a, _ | ⟨b, rest⟩⟩, errs⟩
  · simp [endsInEND] at h
  · simp [endsInEND] at h
    exact absurd h hne
  · simp [advance]

theorem PResult.below_mono {α : Type} (r : PResult α) (b b1 : Nat) (hle : b ≤ b1)
    (h : r.below b) : r.below b1 := by
  cases r with
  | ok a st => exact ⟨h.1, Nat.lt_of_lt_of_le h.2 hle⟩
  | crash => trivial
  | outOfFuel => exact h

theorem parsePrimary_below (st : ParseState) (h : endsInEND st.rest) :
    endsInEND (parsePrimary st).2.rest ∧ (parsePrimary st).2.rest.length ≤ st.rest.length := by
  unfold parsePrimary
  split
  · exact ⟨advance_endsInEND st h, advance_length_le st⟩
  · split
    · exact ⟨advance_endsInEND st h, advance_length_le st⟩
    · exact ⟨h, Nat.le_refl _⟩

theorem exprLoop_below (recur : Int → ParseState → PResult (Option ASTNode)) (g : Nat)
    (hrec : ∀ p st, endsInEND st.rest → st.rest.length < g →
      (recur p st).below (st.rest.length + 1)) :
    ∀ (k : Nat) (minPrec : Int) (left : Option ASTNode) (st : ParseState),
      endsInEND st.rest → st.rest.length ≤ k → st.rest.length ≤ g →
      (exprLoop recur k minPrec left st).below (st.rest.length + 1) := by
  intro k
  induction k with
  | zero =>
    intro minPrec left st h hk _
    have := endsInEND_length _ h
    omega
  | succ k ih =>
    intro minPrec left st h hk hg
    rw [exprLoop]
    split
    · rename_i hcond
      have hne : (currentToken st).type ≠ .END := by
        rcases hcond.1 with h1 | h1 <;> rw [h1] <;> decide
      have hlt := advance_length_lt st h hne
      have hr := hrec (getPrecedence (currentToken st).value + 1) (advance st)
        (advance_endsInEND st h) (by omega)
      rcases hres : recur (getPrecedence (currentToken st).value + 1) (advance st) with
        ⟨_ | right, st1⟩ | _ | _
      · rw [hres] at hr
        exact ⟨hr.1, by have := hr.2; omega⟩
      · rw [hres] at hr
        rcases left with _ | l
        · trivial
        · have h2 := hr.2
          exact PResult.below_mono _ _ _ (by omega) (ih _ _ st1 hr.1 (by omega) (by omega))
      · trivial
      · rw [hres] at hr
        exact hr
    · exact ⟨h, Nat.lt_succ_self _⟩

theorem parseExpression_below :
    ∀ (g : Nat) (minPrec : Int) (st : ParseState), endsInEND st.rest → st.rest.length < g →
      (parseExpression g minPrec st).below (st.rest.length + 1) := by
  intro g
  induction g with
  | zero => intro minPrec st _ hlt; omega
  | succ g ih =>
    intro minPrec st h hlt
    rw [parseExpression]
    obtain ⟨hp1, hp2⟩ := parsePrimary_below st h
    exact PResult.below_mono _ _ _ (by omega)
      (exprLoop_below (parseExpression g) g (fun p s hs hl => ih p s hs hl) g minPrec _ _ hp1
        (by omega) (by omega))

theorem parseReturn_below (fuel : Nat) (st : ParseState) (h : endsInEND st.rest)
    (hne : (currentToken st).type ≠ .END) (hf : st.rest.length ≤ fuel) :
    (parseReturn fuel st).below st.rest.length := by
  have hlt := advance_length_lt st h hne
  have he := parseExpression_below fuel 0 (advance st) (advance_endsInEND st h) (by omega)
  unfold parseReturn
  rcases hres : parseExpression fuel 0 (advance st) with ⟨_ | e, st1⟩ | _ | _
  · rw [hres] at he
    exact ⟨he.1, by have := he.2; simp only [pushError]; omega⟩
  · rw [hres] at he
    have h2 := he.2
    simp only
    split
    · exact ⟨he.1, by simp only [pushError]; omega⟩
    · exact ⟨advance_endsInEND st1 he.1, by have := advance_length_le st1; omega⟩
  · trivial
  · rw [hres] at he
    exact he

theorem finishPrint_below (expr : Option ASTNode) (st : ParseState) (h : endsInEND st.rest) :
    (finishPrint expr st).below (st.rest.length + 1) := by
  have h1 := advance_length_le st
  have h2 := advance_length_le (advance st)
  unfold finishPrint
  split
  · exact ⟨h, by simp only [pushError]; omega⟩
  · split
    · exact ⟨advance_endsInEND st h, by simp only [pushError]; omega⟩
    · rcases expr with _ | e
      · exact ⟨advance_endsInEND _ (advance_endsInEND st h), by omega⟩
      · exact ⟨advance_endsInEND _ (advance_endsInEND st h), by omega⟩

theorem parsePrint_below (fuel : Nat) (st : ParseState) (h : endsInEND st.rest)
    (hne : (currentToken st).type ≠ .END) (hf : st.rest.length ≤ fuel) :
    (parsePrint fuel st).below st.rest.length := by
  have hlt := advance_length_lt st h hne
  have h1 := advance_endsInEND st h
  have h2 := advance_length_le (advance st)
  have h3 := advance_length_le (advance (advance st))
  unfold parsePrint
  simp only
  split
  · exact ⟨h1, by simp only [pushError]; omega⟩
  · split
    · exact PResult.below_mono _ _ _ (by omega)
        (finishPrint_below _ _ (advance_endsInEND _ (advance_endsInEND _ h1)))
    · have he := parseExpression_below fuel 0 (advance (advance st))
        (advance_endsInEND _ h1) (by omega)
      rcases hres : parseExpression fuel 0 (advance (advance st)) with ⟨expr, st1⟩ | _ | _
      · rw [hres] at he
        have := he.2
        exact PResult.below_mono _ _ _ (by omega) (finishPrint_below expr st1 he.1)
      · trivial
      · rw [hres] at he
        exact he

theorem finishDeclaration_below (varName : String) (expr : Option ASTNode) (st : ParseState)
    (h : endsInEND st.rest) :
    (finishDeclaration varName expr st).below (st.rest.length + 1) := by
  have h1 := advance_length_le st
  unfold finishDeclaration
  split
  · exact ⟨h, by simp only [pushError]; omega⟩
  · rcases expr with _ | e
    · exact ⟨advance_endsInEND st h, by omega⟩
    · exact ⟨advance_endsInEND st h, by omega⟩

theorem parseDeclaration_below (fuel : Nat) (st : ParseState) (h : endsInEND st.rest)
    (hne : (currentToken st).type ≠ .END) (hf : st.rest.length ≤ fuel) :
    (parseDeclaration fuel st).below st.rest.length := by
  have hlt := advance_length_lt st h hne
  have h1 := advance_endsInEND st h
  have h2 := advance_length_le (advance st)
  have h3 := advance_length_le (advance (advance st))
  unfold parseDeclaration
  simp only
  split
  · exact ⟨h1, by simp only [pushError]; omega⟩
  · split
    · exact ⟨h1, by simp only [pushError]; omega⟩
    · split
      · exact ⟨h1, by simp only [pushError]; omega⟩
      · split
        · have he := parseExpression_below fuel 0 (advance (advance (advance st)))
            (advance_endsInEND _ (advance_endsInEND _ h1)) (by omega)
          rcases hres : parseExpression fuel 0 (advance (advance (advance st))) with
            ⟨_ | e, st1⟩ | _ | _
          · rw [hres] at he
            exact ⟨he.1, by have := he.2; simp only [pushError]; omega⟩
          · rw [hres] at he
            have := he.2
            exact PResult.below_mono _ _ _ (by omega) (finishDeclaration_below _ _ st1 he.1)
          · trivial
          · rw [hres] at he
            exact he
        · exact PResult.below_mono _ _ _ (by omega)
            (finishDeclaration_below _ _ _ (advance_endsInEND _ h1))

theorem blockLoop_below (stmt : ParseState → PResult (Option ASTNode)) (g : Nat)
    (hstmt : ∀ st, endsInEND st.rest → (currentToken st).type ≠ .END → st.rest.length < g →
      (stmt st).below st.rest.length) :
    ∀ (k : Nat) (block : ASTNode) (st : ParseState),
      endsInEND st.rest → st.rest.length ≤ k → st.rest.length < g →
      (blockLoop stmt k block st).below (st.rest.length + 1) := by
  intro k
  induction k with
  | zero =>
    intro block st h hk _
    have := endsInEND_length _ h
    omega
  | succ k ih =>
    intro block st h hk hg
    rw [blockLoop]
    split
    · rename_i hcond
      have hs := hstmt st h hcond.2 hg
      rcases hres : stmt st with ⟨_ | s, st1⟩ | _ | _
      · rw [hres] at hs
        have := hs.2
        exact PResult.below_mono _ _ _ (by omega) (ih _ st1 hs.1 (by omega) (by omega))
      · rw [hres] at hs
        have := hs.2
        exact PResult.below_mono _ _ _ (by omega) (ih _ st1 hs.1 (by omega) (by omega))
      · trivial
      · rw [hres] at hs
        exact hs
    · exact ⟨h, Nat.lt_succ_self _⟩

/-- The block loops of `parseIfElse` stop at `}` or at `END`. -/
theorem blockLoop_stops (stmt : ParseState → PResult (Option ASTNode)) :
    ∀ (k : Nat) (block : ASTNode) (st : ParseState) (b : ASTNode) (st1 : ParseState),
      blockLoop stmt k block st = .ok b st1 →
      (currentToken st1).type = .RBRACE ∨ (currentToken st1).type = .END := by
  intro k
  induction k with
  | zero => intro block st b st1 h; simp [blockLoop] at h
  | succ k ih =>
    intro block st b st1 h
    rw [blockLoop] at h
    split at h
    · rcases hres : stmt st with ⟨_ | s, st2⟩ | _ | _
      · simp only [hres] at h
        exact ih _ _ _ _ h
      · simp only [hres] at h
        exact ih _ _ _ _ h
      · simp [hres] at h
      · simp [hres] at h
    · rename_i hcond
      simp only [PResult.ok.injEq] at h
      obtain ⟨-, rfl⟩ := h
      by_cases hr : (currentToken st).type = .RBRACE
      · exact Or.inl hr
      · by_cases he : (currentToken st).type = .END
        · exact Or.inr he
        · exact absurd ⟨hr, he⟩ hcond

theorem parseElse_below (stmt : ParseState → PResult (Option ASTNode)) (fuel : Nat)
    (hstmt : ∀ st, endsInEND st.rest → (currentToken st).type ≠ .END → st.rest.length < fuel →
      (stmt st).below st.rest.length)
    (condition ifBlock : ASTNode) (st : ParseState) (h : endsInEND st.rest)
    (hf : st.rest.length < fuel) :
    (parseElse stmt fuel condition ifBlock st).below (st.rest.length + 1) := by
  have h1 := advance_endsInEND st h
  have h2 := advance_length_le st
  have h3 := advance_length_le (advance st)
  unfold parseElse
  split
  · simp only
    split
    · exact ⟨h1, by simp only [pushError]; omega⟩
    · have hb := blockLoop_below stmt fuel hstmt fuel (.mk "Block" "" []) (advance (advance st))
        (advance_endsInEND _ h1) (by omega) (by omega)
      rcases hres : blockLoop stmt fuel (.mk "Block" "" []) (advance (advance st)) with
        ⟨elseBlock, st2⟩ | _ | _
      · rw [hres] at hb
        have := hb.2
        simp only
        split
        · exact ⟨hb.1, by simp only [pushError]; omega⟩
        · exact ⟨advance_endsInEND st2 hb.1, by have := advance_length_le st2; omega⟩
      · trivial
      · rw [hres] at hb
        exact hb
  · exact ⟨h, Nat.lt_succ_self _⟩

theorem parseIfElse_below (stmt : ParseState → PResult (Option ASTNode)) (fuel : Nat)
    (hstmt : ∀ st, endsInEND st.rest → (currentToken st).type ≠ .END → st.rest.length < fuel →
      (stmt st).below st.rest.length)
    (st : ParseState) (h : endsInEND st.rest) (hne : (currentToken st).type ≠ .END)
    (hf : st.rest.length ≤ fuel) :
    (parseIfElse stmt fuel st).below st.rest.length := by
  have hlt := advance_length_lt st h hne
  have h1 := advance_endsInEND st h
  have h2 := advance_length_le (advance st)
  unfold parseIfElse
  simp only
  split
  · exact ⟨h1, by simp only [pushError]; omega⟩
  · have he := parseExpression_below fuel 0 (advance (advance st))
      (advance_endsInEND _ h1) (by omega)
    rcases hres : parseExpression fuel 0 (advance (advance st)) with ⟨_ | cond, st2⟩ | _ | _
    · rw [hres] at he
      exact ⟨he.1, by have := he.2; simp only [pushError]; omega⟩
    · rw [hres] at he
      have h4 := he.2
      have h5 := advance_length_le st2
      have h6 := advance_length_le (advance st2)
      simp only
      split
      · exact ⟨he.1, by simp only [pushError]; omega⟩
      · split
        · exact ⟨advance_endsInEND _ he.1, by simp only [pushError]; omega⟩
        · have hb := blockLoop_below stmt fuel hstmt fuel (.mk "Block" "" [])
            (advance (advance st2)) (advance_endsInEND _ (advance_endsInEND _ he.1))
            (by omega) (by omega)
          rcases hres2 : blockLoop stmt fuel (.mk "Block" "" []) (advance (advance st2)) with
            ⟨ifBlock, st3⟩ | _ | _
          · rw [hres2] at hb
            have h7 := hb.2
            have h8 := advance_length_le st3
            simp only
            split
            · exact ⟨hb.1, by simp only [pushError]; omega⟩
            · exact PResult.below_mono _ _ _ (by omega)
                (parseElse_below stmt fuel hstmt cond ifBlock (advance st3)
                  (advance_endsInEND _ hb.1) (by omega))
          · trivial
          · rw [hres2] at hb
            exact hb
    · trivial
    · rw [hres] at he
      exact he

/-- Every call of `parseStatement` on a token that is not `END`, with fuel
above the number of remaining tokens, returns with fewer tokens remaining or
stops at a null dereference; it never uses up its fuel. -/
theorem parseStatement_below :
    ∀ (f : Nat) (st : ParseState), endsInEND st.rest → (currentToken st).type ≠ .END →
      st.rest.length < f → (parseStatement f st).below st.rest.length := by
  intro f
  induction f with
  | zero => intro st _ _ hlt; omega
  | succ f ih =>
    intro st h hne hlt
    rw [parseStatement]
    split
    · exact parseDeclaration_below f st h hne (by omega)
    · split
      · exact parsePrint_below f st h hne (by omega)
      · split
        · exact parseIfElse_below (parseStatement f) f ih st h hne (by omega)
        · split
          · exact parseReturn_below f st h hne (by omega)
          · exact ⟨advance_endsInEND _ h, advance_length_lt _ h hne⟩

theorem programLoop_below (stmt : ParseState → PResult (Option ASTNode)) (g : Nat)
    (hstmt : ∀ st, endsInEND st.rest → (currentToken st).type ≠ .END → st.rest.length < g →
      (stmt st).below st.rest.length) :
    ∀ (k : Nat) (program : ASTNode) (st : ParseState),
      endsInEND st.rest → st.rest.length ≤ k → st.rest.length < g →
      (programLoop stmt k program st).below (st.rest.length + 1) := by
  intro k
  induction k with
  | zero =>
    intro program st h hk _
    have := endsInEND_length _ h
    omega
  | succ k ih =>
    intro program st h hk hg
    rw [programLoop]
    split
    · rename_i hcond
      have hs := hstmt st h hcond hg
      rcases hres : stmt st with ⟨_ | s, st1⟩ | _ | _
      · rw [hres] at hs
        have := hs.2
        exact PResult.below_mono _ _ _ (by omega) (ih _ st1 hs.1 (by omega) (by omega))
      · rw [hres] at hs
        have := hs.2
        exact PResult.below_mono _ _ _ (by omega) (ih _ st1 hs.1 (by omega) (by omega))
      · trivial
      · rw [hres] at hs
        exact hs
    · exact ⟨h, Nat.lt_succ_self _⟩

/-- The loop of `parseProgram` returns only at `END`. -/
theorem programLoop_stops (stmt : ParseState → PResult (Option ASTNode)) :
    ∀ (k : Nat) (program : ASTNode) (st : ParseState) (b : ASTNode) (st1 : ParseState),
      programLoop stmt k program st = .ok b st1 → (currentToken st1).type = .END := by
  intro k
  induction k with
  | zero => intro program st b st1 h; simp [programLoop] at h
  | succ k ih =>
    intro program st b st1 h
    rw [programLoop] at h
    split at h
    · rcases hres : stmt st with ⟨_ | s, st2⟩ | _ | _
      · simp only [hres] at h
        exact ih _ _ _ _ h
      · simp only [hres] at h
        exact ih _ _ _ _ h
      · simp [hres] at h
      · simp [hres] at h
    · rename_i hcond
      simp only [PResult.ok.injEq] at h
      obtain ⟨-, rfl⟩ := h
      exact not_not.1 hcond

theorem parseProgram_below (tokens : List Token) (errors : List String)
    (h : endsInEND tokens) :
    (parseProgram tokens errors).below (tokens.length + 1) :=
  programLoop_below _ (tokens.length + 1) (parseStatement_below _) _ _ ⟨tokens, errors⟩ h
    (Nat.le_succ _) (Nat.lt_succ_self _)

/-! ## Independence of the fuel -/

theorem exprLoop_fuel (recur recur1 : Int → ParseState → PResult (Option ASTNode))
    (hrec : ∀ p st, recur p st ≠ .outOfFuel → recur1 p st = recur p st) :
    ∀ (k k1 : Nat) (minPrec : Int) (left : Option ASTNode) (st : ParseState), k ≤ k1 →
      exprLoop recur k minPrec left st ≠ .outOfFuel →
      exprLoop recur1 k1 minPrec left st = exprLoop recur k minPrec left st := by
  intro k
  induction k with
  | zero => intro k1 minPrec left st _ h; simp [exprLoop] at h
  | succ k ih =>
    intro k1 minPrec left st hle h
    obtain ⟨k2, rfl⟩ : ∃ k2, k1 = k2 + 1 := ⟨k1 - 1, by omega⟩
    simp only [exprLoop] at h ⊢
    split
    · rename_i hcond
      rw [if_pos hcond] at h
      have hne : recur (getPrecedence (currentToken st).value + 1) (advance st) ≠
          .outOfFuel := by
        intro hc
        simp [hc] at h
      rw [hrec _ _ hne]
      rcases hres : recur (getPrecedence (currentToken st).value + 1) (advance st) with
        ⟨_ | right, st1⟩ | _ | _
      · rfl
      · rcases left with _ | l
        · rfl
        · simp only [hres] at h
          exact ih k2 _ _ _ (by omega) h
      · rfl
      · exact absurd hres hne
    · rfl

theorem parseExpression_fuel :
    ∀ (g g1 : Nat) (minPrec : Int) (st : ParseState), g ≤ g1 →
      parseExpression g minPrec st ≠ .outOfFuel →
      parseExpression g1 minPrec st = parseExpression g minPrec st := by
  intro g
  induction g with
  | zero => intro g1 minPrec st _ h; simp [parseExpression] at h
  | succ g ih =>
    intro g1 minPrec st hle h
    obtain ⟨g2, rfl⟩ : ∃ g2, g1 = g2 + 1 := ⟨g1 - 1, by omega⟩
    rw [parseExpression] at h
    rw [parseExpression, parseExpression]
    exact exprLoop_fuel _ _ (fun p s hs => ih g2 p s (by omega) hs) g g2 _ _ _ (by omega) h

theorem parseReturn_fuel (f f1 : Nat) (st : ParseState) (hle : f ≤ f1)
    (h : parseReturn f st ≠ .outOfFuel) : parseReturn f1 st = parseReturn f st := by
  have hne : parseExpression f 0 (advance st) ≠ .outOfFuel := by
    intro hc
    simp [parseReturn, hc] at h
  unfold parseReturn
  rw [parseExpression_fuel f f1 _ _ hle hne]

theorem parsePrint_fuel (f f1 : Nat) (st : ParseState) (hle : f ≤ f1)
    (h : parsePrint f st ≠ .outOfFuel) : parsePrint f1 st = parsePrint f st := by
  unfold parsePrint at h ⊢
  simp only at h ⊢
  split
  · rfl
  · rename_i h1
    rw [if_neg h1] at h
    split
    · rfl
    · rename_i h2
      rw [if_neg h2] at h
      have hne : parseExpression f 0 (advance (advance st)) ≠ .outOfFuel := by
        intro hc
        simp [hc] at h
      rw [parseExpression_fuel f f1 _ _ hle hne]

theorem parseDeclaration_fuel (f f1 : Nat) (st : ParseState) (hle : f ≤ f1)
    (h : parseDeclaration f st ≠ .outOfFuel) :
    parseDeclaration f1 st = parseDeclaration f st := by
  unfold parseDeclaration at h ⊢
  simp only at h ⊢
  split
  · rfl
  · rename_i h1
    rw [if_neg h1] at h
    split
    · rfl
    · rename_i h2
      rw [if_neg h2] at h
      split
      · rfl
      · rename_i h3
        rw [if_neg h3] at h
        split
        · rename_i h4
          rw [if_pos h4] at h
          have hne : parseExpression f 0 (advance (advance (advance st))) ≠ .outOfFuel := by
            intro hc
            simp [hc] at h
          rw [parseExpression_fuel f f1 _ _ hle hne]
        · rfl

theorem blockLoop_fuel (stmt stmt1 : ParseState → PResult (Option ASTNode))
    (hstmt : ∀ st, stmt st ≠ .outOfFuel → stmt1 st = stmt st) :
    ∀ (k k1 : Nat) (block : ASTNode) (st : ParseState), k ≤ k1 →
      blockLoop stmt k block st ≠ .outOfFuel →
      blockLoop stmt1 k1 block st = blockLoop stmt k block st := by
  intro k
  induction k with
  | zero => intro k1 block st _ h; simp [blockLoop] at h
  | succ k ih =>
    intro k1 block st hle h
    obtain ⟨k2, rfl⟩ : ∃ k2, k1 = k2 + 1 := ⟨k1 - 1, by omega⟩
    simp only [blockLoop] at h ⊢
    split
    · rename_i hcond
      rw [if_pos hcond] at h
      have hne : stmt st ≠ .outOfFuel := by
        intro hc
        simp [hc] at h
      rw [hstmt _ hne]
      rcases hres : stmt st with ⟨_ | s, st1⟩ | _ | _
      · simp only [hres] at h
        exact ih k2 _ _ (by omega) h
      · simp only [hres] at h
        exact ih k2 _ _ (by omega) h
      · rfl
      · exact absurd hres hne
    · rfl

theorem parseElse_fuel (stmt stmt1 : ParseState → PResult (Option ASTNode))
    (hstmt : ∀ st, stmt st ≠ .outOfFuel → stmt1 st = stmt st)
    (f f1 : Nat) (hle : f ≤ f1) (condition ifBlock : ASTNode) (st : ParseState)
    (h : parseElse stmt f condition ifBlock st ≠ .outOfFuel) :
    parseElse stmt1 f1 condition ifBlock st = parseElse stmt f condition ifBlock st := by
  unfold parseElse at h ⊢
  split
  · rename_i h1
    rw [if_pos h1] at h
    simp only at h ⊢
    split
    · rfl
    · rename_i h2
      rw [if_neg h2] at h
      have hne : blockLoop stmt f (.mk "Block" "" []) (advance (advance st)) ≠
          .outOfFuel := by
        intro hc
        simp [hc] at h
      rw [blockLoop_fuel stmt stmt1 hstmt f f1 _ _ hle hne]
  · rfl

theorem parseIfElse_fuel (stmt stmt1 : ParseState → PResult (Option ASTNode))
    (hstmt : ∀ st, stmt st ≠ .outOfFuel → stmt1 st = stmt st)
    (f f1 : Nat) (hle : f ≤ f1) (st : ParseState)
    (h : parseIfElse stmt f st ≠ .outOfFuel) :
    parseIfElse stmt1 f1 st = parseIfElse stmt f st := by
  unfold parseIfElse at h ⊢
  simp only at h ⊢
  split
  · rfl
  · rename_i h1
    rw [if_neg h1] at h
    have hne : parseExpression f 0 (advance (advance st)) ≠ .outOfFuel := by
      intro hc
      simp [hc] at h
    rw [parseExpression_fuel f f1 _ _ hle hne]
    rcases hres : parseExpression f 0 (advance (advance st)) with ⟨_ | cond, st2⟩ | _ | _
    · rfl
    · simp only [hres] at h ⊢
      split
      · rfl
      · rename_i h2
        rw [if_neg h2] at h
        split
        · rfl
        · rename_i h3
          rw [if_neg h3] at h
          have hne2 : blockLoop stmt f (.mk "Block" "" []) (advance (advance st2)) ≠
              .outOfFuel := by
            intro hc
            simp [hc] at h
          rw [blockLoop_fuel stmt stmt1 hstmt f f1 _ _ hle hne2]
          rcases hres2 : blockLoop stmt f (.mk "Block" "" []) (advance (advance st2)) with
            ⟨ifBlock, st3⟩ | _ | _
          · simp only [hres2] at h ⊢
            split
            · rfl
            · rename_i h4
              rw [if_neg h4] at h
              exact parseElse_fuel stmt stmt1 hstmt f f1 hle _ _ _ h
          · rfl
          · rfl
    · rfl
    · rfl

/-- More fuel does not change what `parseStatement` returns. -/
theorem parseStatement_fuel :
    ∀ (f f1 : Nat) (st : ParseState), f ≤ f1 → parseStatement f st ≠ .outOfFuel →
      parseStatement f1 st = parseStatement f st := by
  intro f
  induction f with
  | zero => intro f1 st _ h; simp [parseStatement] at h
  | succ f ih =>
    intro f1 st hle h
    obtain ⟨f2, rfl⟩ : ∃ f2, f1 = f2 + 1 := ⟨f1 - 1, by omega⟩
    simp only [parseStatement] at h ⊢
    split
    · rename_i h1
      rw [if_pos h1] at h
      exact parseDeclaration_fuel f f2 st (by omega) h
    · rename_i h1
      rw [if_neg h1] at h
      split
      · rename_i h2
        rw [if_pos h2] at h
        exact parsePrint_fuel f f2 st (by omega) h
      · rename_i h2
        rw [if_neg h2] at h
        split
        · rename_i h3
          rw [if_pos h3] at h
          exact parseIfElse_fuel _ _ (fun s hs => ih f2 s (by omega) hs) f f2 (by omega) st h
        · rename_i h3
          rw [if_neg h3] at h
          split
          · rename_i h4
            rw [if_pos h4] at h
            exact parseReturn_fuel f f2 st (by omega) h
          · rfl

theorem programLoop_fuel (stmt stmt1 : ParseState → PResult (Option ASTNode))
    (hstmt : ∀ st, stmt st ≠ .outOfFuel → stmt1 st = stmt st) :
    ∀ (k k1 : Nat) (program : ASTNode) (st : ParseState), k ≤ k1 →
      programLoop stmt k program st ≠ .outOfFuel →
      programLoop stmt1 k1 program st = programLoop stmt k program st := by
  intro k
  induction k with
  | zero => intro k1 program st _ h; simp [programLoop] at h
  | succ k ih =>
    intro k1 program st hle h
    obtain ⟨k2, rfl⟩ : ∃ k2, k1 = k2 + 1 := ⟨k1 - 1, by omega⟩
    simp only [programLoop] at h ⊢
    split
    · rename_i hcond
      rw [if_pos hcond] at h
      have hne : stmt st ≠ .outOfFuel := by
        intro hc
        simp [hc] at h
      rw [hstmt _ hne]
      rcases hres : stmt st with ⟨_ | s, st1⟩ | _ | _
      · simp only [hres] at h
        exact ih k2 _ _ (by omega) h
      · simp only [hres] at h
        exact ih k2 _ _ (by omega) h
      · rfl
      · exact absurd hres hne
    · rfl

/-- On a stream that ends in `END`, every fuel from `tokens.length + 1` on
gives the result of `parseProgram`. -/
theorem parseProgram_fuel (tokens : List Token) (errors : List String)
    (h : endsInEND tokens) (f : Nat) (hf : tokens.length + 1 ≤ f) :
    programLoop (parseStatement f) f (.mk "Program" "" []) ⟨tokens, errors⟩ =
      parseProgram tokens errors := by
  have hb := parseProgram_below tokens errors h
  have hne : parseProgram tokens errors ≠ .outOfFuel := by
    intro hc
    rw [hc] at hb
    exact hb
  exact programLoop_fuel _ _ (fun s hs => parseStatement_fuel _ f s hf hs) _ f _ _ hf hne

/-- C21. The parser terminates. For every token list whose last token is
`END` (in particular when that is its only `END`), `parseProgram` never uses up
its fuel: it returns a tree, with the current token at `END`, or it stops at
the null dereference of `addChild`. The reason is as stated: on such a stream
every call of `parseStatement` on a token that is not `END` (with fuel above
the number of remaining tokens) returns with strictly fewer tokens remaining,
whether it returns a node or null after a reported error or after the
"unexpected statement" path, unless it stops at that null dereference; and the
block loops of `parseIfElse` return only at `}` or `END`. The result does not
depend on the fuel of the model: every fuel from `tokens.length + 1` on gives
the same result. -/
theorem parser_terminates (tokens : List Token) (errors : List String)
    (h : endsInEND tokens) :
    ((∃ ast st, parseProgram tokens errors = .ok ast st ∧ (currentToken st).type = .END) ∨
      parseProgram tokens errors = .crash) ∧
    (∀ (fuel : Nat) (st : ParseState), endsInEND st.rest → (currentToken st).type ≠ .END →
      st.rest.length < fuel →
      (∃ r st1, parseStatement fuel st = .ok r st1 ∧ st1.rest.length < st.rest.length ∧
        endsInEND st1.rest) ∨
      parseStatement fuel st = .crash) ∧
    (∀ (stmt : ParseState → PResult (Option ASTNode)) (fuel : Nat) (block b : ASTNode)
      (st st1 : ParseState), blockLoop stmt fuel block st = .ok b st1 →
      (currentToken st1).type = .RBRACE ∨ (currentToken st1).type = .END) ∧
    (∀ f, tokens.length + 1 ≤ f →
      programLoop (parseStatement f) f (.mk "Program" "" []) ⟨tokens, errors⟩ =
        parseProgram tokens errors) := by
  refine ⟨?_, ?_, fun stmt fuel block b st st1 hb => blockLoop_stops stmt fuel block st b st1 hb,
    fun f hf => parseProgram_fuel tokens errors h f hf⟩
  · have hb := parseProgram_below tokens errors h
    rcases hres : parseProgram tokens errors with ⟨ast, st⟩ | _ | _
    · exact Or.inl ⟨ast, st, rfl, programLoop_stops _ _ _ _ _ _ hres⟩
    · exact Or.inr rfl
    · rw [hres] at hb
      exact absurd hb (by simp [PResult.below])
  · intro fuel st hst hne hlt
    have hb := parseStatement_below fuel st hst hne hlt
    rcases hres : parseStatement fuel st with ⟨r, st1⟩ | _ | _
    · rw [hres] at hb
      exact Or.inl ⟨r, st1, rfl, hb.2, hb.1⟩
    · exact Or.inr rfl
    · rw [hres] at hb
      exact absurd hb (by simp [PResult.below])

/-- C21 at the tokens of `agar (a) { } nhi-to { prt(a); }`: the stream ends in
`END` and the parse returns at `END`. -/
theorem parser_terminates_witness :
    endsInEND conditionalTokens ∧
    ((∃ ast st, parseProgram conditionalTokens [] = .ok ast st ∧
        (currentToken st).type = .END) ∨
      parseProgram conditionalTokens [] = .crash) ∧
    parseProgram conditionalTokens [] =
      .ok (.mk "Program" "" [.mk "IfElse" "" [.mk "Identifier" "a" [], .mk "Block" "" [],
          .mk "Block" "" [.mk "Print" "" [.mk "Identifier" "a" []]]]])
        ⟨[⟨.END, "", 1, 0⟩], []⟩ :=
  ⟨by decide, (parser_terminates conditionalTokens [] (by decide)).1, by decide!⟩

/-! ## Identifiers of parsed trees are leaves -/

theorem identifiersAreLeaves_node (ty v : String) (cs : List ASTNode)
    (hty : ty = "Identifier" → cs = []) (hcs : ∀ c ∈ cs, identifiersAreLeaves c) :
    identifiersAreLeaves (.mk ty v cs) := by
  intro n hn
  rw [preorder_eq] at hn
  rcases List.mem_cons.1 hn with rfl | hn
  · exact hty
  · obtain ⟨c, hc, hnc⟩ := (mem_preorderAll n cs).1 hn
    exact hcs c hc n hnc

theorem identifiersAreLeaves_addChild (b s : ASTNode) (hty : b.nodeType ≠ "Identifier")
    (hb : identifiersAreLeaves b) (hs : identifiersAreLeaves s) :
    identifiersAreLeaves (b.addChild s) ∧ (b.addChild s).nodeType = b.nodeType := by
  rcases b with ⟨ty, v, cs⟩
  refine ⟨identifiersAreLeaves_node _ _ _ (fun h => absurd h hty) ?_, rfl⟩
  intro c hc
  rcases List.mem_append.1 hc with h | h
  · exact (identifiersAreLeaves_mk _ _ _ hb).2 c h
  · simp at h; subst h; exact hs

theorem parsePrimary_leaves (st : ParseState) (r : ASTNode)
    (h : (parsePrimary st).1 = some r) : identifiersAreLeaves r := by
  unfold parsePrimary at h
  split at h
  · simp only [Option.some.injEq] at h; subst h
    exact identifiersAreLeaves_node _ _ _ (fun _ => rfl) (by simp)
  · split at h
    · simp only [Option.some.injEq] at h; subst h
      exact identifiersAreLeaves_node _ _ _ (fun _ => rfl) (by simp)
    · simp at h

theorem exprLoop_leaves (recur : Int → ParseState → PResult (Option ASTNode))
    (hrec : ∀ p st r st1, recur p st = .ok (some r) st1 → identifiersAreLeaves r) :
    ∀ (fuel : Nat) (minPrec : Int) (left : Option ASTNode) (st : ParseState) (r : ASTNode)
      (st1 : ParseState),
      (∀ l, left = some l → identifiersAreLeaves l) →
      exprLoop recur fuel minPrec left st = .ok (some r) st1 → identifiersAreLeaves r := by
  intro fuel
  induction fuel with
  | zero => intro minPrec left st r st1 _ h; simp [exprLoop] at h
  | succ fuel ih =>
    intro minPrec left st r st1 hleft h
    rw [exprLoop] at h
    split at h
    · rcases hr : recur (getPrecedence (currentToken st).value + 1) (advance st) with
        ⟨_ | right, st2⟩ | _ | _
      · simp [hr] at h
      · rw [hr] at h
        rcases left with _ | l
        · simp at h
        · simp only at h
          refine ih _ _ _ _ _ (fun x hx => ?_) h
          simp only [Option.some.injEq] at hx; subst hx
          refine identifiersAreLeaves_node _ _ _ (fun hc => absurd hc (by decide)) ?_
          intro c hc
          simp at hc
          rcases hc with rfl | rfl
          · exact hleft _ rfl
          · exact hrec _ _ _ _ hr
      · simp [hr] at h
      · simp [hr] at h
    · simp only [PResult.ok.injEq] at h
      exact hleft r h.1

theorem parseExpression_leaves :
    ∀ (fuel : Nat) (minPrec : Int) (st : ParseState) (r : ASTNode) (st1 : ParseState),
      parseExpression fuel minPrec st = .ok (some r) st1 → identifiersAreLeaves r := by
  intro fuel
  induction fuel with
  | zero => intro minPrec st r st1 h; simp [parseExpression] at h
  | succ fuel ih =>
    intro minPrec st r st1 h
    rw [parseExpression] at h
    exact exprLoop_leaves _ (fun p st r st1 h => ih p st r st1 h) _ _ _ _ _ _
      (fun l hl => parsePrimary_leaves st l hl) h

/-- A statement node over one optional child that is not an `Identifier`. -/
theorem identifiersAreLeaves_wrap (ty v : String) (expr : Option ASTNode)
    (hty : ty ≠ "Identifier") (hexpr : ∀ e, expr = some e → identifiersAreLeaves e) :
    identifiersAreLeaves (.mk ty v expr.toList) := by
  refine identifiersAreLeaves_node _ _ _ (fun h => absurd h hty) ?_
  intro c hc
  rcases expr with _ | e
  · simp at hc
  · simp at hc; subst hc; exact hexpr _ rfl

theorem parseReturn_leaves (fuel : Nat) (st : ParseState) (r : ASTNode) (st1 : ParseState)
    (h : parseReturn fuel st = .ok (some r) st1) : identifiersAreLeaves r := by
  unfold parseReturn at h
  rcases he : parseExpression fuel 0 (advance st) with ⟨_ | e, st2⟩ | _ | _
  · simp [he] at h
  · simp only [he] at h
    split at h
    · simp at h
    · simp only [PResult.ok.injEq, Option.some.injEq] at h
      obtain ⟨rfl, -⟩ := h
      exact identifiersAreLeaves_wrap "Return" "" (some e) (by decide)
        (fun x hx => by
          simp only [Option.some.injEq] at hx; subst hx
          exact parseExpression_leaves _ _ _ _ _ he)
  · simp [he] at h
  · simp [he] at h

theorem finishPrint_leaves (expr : Option ASTNode) (st : ParseState) (r : ASTNode)
    (st1 : ParseState) (hexpr : ∀ e, expr = some e → identifiersAreLeaves e)
    (h : finishPrint expr st = .ok (some r) st1) : identifiersAreLeaves r := by
  unfold finishPrint at h
  split at h
  · simp at h
  · split at h
    · simp at h
    · rcases expr with _ | e
      · simp only [PResult.ok.injEq, Option.some.injEq] at h
        obtain ⟨rfl, -⟩ := h
        exact identifiersAreLeaves_wrap "Print" "" none (by decide) (by simp)
      · simp only [PResult.ok.injEq, Option.some.injEq] at h
        obtain ⟨rfl, -⟩ := h
        exact identifiersAreLeaves_wrap "Print" "" (some e) (by decide) hexpr

theorem parsePrint_leaves (fuel : Nat) (st : ParseState) (r : ASTNode) (st1 : ParseState)
    (h : parsePrint fuel st = .ok (some r) st1) : identifiersAreLeaves r := by
  unfold parsePrint at h
  simp only at h
  split at h
  · simp at h
  · split at h
    · refine finishPrint_leaves _ _ _ _ ?_ h
      intro e he
      simp only [Option.some.injEq] at he; subst he
      exact identifiersAreLeaves_node _ _ _ (fun _ => rfl) (by simp)
    · rcases he : parseExpression fuel 0 (advance (advance st)) with ⟨expr, st2⟩ | _ | _
      · simp only [he] at h
        refine finishPrint_leaves _ _ _ _ ?_ h
        intro e hsome
        subst hsome
        exact parseExpression_leaves _ _ _ _ _ he
      · simp [he] at h
      · simp [he] at h

theorem finishDeclaration_leaves (varName : String) (expr : Option ASTNode) (st : ParseState)
    (r : ASTNode) (st1 : ParseState) (hexpr : ∀ e, expr = some e → identifiersAreLeaves e)
    (h : finishDeclaration varName expr st = .ok (some r) st1) : identifiersAreLeaves r := by
  unfold finishDeclaration at h
  split at h
  · simp at h
  · rcases expr with _ | e
    · simp only [PResult.ok.injEq, Option.some.injEq] at h
      obtain ⟨rfl, -⟩ := h
      exact identifiersAreLeaves_wrap "Declaration" _ none (by decide) (by simp)
    · simp only [PResult.ok.injEq, Option.some.injEq] at h
      obtain ⟨rfl, -⟩ := h
      exact identifiersAreLeaves_wrap "Declaration" _ (some e) (by decide) hexpr

theorem parseDeclaration_leaves (fuel : Nat) (st : ParseState) (r : ASTNode)
    (st1 : ParseState) (h : parseDeclaration fuel st = .ok (some r) st1) :
    identifiersAreLeaves r := by
  unfold parseDeclaration at h
  simp only at h
  split at h
  · simp at h
  · split at h
    · simp at h
    · split at h
      · simp at h
      · split at h
        · rcases he : parseExpression fuel 0 (advance (advance (advance st))) with
            ⟨_ | e, st2⟩ | _ | _
          · simp [he] at h
          · simp only [he] at h
            refine finishDeclaration_leaves _ _ _ _ _ ?_ h
            intro x hx
            simp only [Option.some.injEq] at hx; subst hx
            exact parseExpression_leaves _ _ _ _ _ he
          · simp [he] at h
          · simp [he] at h
        · exact finishDeclaration_leaves _ _ _ _ _ (by simp) h

theorem blockLoop_leaves (stmt : ParseState → PResult (Option ASTNode))
    (hstmt : ∀ st r st1, stmt st = .ok (some r) st1 → identifiersAreLeaves r) :
    ∀ (fuel : Nat) (block : ASTNode) (st : ParseState) (r : ASTNode) (st1 : ParseState),
      block.nodeType ≠ "Identifier" → identifiersAreLeaves block →
      blockLoop stmt fuel block st = .ok r st1 →
      r.nodeType ≠ "Identifier" ∧ identifiersAreLeaves r := by
  intro fuel
  induction fuel with
  | zero => intro block st r st1 _ _ h; simp [blockLoop] at h
  | succ fuel ih =>
    intro block st r st1 hty hb h
    rw [blockLoop] at h
    split at h
    · rcases hs : stmt st with ⟨_ | s, st2⟩ | _ | _
      · simp only [hs] at h
        exact ih _ _ _ _ hty hb h
      · simp only [hs] at h
        have hadd := identifiersAreLeaves_addChild block s hty hb (hstmt _ _ _ hs)
        exact ih _ _ _ _ (by rw [hadd.2]; exact hty) hadd.1 h
      · simp [hs] at h
      · simp [hs] at h
    · simp only [PResult.ok.injEq] at h
      obtain ⟨rfl, -⟩ := h
      exact ⟨hty, hb⟩

theorem identifiersAreLeaves_empty (ty v : String) (hty : ty ≠ "Identifier") :
    identifiersAreLeaves (.mk ty v []) :=
  identifiersAreLeaves_node _ _ _ (fun h => absurd h hty) (by simp)

theorem parseElse_leaves (stmt : ParseState → PResult (Option ASTNode))
    (hstmt : ∀ st r st1, stmt st = .ok (some r) st1 → identifiersAreLeaves r)
    (fuel : Nat) (condition ifBlock : ASTNode) (st : ParseState) (r : ASTNode)
    (st1 : ParseState) (hc : identifiersAreLeaves condition)
    (hb : identifiersAreLeaves ifBlock)
    (h : parseElse stmt fuel condition ifBlock st = .ok (some r) st1) :
    identifiersAreLeaves r := by
  unfold parseElse at h
  split at h
  · simp only at h
    split at h
    · simp at h
    · rcases hl : blockLoop stmt fuel (.mk "Block" "" []) (advance (advance st)) with
        ⟨elseBlock, st2⟩ | _ | _
      · simp only [hl] at h
        split at h
        · simp at h
        · simp only [PResult.ok.injEq, Option.some.injEq] at h
          obtain ⟨rfl, -⟩ := h
          have he := blockLoop_leaves stmt hstmt _ (.mk "Block" "" []) _ _ _ (by decide)
            (identifiersAreLeaves_empty _ _ (by decide)) hl
          refine identifiersAreLeaves_node _ _ _ (fun hx => absurd hx (by decide)) ?_
          intro c hmem
          simp at hmem
          rcases hmem with rfl | rfl | rfl
          · exact hc
          · exact hb
          · exact he.2
      · simp [hl] at h
      · simp [hl] at h
  · simp only [PResult.ok.injEq, Option.some.injEq] at h
    obtain ⟨rfl, -⟩ := h
    refine identifiersAreLeaves_node _ _ _ (fun hx => absurd hx (by decide)) ?_
    intro c hmem
    simp at hmem
    rcases hmem with rfl | rfl
    · exact hc
    · exact hb

theorem parseIfElse_leaves (stmt : ParseState → PResult (Option ASTNode))
    (hstmt : ∀ st r st1, stmt st = .ok (some r) st1 → identifiersAreLeaves r)
    (fuel : Nat) (st : ParseState) (r : ASTNode) (st1 : ParseState)
    (h : parseIfElse stmt fuel st = .ok (some r) st1) : identifiersAreLeaves r := by
  unfold parseIfElse at h
  simp only at h
  split at h
  · simp at h
  · rcases he : parseExpression fuel 0 (advance (advance st)) with ⟨_ | cond, st2⟩ | _ | _
    · simp [he] at h
    · simp only [he] at h
      split at h
      · simp at h
      · split at h
        · simp at h
        · rcases hl : blockLoop stmt fuel (.mk "Block" "" []) (advance (advance st2)) with
            ⟨ifBlock, st3⟩ | _ | _
          · simp only [hl] at h
            split at h
            · simp at h
            · exact parseElse_leaves stmt hstmt _ _ _ _ _ _
                (parseExpression_leaves _ _ _ _ _ he)
                (blockLoop_leaves stmt hstmt _ (.mk "Block" "" []) _ _ _ (by decide)
                  (identifiersAreLeaves_empty _ _ (by decide)) hl).2 h
          · simp [hl] at h
          · simp [hl] at h
    · simp [he] at h
    · simp [he] at h

theorem parseStatement_leaves :
    ∀ (fuel : Nat) (st : ParseState) (r : ASTNode) (st1 : ParseState),
      parseStatement fuel st = .ok (some r) st1 → identifiersAreLeaves r := by
  intro fuel
  induction fuel with
  | zero => intro st r st1 h; simp [parseStatement] at h
  | succ fuel ih =>
    intro st r st1 h
    rw [parseStatement] at h
    split at h
    · exact parseDeclaration_leaves _ _ _ _ h
    · split at h
      · exact parsePrint_leaves _ _ _ _ h
      · split at h
        · exact parseIfElse_leaves _ ih _ _ _ _ h
        · split at h
          · exact parseReturn_leaves _ _ _ _ h
          · simp at h

theorem programLoop_leaves (stmt : ParseState → PResult (Option ASTNode))
    (hstmt : ∀ st r st1, stmt st = .ok (some r) st1 → identifiersAreLeaves r) :
    ∀ (fuel : Nat) (program : ASTNode) (st : ParseState) (r : ASTNode) (st1 : ParseState),
      program.nodeType ≠ "Identifier" → identifiersAreLeaves program →
      programLoop stmt fuel program st = .ok r st1 → identifiersAreLeaves r := by
  intro fuel
  induction fuel with
  | zero => intro program st r st1 _ _ h; simp [programLoop] at h
  | succ fuel ih =>
    intro program st r st1 hty hb h
    rw [programLoop] at h
    split at h
    · rcases hs : stmt st with ⟨_ | s, st2⟩ | _ | _
      · simp only [hs] at h
        exact ih _ _ _ _ hty hb h
      · simp only [hs] at h
        have hadd := identifiersAreLeaves_addChild program s hty hb (hstmt _ _ _ hs)
        exact ih _ _ _ _ (by rw [hadd.2]; exact hty) hadd.1 h
      · simp [hs] at h
      · simp [hs] at h
    · simp only [PResult.ok.injEq] at h
      obtain ⟨rfl, -⟩ := h
      exact hb

/-- Every tree `parseProgram` returns has the child counts of the invariant,
and its `Identifier` nodes are leaves: `parsePrimary` is the only maker of
`Identifier` nodes and nothing is ever added to them. -/
theorem parseProgram_checkable (tokens : List Token) (errors : List String) (ast : ASTNode)
    (st : ParseState) (h : parseProgram tokens errors = .ok ast st) :
    childCountInvariant ast ∧ identifiersAreLeaves ast :=
  ⟨shapeInvariant_childCount ast (parseProgram_shape tokens errors ast st h).2,
    programLoop_leaves _ (parseStatement_leaves _) _ (.mk "Program" "" []) _ _ _ (by decide)
      (identifiersAreLeaves_empty _ _ (by decide)) h⟩

/-- C5. Every `Identifier` node is checked exactly once. For every tree that
satisfies the child-count invariant, whose `Identifier` nodes are leaves and
that holds no `Declaration` node, checking from an empty symbol table records
exactly one "Undeclared variable" diagnostic per `Identifier` node, in
depth-first left-to-right order, and nothing else. The trees the checker is run
on are those `parseProgram` returns; each of them satisfies the child-count
invariant and has leaf identifiers, so for them the statement holds as soon as
the tree holds no `Declaration`. `prt(y);` yields exactly
"Undeclared variable 'y'". -/
theorem undeclared_identifiers_diagnosed (t : ASTNode) (hinv : childCountInvariant t)
    (hleaf : identifiersAreLeaves t) (hnd : noDeclaration t) :
    semanticAnalysis t ⟨[], []⟩ = some ⟨[], (identifierNames t).map undeclaredMsg⟩ ∧
    (∀ tokens errors ast st, parseProgram tokens errors = .ok ast st → noDeclaration ast →
      semanticAnalysis ast ⟨[], []⟩ = some ⟨[], (identifierNames ast).map undeclaredMsg⟩) ∧
    (compile "prt(y);").map (fun r => r.errors) = some ["Undeclared variable 'y'"] := by
  have key : ∀ a : ASTNode, childCountInvariant a → identifiersAreLeaves a → noDeclaration a →
      semanticAnalysis a ⟨[], []⟩ = some ⟨[], (identifierNames a).map undeclaredMsg⟩ := by
    intro a ha hl hn
    rw [semanticAnalysis_flat a ha hl, foldl_semStep_noDeclaration _ _ hn]
    simp [identifierNames]
  refine ⟨key t hinv hleaf hnd, fun tokens errors ast st hp hn => ?_, by decide!⟩
  obtain ⟨hc, hl⟩ := parseProgram_checkable tokens errors ast st hp
  exact key ast hc hl hn

/-- C5 at the tree of
`prt(a + b * c); agar (d < e) { bhejo f; } nhi-to { prt(g); }`, with identifiers
in a print, in nested binary expressions, in a condition, in a return and in
both blocks. -/
theorem undeclared_identifiers_diagnosed_witness :
    parseSource
        "prt(a + b * c); agar (d < e) \x7b bhejo f; \x7d nhi-to \x7b prt(g); \x7d" =
      some undeclaredSample ∧
    childCountInvariant undeclaredSample ∧ identifiersAreLeaves undeclaredSample ∧
    noDeclaration undeclaredSample ∧
    semanticAnalysis undeclaredSample ⟨[], []⟩ =
      some ⟨[], ["Undeclared variable 'a'", "Undeclared variable 'b'", "Undeclared variable 'c'",
        "Undeclared variable 'd'", "Undeclared variable 'e'", "Undeclared variable 'f'",
        "Undeclared variable 'g'"]⟩ :=
  ⟨by decide!, by decide!, by decide!, by decide!,
    (undeclared_identifiers_diagnosed undeclaredSample (by decide!) (by decide!) (by decide!)).1⟩

end Mukku
